import Mathlib

/-!
Verification of the Dataset Exchange Subsystem (export / duplicate detection /
staged import / reconciled apply) and the search-excerpt helper of the
film-site Flask application (`movie_src/app.py`).

The embedding is shallow: the relational Content Store (SQLite tables) is a
record of lists of rows plus the auto-increment counters; each route handler
or helper that the claims touch is translated into a pure Lean function over
that state.  Python string primitives (`lower`, `strip`, `find`, slicing,
`split`, `replace`, `rsplit`, `re.sub`) are modelled character-wise on
`List Char`, matching Python's character-indexed semantics (Python's Unicode
`lower`/whitespace tables are approximated by `Char.toLower` /
`Char.isWhitespace`; every string appearing in the claims is unaffected by
the approximation).  Timestamps are abstract instants (`Int`); the external
collaborators `datetime.isoformat`, `datetime.fromisoformat` and
`datetime.utcnow` are parameters of an `Env` record, since they live outside
the subsystem under verification.
-/

namespace Film

/-! ### Python string primitives, character-wise -/

/-- Python `str.lower`, applied character by character (`s.lower()`). -/
def pyLower (s : String) : String := ⟨s.data.map Char.toLower⟩

/-- Python `str.strip()`: remove leading and trailing whitespace. -/
def pyStrip (s : String) : String :=
  ⟨((s.data.dropWhile Char.isWhitespace).reverse.dropWhile Char.isWhitespace).reverse⟩

/-- Python `str.rstrip()`: remove trailing whitespace. -/
def pyRStrip (s : String) : String :=
  ⟨(s.data.reverse.dropWhile Char.isWhitespace).reverse⟩

/-- Python `len(s)` (number of characters). -/
def pyLen (s : String) : Nat := s.data.length

/-- Python `s[:n]` for `n ≥ 0`. -/
def pyTake (s : String) (n : Nat) : String := ⟨s.data.take n⟩

/-- Python `s[a:b]` for `0 ≤ a`: characters from index `a` (inclusive) to
`b` (exclusive), clamped to the bounds of `s`. -/
def pySlice (s : String) (a b : Int) : String :=
  ⟨(s.data.drop a.toNat).take (b - a).toNat⟩

/-- Python `s.replace("\n", " ")` (single-character pattern, hence a map). -/
def flattenNl (s : String) : String :=
  ⟨s.data.map (fun c => if c = '\n' then ' ' else c)⟩

/-- Python `s.rsplit(" ", 1)[0]`: everything strictly before the last space,
or the whole string when it contains no space. -/
def beforeLastSpace (s : String) : String :=
  match s.data.reverse.dropWhile (fun c => ¬ c = ' ') with
  | [] => s
  | _ :: rest => ⟨rest.reverse⟩

/-- Python `s.split()` (split on runs of whitespace, dropping empty pieces). -/
def pySplitWs (s : String) : List String :=
  ((s.data.splitOnP Char.isWhitespace).map (fun l => (⟨l⟩ : String))).filter
    (fun t => ¬ t = "")

/-- First index at which `needle` occurs in `hay` (both as character lists);
`none` when it does not occur.  Mirrors the scan of Python `str.find`. -/
def findSub (needle : List Char) : List Char → Option Nat
  | [] => if needle.isPrefixOf ([] : List Char) then some 0 else none
  | c :: rest =>
    if needle.isPrefixOf (c :: rest) then some 0
    else (findSub needle rest).map (· + 1)

/-- Python `hay.find(needle)`: first index of occurrence, `-1` if absent. -/
def pyFind (hay needle : String) : Int :=
  match findSub needle.data hay.data with
  | some n => (n : Int)
  | none => -1

/-- Python `str.startswith` on a literal prefix. -/
def pyStartsWith (s pre : String) : Bool := pre.data.isPrefixOf s.data

/-- Python `s[n:]` for `n ≥ 0`. -/
def pyDrop (s : String) (n : Nat) : String := ⟨s.data.drop n⟩

/-- The core of `re.sub(r"/story/(\d+)", lambda m: f"/story/{nid}", url)`:
scan left to right; at each position, if the text starts with `/story/`
followed by at least one digit, replace that whole match by `/story/` and
the decimal rendering of `nid`, then continue after the digits (the
matched digit run is consumed one character at a time under the `skipping`
flag, keeping the recursion structural); otherwise emit one character and
move on.  (Python's `\d` also matches non-ASCII digits; URLs produced by
the application only ever contain ASCII digits.) -/
def subStoryAux (nid : Nat) : Bool → List Char → List Char
  | _, [] => []
  | _, '/' :: 's' :: 't' :: 'o' :: 'r' :: 'y' :: '/' :: rest =>
    if (rest.takeWhile Char.isDigit).isEmpty then
      '/' :: subStoryAux nid false ('s' :: 't' :: 'o' :: 'r' :: 'y' :: '/' :: rest)
    else
      '/' :: 's' :: 't' :: 'o' :: 'r' :: 'y' :: '/' ::
        ((Nat.repr nid).data ++ subStoryAux nid true rest)
  | skipping, c :: rest =>
    if skipping && c.isDigit then subStoryAux nid true rest
    else c :: subStoryAux nid false rest

/-- Scanning starts outside a digit run. -/
def subStoryChars (nid : Nat) (l : List Char) : List Char := subStoryAux nid false l

/-- Python `re.sub(r"/story/(\d+)", lambda m: f"/story/{nid}", url)`. -/
def pySubStoryUrl (nid : Nat) (url : String) : String := ⟨subStoryChars nid url.data⟩

/-- Association-list lookup modelling Python `dict.get` where the most
recent binding is kept at the front of the list. -/
def dictGet (m : List (Nat × Nat)) (k : Nat) : Option Nat :=
  match m with
  | [] => none
  | (a, b) :: rest => if k = a then some b else dictGet rest k

/-! ### The Content Store (relational state) -/

/-- Row of the `categories` table. -/
structure Category where
  id : Nat
  name : String
  deriving DecidableEq, Repr

/-- Row of the `stories` table. -/
structure Story where
  id : Nat
  title : String
  author : Option String
  story_type : String
  created_at : Int
  views : Int
  is_hidden : Bool
  is_completed : Bool
  rating_sum : Int
  rating_count : Int
  category_id : Option Nat
  deriving DecidableEq, Repr

/-- Row of the `parts` table (a chapter of a story). -/
structure DPart where
  id : Nat
  story_id : Nat
  part_number : Int
  content : String
  created_at : Int
  deriving DecidableEq, Repr

/-- Row of the `comments` table. -/
structure DComment where
  id : Nat
  story_id : Nat
  url : String
  name : Option String
  email : Option String
  content : String
  created_at : Int
  deriving DecidableEq, Repr

/-- Row of the `part_videos` table. -/
structure PartVideo where
  id : Nat
  part_id : Nat
  url : String
  deriving DecidableEq, Repr

/-- The whole Content Store: the five tables, the `story_categories`
association table (pairs `(story_id, category_id)`), and the auto-increment
counter of each table (SQLite assigns `nextXId` to the next inserted row). -/
structure DB where
  categories : List Category
  stories : List Story
  parts : List DPart
  comments : List DComment
  videos : List PartVideo
  storyCats : List (Nat × Nat)
  nextCategoryId : Nat
  nextStoryId : Nat
  nextPartId : Nat
  nextCommentId : Nat
  nextVideoId : Nat
  deriving DecidableEq, Repr

/-- A freshly created database: empty tables, counters starting at 1. -/
def emptyDB : DB :=
  { categories := [], stories := [], parts := [], comments := [], videos := []
    storyCats := [], nextCategoryId := 1, nextStoryId := 1, nextPartId := 1
    nextCommentId := 1, nextVideoId := 1 }

/-! ### The exchange document (parsed JSON) -/

/-- Record of the `categories` array of an exchange document. -/
structure DocCategory where
  id : Nat
  name : String
  deriving DecidableEq, Repr

/-- Record of the `stories` array of an exchange document.  Fields mirror
the export schema of `export_data`; `created_at` is the ISO string or JSON
`null`. -/
structure DocStory where
  id : Nat
  title : String
  author : Option String
  story_type : String
  created_at : Option String
  views : Int
  is_hidden : Bool
  is_completed : Bool
  rating_sum : Int
  rating_count : Int
  category_id : Option Nat
  categories : List Nat
  deriving DecidableEq, Repr

/-- Record of the `parts` array of an exchange document. -/
structure DocPart where
  id : Nat
  story_id : Nat
  part_number : Int
  content : String
  created_at : Option String
  deriving DecidableEq, Repr

/-- Record of the `comments` array of an exchange document. -/
structure DocComment where
  id : Nat
  story_id : Nat
  url : String
  name : Option String
  email : Option String
  content : String
  created_at : Option String
  deriving DecidableEq, Repr

/-- Record of the `videos` array of an exchange document. -/
structure DocVideo where
  id : Nat
  part_id : Nat
  url : String
  deriving DecidableEq, Repr

/-- A parsed exchange document: the five top-level arrays. -/
structure Document where
  categories : List DocCategory
  stories : List DocStory
  parts : List DocPart
  comments : List DocComment
  videos : List DocVideo
  deriving DecidableEq, Repr

/-- External time collaborators: `datetime.isoformat` (encoding an instant
as a string), `datetime.fromisoformat` (partial decoding; `none` models the
`ValueError` of a malformed string) and `datetime.utcnow`. -/
structure Env where
  isoformat : Int → String
  parseIso : String → Option Int
  now : Int

/-! ### Timestamp decoding (`perform_import`, the three repeated
`datetime.fromisoformat` / `datetime.utcnow()` blocks) -/

/-- Decoding of a `created_at` document field: absent or empty strings are
falsy (`if created_at_str:`) and yield `utcnow()`; otherwise
`fromisoformat` is attempted and its failure also yields `utcnow()`. -/
def decodeTs (env : Env) : Option String → Int
  | none => env.now
  | some s => if s = "" then env.now else (env.parseIso s).getD env.now

/-! ### `perform_import` (app.py lines 1132-1308), phase by phase.

The source threads one database session; each phase is translated as a
recursive function from the incoming array and the current `DB` to the
updated `DB` (plus the id-remapping built by the phase).  The remapping
dicts are association lists with the most recent binding in front, looked
up with `dictGet`.  The PostgreSQL sequence resynchronisation at the end of
the source (lines 1300-1307) touches only the hidden sequence counters of
that engine and has no counterpart in this model, whose counters already
follow the inserts. -/

/-- Phase 1, categories: reuse an existing category whose name matches
case-insensitively, else create one; categories with a falsy name are
skipped.  Returns the updated store and `category_objs` (incoming category
id, resolved category id). -/
def importCategories (db : DB) : List DocCategory → DB × List (Nat × Nat)
  | [] => (db, [])
  | cat :: rest =>
    if cat.name = "" then importCategories db rest
    else
      match db.categories.find? (fun c => pyLower c.name = pyLower cat.name) with
      | some existing =>
        let r := importCategories db rest
        (r.1, r.2 ++ [(cat.id, existing.id)])
      | none =>
        let cobj : Category := { id := db.nextCategoryId, name := cat.name }
        let r := importCategories
          { db with categories := db.categories ++ [cobj],
                    nextCategoryId := db.nextCategoryId + 1 } rest
        (r.1, r.2 ++ [(cat.id, cobj.id)])

/-- The cascading delete of the `overwrite` branch (lines 1184-1195):
detach the category associations, delete the videos of the story's parts,
the parts, the comments, then the story row itself. -/
def deleteStoryCascade (db : DB) (exId : Nat) : DB :=
  let exPartIds := (db.parts.filter (fun p => p.story_id = exId)).map (fun p => p.id)
  { db with
    storyCats := db.storyCats.filter (fun pr => ¬ pr.1 = exId),
    videos := db.videos.filter (fun v => ¬ v.part_id ∈ exPartIds),
    parts := db.parts.filter (fun p => ¬ p.story_id = exId),
    comments := db.comments.filter (fun c => ¬ c.story_id = exId),
    stories := db.stories.filter (fun s => ¬ s.id = exId) }

/-- Resolution of an incoming story's category list through
`category_objs`: `[category_objs[cid] for cid in cat_ids if cid in category_objs]`. -/
def resolvedCats (catMap : List (Nat × Nat)) (st : DocStory) : List Nat :=
  st.categories.filterMap (fun cid => dictGet catMap cid)

/-- The new `Story` row created for an incoming story (lines 1198-1229):
fresh identity, scalar fields copied, `category_id` set to the first
resolved category (or none). -/
def mkStory (env : Env) (catMap : List (Nat × Nat)) (sid : Nat) (st : DocStory) : Story :=
  { id := sid, title := st.title, author := st.author, story_type := st.story_type
    created_at := decodeTs env st.created_at, views := st.views
    is_hidden := st.is_hidden, is_completed := st.is_completed
    rating_sum := st.rating_sum, rating_count := st.rating_count
    category_id := (resolvedCats catMap st).head? }

/-- Creation of the new story row plus its `story_categories` association
rows; returns the store and the fresh id recorded in `story_map`. -/
def createStory (env : Env) (catMap : List (Nat × Nat)) (db : DB) (st : DocStory) :
    DB × Nat :=
  let sid := db.nextStoryId
  ({ db with
      stories := db.stories ++ [mkStory env catMap sid st],
      storyCats := db.storyCats ++ (resolvedCats catMap st).map (fun c => (sid, c)),
      nextStoryId := sid + 1 }, sid)

/-- Result of the story phase: updated store, `story_map`, and the three
counters `(imported, overwritten, skipped)`. -/
structure StoryPhase where
  db : DB
  smap : List (Nat × Nat)
  imported : Nat
  overwritten : Nat
  skipped : Nat

/-- The `overwrite` branch of the story phase (lines 1181-1196): when the
decision is `overwrite` and a stored story's title matches the trimmed
incoming title case-insensitively, the first such story is deleted with its
cascade and the overwrite is counted. -/
def overwriteStep (dec : Nat → Option String) (db : DB) (st : DocStory) :
    DB × Nat :=
  if dec st.id = some "overwrite" then
    match db.stories.find? (fun s => pyLower s.title = pyLower (pyStrip st.title)) with
    | some ex => (deleteStoryCascade db ex.id, 1)
    | none => (db, 0)
  else (db, 0)

/-- Phase 2, stories (lines 1171-1231).  Per incoming story: `skip` counts
and emits nothing; `overwrite` first deletes the first stored story whose
title matches the trimmed incoming title case-insensitively (counting it
only when such a story exists); then a new story is always created with a
fresh identity.  The decision lookup models
`decisions.get(str(old_id)) or decisions.get(old_id)` as a single map. -/
def importStories (env : Env) (dec : Nat → Option String) (catMap : List (Nat × Nat))
    (db : DB) : List DocStory → StoryPhase
  | [] => { db := db, smap := [], imported := 0, overwritten := 0, skipped := 0 }
  | st :: rest =>
    if dec st.id = some "skip" then
      let r := importStories env dec catMap db rest
      { r with skipped := r.skipped + 1 }
    else
      let step := overwriteStep dec db st
      let created := createStory env catMap step.1 st
      let r := importStories env dec catMap created.1 rest
      { db := r.db, smap := r.smap ++ [(st.id, created.2)]
        imported := r.imported + 1, overwritten := r.overwritten + step.2
        skipped := r.skipped }

/-- Phase 3, parts (lines 1234-1256): a part whose original story id is not
in `story_map` is dropped; otherwise a new part is created under the mapped
story with a fresh identity, recorded in `part_map`. -/
def importParts (env : Env) (smap : List (Nat × Nat)) (db : DB) :
    List DocPart → DB × List (Nat × Nat)
  | [] => (db, [])
  | p :: rest =>
    match dictGet smap p.story_id with
    | none => importParts env smap db rest
    | some nsid =>
      let np : DPart := { id := db.nextPartId, story_id := nsid
                          part_number := p.part_number, content := p.content
                          created_at := decodeTs env p.created_at }
      let r := importParts env smap
        { db with parts := db.parts ++ [np], nextPartId := db.nextPartId + 1 } rest
      (r.1, r.2 ++ [(p.id, np.id)])

/-- Phase 4, comments (lines 1259-1287): dropped when the mapped story id
is falsy (`if not new_story_id`), otherwise created under the mapped story
with every `/story/<digits>` fragment of the stored URL rewritten to the
new story id. -/
def importComments (env : Env) (smap : List (Nat × Nat)) (db : DB) :
    List DocComment → DB
  | [] => db
  | c :: rest =>
    match dictGet smap c.story_id with
    | none => importComments env smap db rest
    | some nsid =>
      if nsid = 0 then importComments env smap db rest
      else
        let nc : DComment := { id := db.nextCommentId, story_id := nsid
                               url := pySubStoryUrl nsid c.url, name := c.name
                               email := c.email, content := c.content
                               created_at := decodeTs env c.created_at }
        importComments env smap
          { db with comments := db.comments ++ [nc]
                    nextCommentId := db.nextCommentId + 1 } rest

/-- Phase 5, videos (lines 1290-1298): dropped when the mapped part id is
falsy or the url is falsy; otherwise attached to the mapped part. -/
def importVideos (pmap : List (Nat × Nat)) (db : DB) : List DocVideo → DB
  | [] => db
  | v :: rest =>
    match dictGet pmap v.part_id with
    | none => importVideos pmap db rest
    | some npid =>
      if npid = 0 then importVideos pmap db rest
      else if v.url = "" then importVideos pmap db rest
      else
        importVideos pmap
          { db with videos := db.videos ++ [{ id := db.nextVideoId, part_id := npid
                                              url := v.url }]
                    nextVideoId := db.nextVideoId + 1 } rest

/-- Result of `perform_import`: final store and the returned triple. -/
structure ImportResult where
  db : DB
  imported : Nat
  overwritten : Nat
  skipped : Nat
  deriving DecidableEq, Repr

/-- The whole of `perform_import(data, decisions)` (lines 1132-1308). -/
def perform_import (env : Env) (doc : Document) (dec : Nat → Option String)
    (db : DB) : ImportResult :=
  let c := importCategories db doc.categories
  let r := importStories env dec c.2 c.1 doc.stories
  let ph := importParts env r.smap r.db doc.parts
  let db4 := importComments env r.smap ph.1 doc.comments
  let db5 := importVideos ph.2 db4 doc.videos
  { db := db5, imported := r.imported, overwritten := r.overwritten
    skipped := r.skipped }

/-! ### `export_data` (app.py lines 894-967) -/

/-- Category identities associated to a story, in association-table order
(`[cat.id for cat in s.categories]`). -/
def assocCatIds (db : DB) (sid : Nat) : List Nat :=
  (db.storyCats.filter (fun pr => pr.1 = sid)).map (fun pr => pr.2)

/-- The serialized document produced by the export endpoint: five arrays,
each record carrying its original identity and all scalar fields;
timestamps encoded with `isoformat`. -/
def export_data (env : Env) (db : DB) : Document :=
  { categories := db.categories.map (fun c => { id := c.id, name := c.name })
    stories := db.stories.map (fun s =>
      { id := s.id, title := s.title, author := s.author
        story_type := s.story_type, created_at := some (env.isoformat s.created_at)
        views := s.views, is_hidden := s.is_hidden, is_completed := s.is_completed
        rating_sum := s.rating_sum, rating_count := s.rating_count
        category_id := s.category_id, categories := assocCatIds db s.id })
    parts := db.parts.map (fun p =>
      { id := p.id, story_id := p.story_id, part_number := p.part_number
        content := p.content, created_at := some (env.isoformat p.created_at) })
    comments := db.comments.map (fun c =>
      { id := c.id, story_id := c.story_id, url := c.url, name := c.name
        email := c.email, content := c.content
        created_at := some (env.isoformat c.created_at) })
    videos := db.videos.map (fun v =>
      { id := v.id, part_id := v.part_id, url := v.url }) }

/-! ### Duplicate detection and the review payload
(`import_data`, app.py lines 1005-1054) -/

/-- Whether an incoming story collides with a stored title: its trimmed
title, lower-cased, is among the lower-cased stored titles. -/
def isDuplicate (db : DB) (st : DocStory) : Bool :=
  (db.stories.map (fun s => pyLower s.title)).contains (pyLower (pyStrip st.title))

/-- The duplicate / non-duplicate split of the incoming stories, in input
order (the loop of lines 1009-1014). -/
def classifyStories (db : DB) (stories : List DocStory) :
    List DocStory × List DocStory :=
  stories.partition (fun st => isDuplicate db st)

/-- The stored story's first chapter: minimum `part_number`
(`order_by(Part.part_number).first()`). -/
def firstPart (db : DB) (sid : Nat) : Option DPart :=
  (db.parts.filter (fun p => p.story_id = sid)).foldl
    (fun acc p =>
      match acc with
      | none => some p
      | some q => if p.part_number < q.part_number then some p else acc) none

/-- The 400-character excerpt logic repeated on both sides of the review
(lines 1033-1036 and 1042-1045): flatten newlines, take the first 400
characters, and when the flattened text is longer than 400 characters trim
back to the last space and append an ellipsis. -/
def buildSnippet (t : String) : String :=
  let flat := flattenNl t
  let snippet := pyTake flat 400
  if pyLen flat > 400 then beforeLastSpace snippet ++ "..." else snippet

/-- One record of the review payload shown for a duplicate. -/
structure DupInfo where
  json_id : Nat
  db_id : Option Nat
  title : String
  db_snippet : String
  json_snippet : String
  deriving DecidableEq, Repr

/-- The review record built for one duplicate story (lines 1019-1054):
the stored colliding story is looked up by the (untrimmed) incoming title;
its excerpt comes from its first chapter when that chapter has truthy
content; the incoming excerpt comes from the first document part with the
story's original id and sequence number 1. -/
def buildDupInfo (db : DB) (doc : Document) (st : DocStory) : DupInfo :=
  let existing := db.stories.find? (fun s => pyLower s.title = pyLower st.title)
  let dbSnippet :=
    match existing with
    | none => ""
    | some ex =>
      match firstPart db ex.id with
      | none => ""
      | some p => if p.content = "" then "" else buildSnippet p.content
  let jsonSnippet :=
    match doc.parts.find? (fun p => p.story_id = st.id ∧ p.part_number = 1) with
    | none => ""
    | some p => buildSnippet p.content
  { json_id := st.id, db_id := existing.map (fun s => s.id), title := st.title
    db_snippet := dbSnippet, json_snippet := jsonSnippet }

/-- The full review payload: one record per detected duplicate, in order. -/
def importReview (db : DB) (doc : Document) : List DupInfo :=
  (classifyStories db doc.stories).1.map (fun st => buildDupInfo db doc st)

/-! ### The content-search excerpt (`upload`, app.py lines 556-576) -/

/-- Keywords of a search query:
`[kw.lower() for kw in search_query.split() if kw.strip()]`. -/
def queryKeywords (query : String) : List String :=
  ((pySplitWs query).filter (fun kw => ¬ pyStrip kw = "")).map pyLower

/-- The excerpt around the first match (lines 568-576): find the first
case-insensitive occurrence of the whole query; if absent, fall back to the
first occurrence of the first keyword (index 0 when there are no keywords);
then slice from 50 characters before the match start to 50 characters after
the end position of the full query, clamped to the text. -/
def findExcerpt (content query : String) : String :=
  let contentLower := pyLower content
  let idx0 := pyFind contentLower (pyLower query)
  let idx :=
    if idx0 < 0 then
      match (queryKeywords query).head? with
      | some kw => pyFind contentLower kw
      | none => 0
    else idx0
  let start := max 0 (idx - 50)
  let stop := min (pyLen content : Int) (idx + (pyLen query : Int) + 50)
  pySlice content start stop

/-! ### Admin chapter operations (`upload`, app.py lines 589-824) -/

/-- Appending the posted video links to a part (lines 688-694 / 817-823):
at most nine links, stripped, falsy ones skipped. -/
def addVideosTo (db : DB) (pid : Nat) : List String → DB
  | [] => db
  | u :: us =>
    let u1 := pyStrip u
    if u1 = "" then addVideosTo db pid us
    else addVideosTo
      { db with videos := db.videos ++ [{ id := db.nextVideoId, part_id := pid
                                          url := u1 }]
                nextVideoId := db.nextVideoId + 1 } pid us

/-- Renaming of a leading `### Phần ` / `## Phần ` heading of the first
line to `Chương ` (lines 670-680). -/
def chapterHeading (line : List Char) : List Char :=
  if "### Phần ".data.isPrefixOf line then "Chương ".data ++ line.drop 9
  else if "## Phần ".data.isPrefixOf line then "Chương ".data ++ line.drop 8
  else line

/-- Python `content.split('\n', 1)`: first line and, when a newline exists,
the remainder. -/
def splitFirstNl : List Char → List Char × Option (List Char)
  | [] => ([], none)
  | '\n' :: rest => ([], some rest)
  | c :: rest =>
    let (a, b) := splitFirstNl rest
    (c :: a, b)

/-- The content transformation applied by `add_part`. -/
def chapterize (content : String) : String :=
  match splitFirstNl content.data with
  | (fl, none) => ⟨chapterHeading fl⟩
  | (fl, some rest) => ⟨chapterHeading fl ++ '\n' :: rest⟩

/-- The story's last part:
`order_by(Part.part_number.desc()).first()` (maximum `part_number`). -/
def lastPart (db : DB) (sid : Nat) : Option DPart :=
  (db.parts.filter (fun p => p.story_id = sid)).foldl
    (fun acc p =>
      match acc with
      | none => some p
      | some q => if q.part_number < p.part_number then some p else acc) none

/-- The maximum-`part_number` fold of `lastPart`, abstracted over the
accumulator so that it can be characterized by induction. -/
def maxFold (acc : Option DPart) (l : List DPart) : Option DPart :=
  l.foldl
    (fun acc p =>
      match acc with
      | none => some p
      | some q => if q.part_number < p.part_number then some p else acc) acc

/-- Creation of a new story together with its first chapter
(lines 776-824): trimmed title and content must be truthy; the story gets
the selected categories (resolved against the stored table, in table
order), `category_id` is the first posted id, and the first part is created
with sequence number 1, followed by the posted video links. -/
def uploadNewStory (env : Env) (db : DB) (title author story_type : String)
    (is_completed : Bool) (cat_ids : List Nat) (content : String)
    (video_urls : List String) : DB :=
  let title := pyStrip title
  let author := pyStrip author
  let content := pyStrip content
  if title = "" ∨ content = "" then db
  else
    let sid := db.nextStoryId
    let selected := db.categories.filter (fun c => cat_ids.contains c.id)
    let newRow : Story :=
      { id := sid, title := title, author := some author
        story_type := story_type, created_at := env.now, views := 0
        is_hidden := false, is_completed := is_completed, rating_sum := 0
        rating_count := 0, category_id := cat_ids.head? }
    let db1 :=
      { db with
        stories := db.stories ++ [newRow]
        storyCats := db.storyCats ++ selected.map (fun c : Category => (sid, c.id))
        nextStoryId := sid + 1 }
    let pid := db1.nextPartId
    let firstRow : DPart :=
      { id := pid, story_id := sid, part_number := 1
        content := content, created_at := env.now }
    let db2 :=
      { db1 with
        parts := db1.parts ++ [firstRow]
        nextPartId := pid + 1 }
    addVideosTo db2 pid (video_urls.take 9)

/-- The `add_part` action (lines 658-695): append a chapter numbered one
past the current last part (1 when the story has none), after the heading
rewrite; empty content (after `rstrip`) aborts.  A missing story id is a
404 and changes nothing. -/
def uploadAddPart (env : Env) (db : DB) (sid : Nat) (content : String)
    (video_urls : List String) : DB :=
  if ¬ db.stories.any (fun s => s.id = sid) then db
  else
    let content := pyRStrip content
    if content = "" then db
    else
      let content := chapterize content
      let nextNumber :=
        match lastPart db sid with
        | some lp => lp.part_number + 1
        | none => 1
      let pid := db.nextPartId
      let db1 :=
        { db with
          parts := db.parts ++ [{ id := pid, story_id := sid
                                  part_number := nextNumber, content := content
                                  created_at := env.now }]
          nextPartId := pid + 1 }
      addVideosTo db1 pid (video_urls.take 9)

/-- The `delete_last` action (lines 696-702): delete the chapter with the
highest sequence number, when one exists.  The ORM-level delete cascades to
the part's video links (`cascade="all, delete-orphan"` on `Part.videos`). -/
def uploadDeleteLast (db : DB) (sid : Nat) : DB :=
  if ¬ db.stories.any (fun s => s.id = sid) then db
  else
    match lastPart db sid with
    | none => db
    | some lp =>
      { db with parts := db.parts.filter (fun p => ¬ p.id = lp.id)
                videos := db.videos.filter (fun v => ¬ v.part_id = lp.id) }

/-- The chapter-affecting operations of the admin area plus the import
apply, as a small command language for stating invariants over operation
sequences. -/
inductive AdminOp where
  | newStory (title author story_type : String) (is_completed : Bool)
      (cat_ids : List Nat) (content : String) (video_urls : List String)
  | addPart (sid : Nat) (content : String) (video_urls : List String)
  | deleteLast (sid : Nat)
  | applyImport (doc : Document) (dec : Nat → Option String)

/-- Interpretation of one admin operation. -/
def applyOp (env : Env) (db : DB) : AdminOp → DB
  | AdminOp.newStory t a ty comp cids content vids =>
    uploadNewStory env db t a ty comp cids content vids
  | AdminOp.addPart sid content vids => uploadAddPart env db sid content vids
  | AdminOp.deleteLast sid => uploadDeleteLast db sid
  | AdminOp.applyImport doc dec => (perform_import env doc dec db).db

/-- Interpretation of a sequence of admin operations, first to last. -/
def applyOps (env : Env) : List AdminOp → DB → DB
  | [], db => db
  | op :: ops, db => applyOps env ops (applyOp env db op)

/-! ### Closed forms of the import phases.

The phase functions above thread the store; the following builders compute
the rows a phase appends and the remapping it constructs, given the
starting value of the relevant auto-increment counter.  They are related to
the phase functions by the characterization lemmas further down and give
the inductions a db-free shape. -/

/-- Remapping built when every processed key receives a fresh consecutive
identity, in processing order (the phases return its reverse, since a
Python dict keeps the most recent binding). -/
def freshMap (start : Nat) : List Nat → List (Nat × Nat)
  | [] => []
  | k :: ks => (k, start) :: freshMap (start + 1) ks

/-- Part rows appended by the part phase: one per document part whose
original story id is mapped, with consecutive fresh identities. -/
def keptParts (env : Env) (smap : List (Nat × Nat)) (start : Nat) :
    List DocPart → List DPart
  | [] => []
  | p :: rest =>
    match dictGet smap p.story_id with
    | none => keptParts env smap start rest
    | some nsid =>
      { id := start, story_id := nsid, part_number := p.part_number
        content := p.content, created_at := decodeTs env p.created_at } ::
        keptParts env smap (start + 1) rest

/-- The `part_map` built by the part phase, in processing order. -/
def keptPMap (smap : List (Nat × Nat)) (start : Nat) :
    List DocPart → List (Nat × Nat)
  | [] => []
  | p :: rest =>
    match dictGet smap p.story_id with
    | none => keptPMap smap start rest
    | some _ => (p.id, start) :: keptPMap smap (start + 1) rest

/-- Comment rows appended by the comment phase. -/
def keptComments (env : Env) (smap : List (Nat × Nat)) (start : Nat) :
    List DocComment → List DComment
  | [] => []
  | c :: rest =>
    match dictGet smap c.story_id with
    | none => keptComments env smap start rest
    | some nsid =>
      if nsid = 0 then keptComments env smap start rest
      else
        { id := start, story_id := nsid, url := pySubStoryUrl nsid c.url
          name := c.name, email := c.email, content := c.content
          created_at := decodeTs env c.created_at } ::
          keptComments env smap (start + 1) rest

/-- Video rows appended by the video phase. -/
def keptVideos (pmap : List (Nat × Nat)) (start : Nat) :
    List DocVideo → List PartVideo
  | [] => []
  | v :: rest =>
    match dictGet pmap v.part_id with
    | none => keptVideos pmap start rest
    | some npid =>
      if npid = 0 then keptVideos pmap start rest
      else if v.url = "" then keptVideos pmap start rest
      else
        { id := start, part_id := npid, url := v.url } ::
          keptVideos pmap (start + 1) rest

/-- Story rows appended by the story phase when no story is skipped or
overwritten (the pure-creation case). -/
def freshStories (env : Env) (catMap : List (Nat × Nat)) (start : Nat) :
    List DocStory → List Story
  | [] => []
  | st :: rest => mkStory env catMap start st :: freshStories env catMap (start + 1) rest

/-- Association rows appended by the story phase in the pure-creation
case. -/
def freshAssocs (catMap : List (Nat × Nat)) (start : Nat) :
    List DocStory → List (Nat × Nat)
  | [] => []
  | st :: rest =>
    (resolvedCats catMap st).map (fun c => (start, c)) ++
      freshAssocs catMap (start + 1) rest

/-! ### Well-formedness of stores and documents.

These predicates collect the integrity facts that hold of every store the
application can actually produce (primary keys are unique and below the
auto-increment counter; foreign keys reference existing rows; video links
are created non-empty) and of every document produced by `export_data`. -/

/-- Identity discipline of a live store: primary keys unique and below the
table's next auto-increment value, foreign keys below the referenced
counter. -/
def idsWF (db : DB) : Prop :=
  (∀ s ∈ db.stories, s.id < db.nextStoryId) ∧
  (db.stories.map (fun s => s.id)).Nodup ∧
  (∀ p ∈ db.parts, p.id < db.nextPartId ∧ p.story_id < db.nextStoryId) ∧
  (db.parts.map (fun p => p.id)).Nodup ∧
  (∀ c ∈ db.comments, c.story_id < db.nextStoryId) ∧
  (∀ v ∈ db.videos, v.part_id < db.nextPartId) ∧
  1 ≤ db.nextStoryId ∧ 1 ≤ db.nextPartId

/-- Referential and naming integrity of a store being exported: unique
identities, category names truthy and case-insensitively distinct, foreign
keys resolving, video links truthy. -/
def storeWF (S : DB) : Prop :=
  (S.categories.map (fun c => c.id)).Nodup ∧
  (∀ c ∈ S.categories, ¬ c.name = "") ∧
  (S.categories.map (fun c => pyLower c.name)).Nodup ∧
  (S.stories.map (fun s => s.id)).Nodup ∧
  (S.parts.map (fun p => p.id)).Nodup ∧
  (∀ pr ∈ S.storyCats, pr.2 ∈ S.categories.map (fun c => c.id)) ∧
  (∀ p ∈ S.parts, p.story_id ∈ S.stories.map (fun s => s.id)) ∧
  (∀ c ∈ S.comments, c.story_id ∈ S.stories.map (fun s => s.id)) ∧
  (∀ v ∈ S.videos, v.part_id ∈ S.parts.map (fun p => p.id)) ∧
  (∀ v ∈ S.videos, ¬ v.url = "")

instance storeWFDec (S : DB) : Decidable (storeWF S) := by
  unfold storeWF
  infer_instance

/-- Faithfulness of the timestamp collaborators on the instants stored in
`S`: `fromisoformat` inverts `isoformat` and the encodings are truthy
(Python's `datetime` satisfies both for every instant). -/
def envFaithfulOn (env : Env) (S : DB) : Prop :=
  (∀ s ∈ S.stories,
    env.parseIso (env.isoformat s.created_at) = some s.created_at ∧
      ¬ env.isoformat s.created_at = "") ∧
  (∀ p ∈ S.parts,
    env.parseIso (env.isoformat p.created_at) = some p.created_at ∧
      ¬ env.isoformat p.created_at = "") ∧
  (∀ c ∈ S.comments,
    env.parseIso (env.isoformat c.created_at) = some c.created_at ∧
      ¬ env.isoformat c.created_at = "")

instance envFaithfulOnDec (env : Env) (S : DB) : Decidable (envFaithfulOn env S) := by
  unfold envFaithfulOn
  infer_instance

/-! ### The round-trip image (claim side).

`roundTripImage S` spells out the isomorphic copy that the round-trip claim
asserts: every entity keeps its scalar fields and its cross-references,
consistently renumbered by position (fresh identities start at 1 in an
empty store), with the two deviations the code forces: a comment's stored
URL has its `/story/<digits>` fragments rewritten to the story's new
identity, and a story's primary category becomes its first association. -/

/-- Positional renumbering: the row whose old identity is `x` receives
`1 + (index of x)`. -/
def renumber (ids : List Nat) (x : Nat) : Nat := 1 + ids.indexOf x

/-- Renumbering of story identities of store `S`. -/
def storyRenum (S : DB) : Nat → Nat := renumber (S.stories.map (fun s => s.id))

/-- Renumbering of category identities of store `S`. -/
def catRenum (S : DB) : Nat → Nat := renumber (S.categories.map (fun c => c.id))

/-- Renumbering of part identities of store `S`. -/
def partRenum (S : DB) : Nat → Nat := renumber (S.parts.map (fun p => p.id))

/-- Image categories: same names, positional identities from `n`. -/
def imgCats : Nat → List Category → List Category
  | _, [] => []
  | n, c :: cs => { id := n, name := c.name } :: imgCats (n + 1) cs

/-- Image stories: scalar fields kept, positional identities, primary
category remapped to the first association (or none). -/
def imgStories (S : DB) (σC : Nat → Nat) : Nat → List Story → List Story
  | _, [] => []
  | n, s :: ss =>
    { id := n, title := s.title, author := s.author, story_type := s.story_type
      created_at := s.created_at, views := s.views, is_hidden := s.is_hidden
      is_completed := s.is_completed, rating_sum := s.rating_sum
      rating_count := s.rating_count
      category_id := ((assocCatIds S s.id).map σC).head? } :: imgStories S σC (n + 1) ss

/-- Image parts: scalar fields kept, story reference renumbered. -/
def imgParts (σS : Nat → Nat) : Nat → List DPart → List DPart
  | _, [] => []
  | n, p :: ps =>
    { id := n, story_id := σS p.story_id, part_number := p.part_number
      content := p.content, created_at := p.created_at } :: imgParts σS (n + 1) ps

/-- Image comments: scalar fields kept except that `/story/<digits>`
fragments of the URL are rewritten to the renumbered story identity. -/
def imgComments (σS : Nat → Nat) : Nat → List DComment → List DComment
  | _, [] => []
  | n, c :: cs =>
    { id := n, story_id := σS c.story_id
      url := pySubStoryUrl (σS c.story_id) c.url, name := c.name
      email := c.email, content := c.content, created_at := c.created_at } ::
      imgComments σS (n + 1) cs

/-- Image video links: url kept, part reference renumbered. -/
def imgVideos (σP : Nat → Nat) : Nat → List PartVideo → List PartVideo
  | _, [] => []
  | n, v :: vs =>
    { id := n, part_id := σP v.part_id, url := v.url } :: imgVideos σP (n + 1) vs

/-- Image association table: each story keeps its set of category
associations (grouped by story, per-story order kept). -/
def imgAssocs (S : DB) (σS σC : Nat → Nat) : List Story → List (Nat × Nat)
  | [] => []
  | s :: ss =>
    (assocCatIds S s.id).map (fun c => (σS s.id, σC c)) ++ imgAssocs S σS σC ss

/-- The full claimed round-trip image of a store `S`. -/
def roundTripImage (S : DB) : DB :=
  { categories := imgCats 1 S.categories
    stories := imgStories S (catRenum S) 1 S.stories
    parts := imgParts (storyRenum S) 1 S.parts
    comments := imgComments (storyRenum S) 1 S.comments
    videos := imgVideos (partRenum S) 1 S.videos
    storyCats := imgAssocs S (storyRenum S) (catRenum S) S.stories
    nextCategoryId := S.categories.length + 1
    nextStoryId := S.stories.length + 1
    nextPartId := S.parts.length + 1
    nextCommentId := S.comments.length + 1
    nextVideoId := S.videos.length + 1 }

/-! ### The chapter-ordering invariant (claim side) -/

/-- The sequence `1, 2, …, k` as chapter numbers. -/
def natSeq (k : Nat) : List Int := (List.range' 1 k).map (fun n => Int.ofNat n)

/-- The chapter numbers carried by a part table for one story, in stored
order. -/
def numbersOf (parts : List DPart) (sid : Nat) : List Int :=
  (parts.filter (fun p => p.story_id = sid)).map (fun p => p.part_number)

/-- The chapter numbers of a story, in stored order. -/
def partNumbersOf (db : DB) (sid : Nat) : List Int := numbersOf db.parts sid

/-- Chapter numbers of every stored story are exactly `1, …, k`. -/
def chapterInv (db : DB) : Prop :=
  ∀ s ∈ db.stories, partNumbersOf db s.id = natSeq (partNumbersOf db s.id).length

instance idsWFDec (db : DB) : Decidable (idsWF db) := by
  unfold idsWF
  infer_instance

instance chapterInvDec (db : DB) : Decidable (chapterInv db) := by
  unfold chapterInv
  infer_instance

/-- A document whose stories have unique identities and whose per-story
chapters are numbered `1, …, k` in order — the shape `export_data` produces
from a store satisfying the chapter invariant. -/
def docOrdered (doc : Document) : Prop :=
  (doc.stories.map (fun st => st.id)).Nodup ∧
  ∀ st ∈ doc.stories,
    (doc.parts.filter (fun p => p.story_id = st.id)).map (fun p => p.part_number) =
      natSeq ((doc.parts.filter (fun p => p.story_id = st.id)).length)

/-- Precondition of one admin operation for the chapter invariant: import
documents must be well-shaped, the other operations need nothing. -/
def opOK : AdminOp → Prop
  | AdminOp.applyImport doc _ => docOrdered doc
  | _ => True

/-! ### Excerpt specifications (claim side) -/

/-- The claimed excerpt of a chapter text, amended with the newline
flattening the code performs first: the flattened text when it has at most
400 characters, else its first 400 characters trimmed back to the last word
boundary and suffixed with an ellipsis. -/
def excerptSpec (t : String) : String :=
  let flat := flattenNl t
  if pyLen flat ≤ 400 then flat else beforeLastSpace (pyTake flat 400) ++ "..."

/-- The claimed excerpt as literally stated (no newline flattening). -/
def excerptClaimed (t : String) : String :=
  if pyLen t ≤ 400 then t else beforeLastSpace (pyTake t 400) ++ "..."

/-- The needle occurs in the hay at index `i` (on characters). -/
def occursAt (hay needle : List Char) (i : Nat) : Prop :=
  needle.isPrefixOf (hay.drop i)

/-- The needle occurs first at index `i`. -/
def firstOccurAt (hay needle : List Char) (i : Nat) : Prop :=
  occursAt hay needle i ∧ ∀ j < i, ¬ occursAt hay needle j

instance occursAtDec (hay needle : List Char) (i : Nat) :
    Decidable (occursAt hay needle i) :=
  inferInstanceAs (Decidable (needle.isPrefixOf (hay.drop i) = true))

instance firstOccurAtDec (hay needle : List Char) (i : Nat) :
    Decidable (firstOccurAt hay needle i) :=
  inferInstanceAs (Decidable (occursAt hay needle i ∧ ∀ j < i, ¬ occursAt hay needle j))

/-- Number of incoming stories carrying a `skip` decision. -/
def countSkips (dec : Nat → Option String) : List DocStory → Nat
  | [] => 0
  | st :: rest => (if dec st.id = some "skip" then 1 else 0) + countSkips dec rest

/-! ### Concrete fixtures used to instantiate the theorems -/

/-- A document story record with the given identity and title and neutral
remaining fields. -/
def mkDocStory (i : Nat) (t : String) : DocStory :=
  { id := i, title := t, author := none, story_type := "short"
    created_at := none, views := 0, is_hidden := false, is_completed := false
    rating_sum := 0, rating_count := 0, category_id := none, categories := [] }

/-- A stored story row with the given identity and title and neutral
remaining fields. -/
def mkStoryRow (i : Nat) (t : String) : Story :=
  { id := i, title := t, author := none, story_type := "short", created_at := 0
    views := 0, is_hidden := false, is_completed := false, rating_sum := 0
    rating_count := 0, category_id := none }

/-- A time environment whose decoder always fails (its encoder is never
consulted by the fixtures using it). -/
def failEnv : Env := { isoformat := fun _ => "ts", parseIso := fun _ => none, now := 77 }

/-- A trivial time environment for fixtures that never decode. -/
def plainEnv : Env := { isoformat := fun _ => "ts", parseIso := fun _ => some 0, now := 0 }

/-- Fixture store for the review-excerpt claims: one story `Alpha` whose
first chapter is `a\nb`. -/
def dbNewline : DB :=
  { emptyDB with
      stories := [mkStoryRow 3 "Alpha"]
      parts := [{ id := 4, story_id := 3, part_number := 1, content := "a\nb"
                  created_at := 0 }]
      nextStoryId := 4, nextPartId := 5 }

/-- Fixture document colliding with `dbNewline`: incoming `Alpha` whose
first chapter is also `a\nb`. -/
def docNewline : Document :=
  { categories := [], stories := [mkDocStory 11 "Alpha"]
    parts := [{ id := 12, story_id := 11, part_number := 1, content := "a\nb"
                created_at := none }]
    comments := [], videos := [] }

/-- Fixture store for the review-excerpt witness: stored `Alpha` with a
plain first chapter. -/
def dbReview : DB :=
  { emptyDB with
      stories := [mkStoryRow 3 "Alpha"]
      parts := [{ id := 4, story_id := 3, part_number := 1
                  content := "first chapter", created_at := 0 }]
      nextStoryId := 4, nextPartId := 5 }

/-- Fixture document for the review-excerpt witness: incoming `alpha`
(case-insensitive collision) with its own first chapter. -/
def docReview : Document :=
  { categories := [], stories := [mkDocStory 11 "alpha"]
    parts := [{ id := 12, story_id := 11, part_number := 1
                content := "incoming text", created_at := none }]
    comments := [], videos := [] }

/-- Fixture document whose records all carry an undecodable timestamp. -/
def docBadTs : Document :=
  { categories := []
    stories := [{ mkDocStory 1 "Alpha" with created_at := some "not-a-date" }]
    parts := [{ id := 2, story_id := 1, part_number := 1, content := "body"
                created_at := some "not-a-date" }]
    comments := [{ id := 3, story_id := 1, url := "/story/1", name := none
                   email := none, content := "hi", created_at := some "not-a-date" }]
    videos := [] }

/-- Decision map used by the skip-cascade witness: skip story 1, default
for everything else. -/
def decSkip1 : Nat → Option String := fun n => if n = 1 then some "skip" else none

/-- Fixture document for the skip-cascade witness: story 1 (to be skipped)
with two parts, one comment and one video; story 2 imported normally with
one part. -/
def docSkip : Document :=
  { categories := []
    stories := [mkDocStory 1 "Skipme", mkDocStory 2 "Kept"]
    parts := [{ id := 10, story_id := 1, part_number := 1, content := "s1"
                created_at := none },
              { id := 11, story_id := 1, part_number := 2, content := "s2"
                created_at := none },
              { id := 12, story_id := 2, part_number := 1, content := "k1"
                created_at := none }]
    comments := [{ id := 20, story_id := 1, url := "/story/1", name := none
                   email := none, content := "on skipped", created_at := none }]
    videos := [{ id := 30, part_id := 10, url := "http://v" }] }

/-- Fixture store for the overwrite witness: one story `Alpha` (identity 1)
with three chapters, one comment and one video link. -/
def dbAlpha : DB :=
  { categories := [], stories := [mkStoryRow 1 "Alpha"]
    parts := [{ id := 1, story_id := 1, part_number := 1, content := "old1"
                created_at := 0 },
              { id := 2, story_id := 1, part_number := 2, content := "old2"
                created_at := 0 },
              { id := 3, story_id := 1, part_number := 3, content := "old3"
                created_at := 0 }]
    comments := [{ id := 1, story_id := 1, url := "/story/1", name := none
                   email := none, content := "oldc", created_at := 0 }]
    videos := [{ id := 1, part_id := 1, url := "http://old" }]
    storyCats := [], nextCategoryId := 1, nextStoryId := 2, nextPartId := 4
    nextCommentId := 2, nextVideoId := 2 }

/-- Fixture document for the overwrite witness: incoming `Alpha` with one
chapter. -/
def docAlpha : Document :=
  { categories := [], stories := [mkDocStory 7 "Alpha"]
    parts := [{ id := 70, story_id := 7, part_number := 1, content := "new1"
                created_at := none }]
    comments := [], videos := [] }

/-- Decision map for the overwrite witness: overwrite story 7. -/
def decOverwrite7 : Nat → Option String :=
  fun n => if n = 7 then some "overwrite" else none

/-- Fixture document for the overwrite witness: a multi-story import
carrying a category, a fresh story `Beta` and the colliding story `Alpha`
(one chapter each); only `Alpha` carries an `overwrite` decision. -/
def docMulti : Document :=
  { categories := [{ id := 40, name := "Cat" }]
    stories := [mkDocStory 8 "Beta", mkDocStory 7 "Alpha"]
    parts := [{ id := 70, story_id := 7, part_number := 1, content := "new1"
                created_at := none },
              { id := 80, story_id := 8, part_number := 1, content := "b1"
                created_at := none }]
    comments := [], videos := [] }

/-- Timestamp collaborators for the round-trip fixtures: a tiny codec that
is faithful on the instants `0` and `5` used in them. -/
def envRT : Env :=
  { isoformat := fun t => if t = 5 then "T5" else "T0"
    parseIso := fun s => if s = "T5" then some 5 else
      if s = "T0" then some 0 else none
    now := 9 }

/-- Round-trip fixture store: one category, one story, one chapter, one
comment whose URL mentions the story, one video link. -/
def dbRT : DB :=
  { categories := [{ id := 4, name := "Fic" }]
    stories := [{ id := 5, title := "Solo", author := some "A"
                  story_type := "long", created_at := 5, views := 7
                  is_hidden := false, is_completed := true, rating_sum := 9
                  rating_count := 2, category_id := some 4 }]
    parts := [{ id := 6, story_id := 5, part_number := 1, content := "body"
                created_at := 5 }]
    comments := [{ id := 3, story_id := 5, url := "/story/5", name := some "N"
                   email := none, content := "c", created_at := 5 }]
    videos := [{ id := 2, part_id := 6, url := "http://v" }]
    storyCats := [(5, 4)]
    nextCategoryId := 5, nextStoryId := 6, nextPartId := 7
    nextCommentId := 4, nextVideoId := 3 }

/-! ## Theorems -/

theorem isDuplicate_iff (db : DB) (st : DocStory) :
    isDuplicate db st = true ↔
      ∃ s ∈ db.stories, pyLower (pyStrip st.title) = pyLower s.title := by
  simp only [isDuplicate, List.contains_iff_exists_mem_beq, List.mem_map, beq_iff_eq]
  constructor
  · rintro ⟨t, ⟨s, hs, rfl⟩, he⟩
    exact ⟨s, hs, he⟩
  · rintro ⟨s, hs, he⟩
    exact ⟨pyLower s.title, ⟨s, hs, rfl⟩, he⟩

/-- C4.  During import, an uploaded story is classified as a duplicate iff
its trimmed, lower-cased title equals the lower-cased title of some stored
story (so the match is case-insensitive, as the concrete Vietnamese-titled
instance shows), and a story failing the test lands in the non-conflicting
list. -/
theorem duplicate_classification (db : DB) (stories : List DocStory)
    (st : DocStory) :
    (st ∈ (classifyStories db stories).1 ↔
      st ∈ stories ∧ ∃ s ∈ db.stories, pyLower (pyStrip st.title) = pyLower s.title) ∧
    (st ∈ (classifyStories db stories).2 ↔
      st ∈ stories ∧ ¬ ∃ s ∈ db.stories, pyLower (pyStrip st.title) = pyLower s.title) ∧
    isDuplicate
      { emptyDB with stories :=
          [{ id := 7, title := "Rồng Thiêng", author := none, story_type := "short"
             created_at := 0, views := 0, is_hidden := false, is_completed := false
             rating_sum := 0, rating_count := 0, category_id := none }] }
      { id := 1, title := "rồng thiêng", author := none, story_type := "short"
        created_at := none, views := 0, is_hidden := false, is_completed := false
        rating_sum := 0, rating_count := 0, category_id := none, categories := [] }
      = true := by
  refine ⟨?_, ?_, by decide⟩
  · rw [classifyStories, List.partition_eq_filter_filter]
    simp only [List.mem_filter]
    exact and_congr_right (fun _ => isDuplicate_iff db st)
  · rw [classifyStories, List.partition_eq_filter_filter]
    simp only [List.mem_filter, Function.comp_apply, Bool.not_eq_true']
    refine and_congr_right (fun _ => ?_)
    rw [← isDuplicate_iff db st]
    simp

/-- Per-story bookkeeping of the story phase: `imported` counts the
non-skip decisions, `skipped` the skip decisions, they sum to the number of
incoming stories, and `overwritten` never exceeds `imported`. -/
theorem importStories_counts (env : Env) (dec : Nat → Option String)
    (catMap : List (Nat × Nat)) (sts : List DocStory) :
    ∀ db : DB,
      (importStories env dec catMap db sts).skipped = countSkips dec sts ∧
      (importStories env dec catMap db sts).imported +
        (importStories env dec catMap db sts).skipped = sts.length ∧
      (importStories env dec catMap db sts).overwritten ≤
        (importStories env dec catMap db sts).imported := by
  induction sts with
  | nil => intro db; simp [importStories, countSkips]
  | cons st rest ih =>
    intro db
    by_cases h : dec st.id = some "skip"
    · obtain ⟨i1, i2, i3⟩ := ih db
      simp only [importStories, if_pos h, countSkips, List.length_cons]
      refine ⟨by omega, by omega, i3⟩
    · simp only [importStories, if_neg h, countSkips, List.length_cons]
      have hstep : (overwriteStep dec db st).2 ≤ 1 := by
        unfold overwriteStep
        split
        · split <;> simp
        · simp
      obtain ⟨i1, i2, i3⟩ := ih (createStory env catMap (overwriteStep dec db st).1 st).1
      refine ⟨by omega, by omega, by omega⟩

theorem importCategories_state (cats : List DocCategory) : ∀ db : DB,
    (importCategories db cats).1.stories = db.stories ∧
    (importCategories db cats).1.parts = db.parts ∧
    (importCategories db cats).1.comments = db.comments ∧
    (importCategories db cats).1.videos = db.videos ∧
    (importCategories db cats).1.storyCats = db.storyCats ∧
    (importCategories db cats).1.nextStoryId = db.nextStoryId ∧
    (importCategories db cats).1.nextPartId = db.nextPartId ∧
    (importCategories db cats).1.nextCommentId = db.nextCommentId ∧
    (importCategories db cats).1.nextVideoId = db.nextVideoId := by
  induction cats with
  | nil => intro db; simp [importCategories]
  | cons cat rest ih =>
    intro db
    by_cases h : cat.name = ""
    · simpa [importCategories, h] using ih db
    · simp only [importCategories, if_neg h]
      cases hf : db.categories.find? (fun c => pyLower c.name = pyLower cat.name) with
      | some existing => simpa using ih db
      | none =>
        simpa using ih
          { db with categories := db.categories ++ [{ id := db.nextCategoryId, name := cat.name }],
                    nextCategoryId := db.nextCategoryId + 1 }

theorem importParts_eq (env : Env) (smap : List (Nat × Nat)) (ps : List DocPart) :
    ∀ db : DB,
      (importParts env smap db ps).1.parts =
          db.parts ++ keptParts env smap db.nextPartId ps ∧
        (importParts env smap db ps).1.stories = db.stories ∧
        (importParts env smap db ps).1.comments = db.comments ∧
        (importParts env smap db ps).1.videos = db.videos ∧
        (importParts env smap db ps).1.storyCats = db.storyCats ∧
        (importParts env smap db ps).1.categories = db.categories ∧
        (importParts env smap db ps).1.nextStoryId = db.nextStoryId ∧
        (importParts env smap db ps).1.nextCommentId = db.nextCommentId ∧
        (importParts env smap db ps).1.nextVideoId = db.nextVideoId ∧
        (importParts env smap db ps).1.nextPartId =
          db.nextPartId + (keptParts env smap db.nextPartId ps).length ∧
        (importParts env smap db ps).1.nextCategoryId = db.nextCategoryId ∧
        (importParts env smap db ps).2 = (keptPMap smap db.nextPartId ps).reverse := by
  induction ps with
  | nil => intro db; simp [importParts, keptParts, keptPMap]
  | cons p rest ih =>
    intro db
    cases hm : dictGet smap p.story_id with
    | none =>
      simp only [importParts, hm, keptParts, keptPMap]
      exact ih db
    | some nsid =>
      simp only [importParts, hm, keptParts, keptPMap, List.length_cons]
      obtain ⟨e1, e2, e3, e4, e5, e6, e7, e8, e9, e10, e11, e12⟩ := ih
        { db with parts := db.parts ++ [{ id := db.nextPartId, story_id := nsid
                                          part_number := p.part_number
                                          content := p.content
                                          created_at := decodeTs env p.created_at }]
                  nextPartId := db.nextPartId + 1 }
      simp only at e1 e2 e3 e4 e5 e6 e7 e8 e9 e10 e11 e12
      refine ⟨?_, e2, e3, e4, e5, e6, e7, e8, e9, by omega, e11, ?_⟩
      · simpa [List.append_assoc] using e1
      · rw [e12]
        simp

theorem importComments_eq (env : Env) (smap : List (Nat × Nat))
    (cs : List DocComment) :
    ∀ db : DB,
      (importComments env smap db cs).comments =
          db.comments ++ keptComments env smap db.nextCommentId cs ∧
        (importComments env smap db cs).stories = db.stories ∧
        (importComments env smap db cs).parts = db.parts ∧
        (importComments env smap db cs).videos = db.videos ∧
        (importComments env smap db cs).storyCats = db.storyCats ∧
        (importComments env smap db cs).categories = db.categories ∧
        (importComments env smap db cs).nextStoryId = db.nextStoryId ∧
        (importComments env smap db cs).nextPartId = db.nextPartId ∧
        (importComments env smap db cs).nextVideoId = db.nextVideoId ∧
        (importComments env smap db cs).nextCommentId =
          db.nextCommentId + (keptComments env smap db.nextCommentId cs).length ∧
        (importComments env smap db cs).nextCategoryId = db.nextCategoryId := by
  induction cs with
  | nil => intro db; simp [importComments, keptComments]
  | cons c rest ih =>
    intro db
    cases hm : dictGet smap c.story_id with
    | none =>
      simp only [importComments, hm, keptComments]
      exact ih db
    | some nsid =>
      by_cases hz : nsid = 0
      · simp only [importComments, hm, keptComments, if_pos hz]
        exact ih db
      · simp only [importComments, hm, keptComments, if_neg hz, List.length_cons]
        obtain ⟨e1, e2, e3, e4, e5, e6, e7, e8, e9, e10, e11⟩ := ih
          { db with comments := db.comments ++
              [{ id := db.nextCommentId, story_id := nsid
                 url := pySubStoryUrl nsid c.url, name := c.name, email := c.email
                 content := c.content, created_at := decodeTs env c.created_at }]
                    nextCommentId := db.nextCommentId + 1 }
        simp only at e1 e2 e3 e4 e5 e6 e7 e8 e9 e10 e11
        exact ⟨by simpa [List.append_assoc] using e1, e2, e3, e4, e5, e6, e7, e8, e9,
          by omega, e11⟩

theorem importVideos_eq (pmap : List (Nat × Nat)) (vs : List DocVideo) :
    ∀ db : DB,
      (importVideos pmap db vs).videos =
          db.videos ++ keptVideos pmap db.nextVideoId vs ∧
        (importVideos pmap db vs).stories = db.stories ∧
        (importVideos pmap db vs).parts = db.parts ∧
        (importVideos pmap db vs).comments = db.comments ∧
        (importVideos pmap db vs).storyCats = db.storyCats ∧
        (importVideos pmap db vs).categories = db.categories ∧
        (importVideos pmap db vs).nextStoryId = db.nextStoryId ∧
        (importVideos pmap db vs).nextPartId = db.nextPartId ∧
        (importVideos pmap db vs).nextCommentId = db.nextCommentId ∧
        (importVideos pmap db vs).nextVideoId =
          db.nextVideoId + (keptVideos pmap db.nextVideoId vs).length ∧
        (importVideos pmap db vs).nextCategoryId = db.nextCategoryId := by
  induction vs with
  | nil => intro db; simp [importVideos, keptVideos]
  | cons v rest ih =>
    intro db
    cases hm : dictGet pmap v.part_id with
    | none =>
      simp only [importVideos, hm, keptVideos]
      exact ih db
    | some npid =>
      by_cases hz : npid = 0
      · simp only [importVideos, hm, keptVideos, if_pos hz]
        exact ih db
      · by_cases hu : v.url = ""
        · simp only [importVideos, hm, keptVideos, if_neg hz, if_pos hu]
          exact ih db
        · simp only [importVideos, hm, keptVideos, if_neg hz, if_neg hu, List.length_cons]
          obtain ⟨e1, e2, e3, e4, e5, e6, e7, e8, e9, e10, e11⟩ := ih
            { db with videos := db.videos ++
                [{ id := db.nextVideoId, part_id := npid, url := v.url }]
                      nextVideoId := db.nextVideoId + 1 }
          simp only at e1 e2 e3 e4 e5 e6 e7 e8 e9 e10 e11
          exact ⟨by simpa [List.append_assoc] using e1, e2, e3, e4, e5, e6, e7, e8, e9,
            by omega, e11⟩

theorem dbEq (a b : DB) (h1 : a.categories = b.categories)
    (h2 : a.stories = b.stories) (h3 : a.parts = b.parts)
    (h4 : a.comments = b.comments) (h5 : a.videos = b.videos)
    (h6 : a.storyCats = b.storyCats) (h7 : a.nextCategoryId = b.nextCategoryId)
    (h8 : a.nextStoryId = b.nextStoryId) (h9 : a.nextPartId = b.nextPartId)
    (h10 : a.nextCommentId = b.nextCommentId)
    (h11 : a.nextVideoId = b.nextVideoId) : a = b := by
  cases a
  cases b
  simp_all

theorem dictGet_nil (k : Nat) : dictGet [] k = none := rfl

theorem keptParts_nil_smap (env : Env) (start : Nat) (ps : List DocPart) :
    keptParts env [] start ps = [] := by
  induction ps with
  | nil => rfl
  | cons p rest ih => simp [keptParts, dictGet, ih]

theorem keptPMap_nil_smap (start : Nat) (ps : List DocPart) :
    keptPMap [] start ps = [] := by
  induction ps with
  | nil => rfl
  | cons p rest ih => simp [keptPMap, dictGet, ih]

theorem keptComments_nil_smap (env : Env) (start : Nat) (cs : List DocComment) :
    keptComments env [] start cs = [] := by
  induction cs with
  | nil => rfl
  | cons c rest ih => simp [keptComments, dictGet, ih]

theorem keptVideos_nil_pmap (start : Nat) (vs : List DocVideo) :
    keptVideos [] start vs = [] := by
  induction vs with
  | nil => rfl
  | cons v rest ih => simp [keptVideos, dictGet, ih]

theorem importStories_allSkip (env : Env) (dec : Nat → Option String)
    (catMap : List (Nat × Nat)) (sts : List DocStory)
    (h : ∀ st ∈ sts, dec st.id = some "skip") : ∀ db : DB,
      (importStories env dec catMap db sts).db = db ∧
      (importStories env dec catMap db sts).smap = [] ∧
      (importStories env dec catMap db sts).imported = 0 ∧
      (importStories env dec catMap db sts).overwritten = 0 ∧
      (importStories env dec catMap db sts).skipped = sts.length := by
  induction sts with
  | nil => intro db; simp [importStories]
  | cons st rest ih =>
    intro db
    have hst : dec st.id = some "skip" := h st (List.mem_cons_self st rest)
    have hrest : ∀ x ∈ rest, dec x.id = some "skip" :=
      fun x hx => h x (List.mem_cons_of_mem st hx)
    obtain ⟨i1, i2, i3, i4, i5⟩ := ih hrest db
    simp only [importStories, if_pos hst, List.length_cons]
    exact ⟨i1, i2, i3, i4, by omega⟩

theorem importCategories_noop (cats : List DocCategory) : ∀ db : DB,
    (∀ c ∈ cats, c.name = "" ∨ ∃ ec ∈ db.categories, pyLower ec.name = pyLower c.name) →
      (importCategories db cats).1 = db := by
  induction cats with
  | nil => intro db _; rfl
  | cons cat rest ih =>
    intro db h
    have hrest : ∀ c ∈ rest, c.name = "" ∨
        ∃ ec ∈ db.categories, pyLower ec.name = pyLower c.name :=
      fun c hc => h c (List.mem_cons_of_mem cat hc)
    by_cases hn : cat.name = ""
    · simp only [importCategories, if_pos hn]
      exact ih db hrest
    · rcases h cat (List.mem_cons_self cat rest) with hc | ⟨ec, hec, hlow⟩
      · exact absurd hc hn
      cases hf : db.categories.find? (fun c => pyLower c.name = pyLower cat.name) with
      | some existing =>
        simp only [importCategories, if_neg hn, hf]
        exact ih db hrest
      | none =>
        exfalso
        have := List.find?_eq_none.mp hf ec hec
        simp only [decide_eq_true_eq] at this
        exact this hlow

/-- C2 counterexample.  A document with one previously unknown category and
one story, imported with a `skip` decision for every story, still changes
the Content Store: the category phase runs before any decision is consulted
and creates the category. -/
theorem skip_all_counterexample :
    (perform_import
      { isoformat := fun _ => "ts", parseIso := fun _ => some 0, now := 0 }
      { categories := [{ id := 1, name := "NewCat" }]
        stories := [{ id := 1, title := "Alpha", author := none
                      story_type := "short", created_at := none, views := 0
                      is_hidden := false, is_completed := false, rating_sum := 0
                      rating_count := 0, category_id := none, categories := [] }]
        parts := [], comments := [], videos := [] }
      (fun _ => some "skip") emptyDB).db ≠ emptyDB := by
  decide

/-- C2 (amended).  Importing a document whose every story decision is
`skip` creates, deletes and modifies no story, part, comment, video-link or
association and returns `(0, 0, N)`; the store is byte-for-byte unchanged
provided additionally that every incoming category is empty-named or
already present under a case-insensitive name match — otherwise the
category phase, which runs before decisions are consulted, still creates
the missing categories. -/
theorem skip_all_stable (env : Env) (doc : Document) (dec : Nat → Option String)
    (db : DB) (hskip : ∀ st ∈ doc.stories, dec st.id = some "skip") :
    (perform_import env doc dec db).db.stories = db.stories ∧
      (perform_import env doc dec db).db.parts = db.parts ∧
      (perform_import env doc dec db).db.comments = db.comments ∧
      (perform_import env doc dec db).db.videos = db.videos ∧
      (perform_import env doc dec db).db.storyCats = db.storyCats ∧
      (perform_import env doc dec db).imported = 0 ∧
      (perform_import env doc dec db).overwritten = 0 ∧
      (perform_import env doc dec db).skipped = doc.stories.length ∧
      ((∀ c ∈ doc.categories,
          c.name = "" ∨ ∃ ec ∈ db.categories, pyLower ec.name = pyLower c.name) →
        (perform_import env doc dec db).db = db) := by
  simp only [perform_import]
  obtain ⟨s1, s2, s3, s4, s5, s6, s7, s8, s9⟩ :=
    importCategories_state doc.categories db
  obtain ⟨t1, t2, t3, t4, t5⟩ := importStories_allSkip env dec
    (importCategories db doc.categories).2 doc.stories hskip
    (importCategories db doc.categories).1
  set db1 := (importCategories db doc.categories).1
  set r := importStories env dec (importCategories db doc.categories).2 db1
    doc.stories
  obtain ⟨p1, p2, p3, p4, p5, p6, p7, p8, p9, p10, p11, p12⟩ :=
    importParts_eq env r.smap doc.parts r.db
  set ph := importParts env r.smap r.db doc.parts
  obtain ⟨c1, c2, c3, c4, c5, c6, c7, c8, c9, c10, c11⟩ :=
    importComments_eq env r.smap doc.comments ph.1
  set db4 := importComments env r.smap ph.1 doc.comments
  obtain ⟨v1, v2, v3, v4, v5, v6, v7, v8, v9, v10, v11⟩ :=
    importVideos_eq ph.2 doc.videos db4
  rw [t2] at p1 p10 p12 c1 c10
  rw [keptParts_nil_smap] at p1 p10
  rw [keptPMap_nil_smap] at p12
  rw [keptComments_nil_smap] at c1 c10
  simp only [List.reverse_nil] at p12
  rw [p12] at v1 v2 v3 v4 v5 v6 v7 v8 v9 v10 v11 ⊢
  rw [keptVideos_nil_pmap] at v1 v10
  simp only [List.append_nil] at p1 c1 v1
  simp only [List.length_nil, Nat.add_zero] at p10 c10 v10
  refine ⟨?_, ?_, ?_, ?_, ?_, t3, t4, t5, ?_⟩
  · rw [v2, c2, p2, t1, s1]
  · rw [v3, c3, p1, t1, s2]
  · rw [v4, c1, p3, t1, s3]
  · rw [v1, c4, p4, t1, s4]
  · rw [v5, c5, p5, t1, s5]
  · intro hcats
    have hnoop : db1 = db := importCategories_noop doc.categories db hcats
    refine dbEq _ _ ?_ ?_ ?_ ?_ ?_ ?_ ?_ ?_ ?_ ?_ ?_
    · rw [v6, c6, p6, t1, hnoop]
    · rw [v2, c2, p2, t1, hnoop]
    · rw [v3, c3, p1, t1, hnoop]
    · rw [v4, c1, p3, t1, hnoop]
    · rw [v1, c4, p4, t1, hnoop]
    · rw [v5, c5, p5, t1, hnoop]
    · rw [v11, c11, p11, t1, hnoop]
    · rw [v7, c7, p7, t1, hnoop]
    · rw [v8, c8, p10, t1, hnoop]
    · rw [v9, c10, p8, t1, hnoop]
    · rw [v10, c9, p9, t1, hnoop]

/-- C2 witness: a concrete all-skip import on a store already containing
the document's category leaves the store completely unchanged and returns
`(0, 0, 1)`. -/
theorem skip_all_stable_witness :
    (perform_import
        { isoformat := fun _ => "ts", parseIso := fun _ => some 0, now := 0 }
        { categories := [{ id := 4, name := "drama" }]
          stories := [{ id := 9, title := "Alpha", author := none
                        story_type := "short", created_at := none, views := 0
                        is_hidden := false, is_completed := false, rating_sum := 0
                        rating_count := 0, category_id := none, categories := [4] }]
          parts := [], comments := [], videos := [] }
        (fun _ => some "skip")
        { emptyDB with categories := [{ id := 1, name := "Drama" }]
                       nextCategoryId := 2 }).db =
      { emptyDB with categories := [{ id := 1, name := "Drama" }]
                     nextCategoryId := 2 } := by
  have h := skip_all_stable
    { isoformat := fun _ => "ts", parseIso := fun _ => some 0, now := 0 }
    { categories := [{ id := 4, name := "drama" }]
      stories := [{ id := 9, title := "Alpha", author := none
                    story_type := "short", created_at := none, views := 0
                    is_hidden := false, is_completed := false, rating_sum := 0
                    rating_count := 0, category_id := none, categories := [4] }]
      parts := [], comments := [], videos := [] }
    (fun _ => some "skip")
    { emptyDB with categories := [{ id := 1, name := "Drama" }]
                   nextCategoryId := 2 }
    (by decide)
  exact h.2.2.2.2.2.2.2.2 (by decide)

theorem occursAt_zero (hay needle : List Char) :
    occursAt hay needle 0 ↔ needle.isPrefixOf hay := Iff.rfl

theorem occursAt_cons_succ (c : Char) (hay needle : List Char) (i : Nat) :
    occursAt (c :: hay) needle (i + 1) ↔ occursAt hay needle i := Iff.rfl

theorem occursAt_nil (needle : List Char) (i : Nat) :
    occursAt [] needle i ↔ needle.isPrefixOf ([] : List Char) := by
  simp [occursAt, List.drop_nil]

theorem findSub_some (needle : List Char) :
    ∀ hay i, findSub needle hay = some i → firstOccurAt hay needle i := by
  intro hay
  induction hay with
  | nil =>
    intro i h
    by_cases hp : needle.isPrefixOf ([] : List Char)
    · simp only [findSub, if_pos hp, Option.some.injEq] at h
      subst h
      exact ⟨hp, fun j hj => absurd hj (Nat.not_lt_zero j)⟩
    · simp [findSub, hp] at h
  | cons c rest ih =>
    intro i h
    by_cases hp : needle.isPrefixOf (c :: rest)
    · simp only [findSub, if_pos hp, Option.some.injEq] at h
      subst h
      exact ⟨hp, fun j hj => absurd hj (Nat.not_lt_zero j)⟩
    · simp only [findSub, if_neg hp] at h
      cases hf : findSub needle rest with
      | none => rw [hf] at h; simp at h
      | some i0 =>
        rw [hf] at h
        have h9 : i0 + 1 = i := by
          have : (some i0).map (· + 1) = some i := h
          simpa using this
        subst h9
        obtain ⟨h1, h2⟩ := ih i0 hf
        refine ⟨(occursAt_cons_succ c rest needle i0).mpr h1, ?_⟩
        intro j hj
        cases j with
        | zero => exact fun hc => hp ((occursAt_zero (c :: rest) needle).mp hc)
        | succ k =>
          have hk : k < i0 := by omega
          exact fun hc => h2 k hk ((occursAt_cons_succ c rest needle k).mp hc)

theorem findSub_none (needle : List Char) :
    ∀ hay, findSub needle hay = none → ∀ i, ¬ occursAt hay needle i := by
  intro hay
  induction hay with
  | nil =>
    intro h i
    by_cases hp : needle.isPrefixOf ([] : List Char)
    · simp [findSub, hp] at h
    · intro hocc
      exact hp ((occursAt_nil needle i).mp hocc)
  | cons c rest ih =>
    intro h i
    by_cases hp : needle.isPrefixOf (c :: rest)
    · simp [findSub, hp] at h
    · simp only [findSub, if_neg hp] at h
      cases hf : findSub needle rest with
      | some i0 => rw [hf] at h; simp at h
      | none =>
        cases i with
        | zero => exact fun hc => hp ((occursAt_zero (c :: rest) needle).mp hc)
        | succ k =>
          exact fun hc => ih hf k ((occursAt_cons_succ c rest needle k).mp hc)

theorem findSub_of_firstOccur (needle hay : List Char) (i : Nat)
    (h : firstOccurAt hay needle i) : findSub needle hay = some i := by
  cases hf : findSub needle hay with
  | none => exact absurd h.1 (findSub_none needle hay hf i)
  | some i0 =>
    obtain ⟨h1, h2⟩ := findSub_some needle hay i0 hf
    rcases Nat.lt_trichotomy i0 i with hlt | heq | hgt
    · exact absurd h1 (h.2 i0 hlt)
    · rw [heq]
    · exact absurd h.1 (h2 i hgt)

/-- C9 counterexample.  For a 100-character text beginning with `ipsum` and
the query `ipsum dolor sit` (absent verbatim, so the excerpt falls back to
the token `ipsum`, whose first occurrence is at index 0 and whose length is
5), the snippet is not the window reaching 50 characters past the end of
the match: the code extends the window by the length of the full query, not
of the matched token. -/
theorem findExcerpt_counterexample :
    findSub (pyLower "ipsum dolor sit").data
        (pyLower
          "ipsum bbbbbbbbbbbbbbbbbbbbbbbbbbbbbbbbbbbbbbbbbbbbbbbbbbbbbbbbbbbbbbbbbbbbbbbbbbbbbbbbbbbbbb").data
        = none ∧
      findSub "ipsum".data
          (pyLower
            "ipsum bbbbbbbbbbbbbbbbbbbbbbbbbbbbbbbbbbbbbbbbbbbbbbbbbbbbbbbbbbbbbbbbbbbbbbbbbbbbbbbbbbbbbb").data
          = some 0 ∧
      pyLen "ipsum" = 5 ∧
      ¬ findExcerpt
          "ipsum bbbbbbbbbbbbbbbbbbbbbbbbbbbbbbbbbbbbbbbbbbbbbbbbbbbbbbbbbbbbbbbbbbbbbbbbbbbbbbbbbbbbbb"
          "ipsum dolor sit" =
        pySlice
          "ipsum bbbbbbbbbbbbbbbbbbbbbbbbbbbbbbbbbbbbbbbbbbbbbbbbbbbbbbbbbbbbbbbbbbbbbbbbbbbbbbbbbbbbbb"
          (max 0 ((0 : Int) - 50))
          (min (pyLen
            "ipsum bbbbbbbbbbbbbbbbbbbbbbbbbbbbbbbbbbbbbbbbbbbbbbbbbbbbbbbbbbbbbbbbbbbbbbbbbbbbbbbbbbbbbb" : Int)
            ((0 : Int) + (5 : Int) + 50)) := by
  refine ⟨by decide, by decide, by decide, by decide⟩

/-- C9 (amended).  For every chapter text and non-empty query,
`findExcerpt` locates the first case-insensitive occurrence of the full
query and, when the full query is absent, the first occurrence of the
query's first whitespace-delimited token; the snippet is the slice from 50
characters before the match start to 50 characters after the position where
the full query would end (match start + full-query length + 50) — not 50
after the matched token — clamped to the text bounds. -/
theorem findExcerpt_spec (content query : String) (hq : ¬ query = "") :
    (∀ i, firstOccurAt (pyLower content).data (pyLower query).data i →
        findExcerpt content query =
          pySlice content (max 0 ((i : Int) - 50))
            (min (pyLen content : Int) ((i : Int) + (pyLen query : Int) + 50))) ∧
      ((∀ i, ¬ occursAt (pyLower content).data (pyLower query).data i) →
        ∀ kw, (queryKeywords query).head? = some kw →
          ∀ i, firstOccurAt (pyLower content).data kw.data i →
            findExcerpt content query =
              pySlice content (max 0 ((i : Int) - 50))
                (min (pyLen content : Int) ((i : Int) + (pyLen query : Int) + 50))) := by
  constructor
  · intro i hi
    have hf := findSub_of_firstOccur (pyLower query).data (pyLower content).data i hi
    simp only [findExcerpt, pyFind, hf]
    have : ¬ ((i : Int) < 0) := by omega
    simp only [if_neg this]
  · intro hnone kw hkw i hi
    have hf : findSub (pyLower query).data (pyLower content).data = none := by
      cases hf : findSub (pyLower query).data (pyLower content).data with
      | none => rfl
      | some i0 =>
        exact absurd (findSub_some _ _ i0 hf).1 (hnone i0)
    have hk := findSub_of_firstOccur kw.data (pyLower content).data i hi
    simp only [findExcerpt, pyFind, hf, hkw, hk]
    have : (-1 : Int) < 0 := by omega
    simp only [if_pos this]

/-- C9 witness: the spec's fallback example.  The query
`ipsum dolor sit` is absent from `lorem ipsum dolor amet`, the fallback
token `ipsum` first occurs at index 6, and the snippet is the corrected
window around it. -/
theorem findExcerpt_spec_witness :
    findExcerpt "lorem ipsum dolor amet" "ipsum dolor sit" =
      pySlice "lorem ipsum dolor amet" (max 0 ((6 : Int) - 50))
        (min (pyLen "lorem ipsum dolor amet" : Int)
          ((6 : Int) + (pyLen "ipsum dolor sit" : Int) + 50)) :=
  (findExcerpt_spec "lorem ipsum dolor amet" "ipsum dolor sit" (by decide)).2
    (findSub_none (pyLower "ipsum dolor sit").data
      (pyLower "lorem ipsum dolor amet").data (by decide))
    "ipsum" (by decide) 6 ⟨by decide, by decide⟩

theorem buildSnippet_eq_excerptSpec (t : String) :
    buildSnippet t = excerptSpec t := by
  simp only [buildSnippet, excerptSpec]
  by_cases h : pyLen (flattenNl t) > 400
  · rw [if_pos h, if_neg (by omega)]
  · rw [if_neg h, if_pos (by omega)]
    simp only [pyTake]
    have hle : (flattenNl t).data.length ≤ 400 := by
      simpa [pyLen] using h
    rw [List.take_of_length_le hle]

/-- C8 counterexample.  A duplicate whose chapter text is the 3-character
string `a\nb` produces the review excerpt `a b`, not the chapter text
itself: the code flattens newlines to spaces before excerpting, so the
excerpt differs from the (at most 400 character) chapter text the claim
promises. -/
theorem review_excerpt_counterexample :
    pyLen "a\nb" ≤ 400 ∧
      (importReview dbNewline docNewline).map
          (fun r => (r.db_snippet, r.json_snippet)) ≠
        [(excerptClaimed "a\nb", excerptClaimed "a\nb")] := by
  refine ⟨by decide, by decide⟩

/-- C8 (amended).  For each detected duplicate the review carries the
incoming title, the identity of the colliding stored story, and two
excerpts — one from the first document part with the story's original id
and sequence number 1, one from the stored story's first chapter — each
computed from the chapter text with newlines flattened to spaces: the
flattened text itself when it has at most 400 characters, else its first
400 characters trimmed back to the last word boundary and suffixed with
an ellipsis. -/
theorem review_excerpts (db : DB) (doc : Document) (st : DocStory)
    (hdup : st ∈ (classifyStories db doc.stories).1) :
    ∃ r ∈ importReview db doc,
      r.title = st.title ∧ r.json_id = st.id ∧
      (∀ p, doc.parts.find?
          (fun p => p.story_id = st.id ∧ p.part_number = 1) = some p →
        r.json_snippet = excerptSpec p.content) ∧
      (doc.parts.find? (fun p => p.story_id = st.id ∧ p.part_number = 1) = none →
        r.json_snippet = "") ∧
      (∀ ex, db.stories.find? (fun s => pyLower s.title = pyLower st.title) = some ex →
        r.db_id = some ex.id ∧
        (∀ p, firstPart db ex.id = some p → ¬ p.content = "" →
          r.db_snippet = excerptSpec p.content)) := by
  refine ⟨buildDupInfo db doc st, List.mem_map_of_mem _ hdup, rfl, rfl, ?_, ?_, ?_⟩
  · intro p hp
    simp only [buildDupInfo, hp, buildSnippet_eq_excerptSpec]
  · intro hp
    simp only [buildDupInfo, hp]
  · intro ex hex
    refine ⟨by simp only [buildDupInfo, hex, Option.map_some'], ?_⟩
    intro p hp hpc
    simp only [buildDupInfo, hex, hp, if_neg hpc, buildSnippet_eq_excerptSpec]

/-- C8 witness: a concrete duplicate with a two-chapter stored story and a
long incoming first chapter; the review record carries the stored first
chapter flattened and the truncated incoming excerpt. -/
theorem review_excerpts_witness :
    ∃ r ∈ importReview dbReview docReview,
      r.title = "alpha" ∧ r.json_id = 11 ∧
        (∀ p, docReview.parts.find?
            (fun p => p.story_id = (mkDocStory 11 "alpha").id ∧ p.part_number = 1) =
              some p →
          r.json_snippet = excerptSpec p.content) := by
  obtain ⟨r, hr, h1, h2, h3, _, _⟩ :=
    review_excerpts dbReview docReview (mkDocStory 11 "alpha") (by decide)
  exact ⟨r, hr, h1, h2, h3⟩

theorem dictGet_append (m1 m2 : List (Nat × Nat)) (k : Nat) :
    dictGet (m1 ++ m2) k = (dictGet m1 k).orElse (fun _ => dictGet m2 k) := by
  induction m1 with
  | nil => simp [dictGet]
  | cons kv rest ih =>
    by_cases h : k = kv.1
    · simp [dictGet, h]
    · simp [dictGet, h, ih]

theorem dictGet_mem (m : List (Nat × Nat)) (k v : Nat)
    (h : dictGet m k = some v) : (k, v) ∈ m := by
  induction m with
  | nil => simp [dictGet] at h
  | cons kv rest ih =>
    by_cases hk : k = kv.1
    · rw [dictGet, if_pos hk] at h
      obtain ⟨a, b⟩ := kv
      simp only at hk
      injection h with hv
      subst hk
      subst hv
      exact List.mem_cons_self _ _
    · rw [dictGet, if_neg hk] at h
      exact List.mem_cons_of_mem kv (ih h)

theorem dictGet_isSome_of_mem (m : List (Nat × Nat)) (k v : Nat)
    (h : (k, v) ∈ m) : ∃ w, dictGet m k = some w := by
  induction m with
  | nil => simp at h
  | cons kv rest ih =>
    by_cases hk : k = kv.1
    · exact ⟨kv.2, by rw [dictGet, if_pos hk]⟩
    · rw [List.mem_cons] at h
      rcases h with h | h
      · rw [← h] at hk
        simp at hk
      · rw [dictGet, if_neg hk]
        exact ih h

theorem dictGet_reverse_mem (m : List (Nat × Nat)) (k v : Nat)
    (h : dictGet m.reverse k = some v) : (k, v) ∈ m := by
  have := dictGet_mem m.reverse k v h
  exact List.mem_reverse.mp this

theorem overwriteStep_char (dec : Nat → Option String) (db : DB) (st : DocStory) :
    (∀ p ∈ (overwriteStep dec db st).1.parts, p ∈ db.parts) ∧
      (∀ c ∈ (overwriteStep dec db st).1.comments, c ∈ db.comments) ∧
      (∀ v ∈ (overwriteStep dec db st).1.videos, v ∈ db.videos) ∧
      (∀ s ∈ (overwriteStep dec db st).1.stories, s ∈ db.stories) ∧
      (∀ sc ∈ (overwriteStep dec db st).1.storyCats, sc ∈ db.storyCats) ∧
      (overwriteStep dec db st).1.categories = db.categories ∧
      (overwriteStep dec db st).1.nextCategoryId = db.nextCategoryId ∧
      (overwriteStep dec db st).1.nextStoryId = db.nextStoryId ∧
      (overwriteStep dec db st).1.nextPartId = db.nextPartId ∧
      (overwriteStep dec db st).1.nextCommentId = db.nextCommentId ∧
      (overwriteStep dec db st).1.nextVideoId = db.nextVideoId := by
  unfold overwriteStep
  split
  · split
    · simp only [deleteStoryCascade]
      refine ⟨?_, ?_, ?_, ?_, ?_, by trivial, by trivial, by trivial, by trivial,
        by trivial, by trivial⟩ <;>
        intro x hx <;> exact List.mem_of_mem_filter hx
    · exact ⟨fun _ h => h, fun _ h => h, fun _ h => h, fun _ h => h, fun _ h => h,
        rfl, rfl, rfl, rfl, rfl, rfl⟩
  · exact ⟨fun _ h => h, fun _ h => h, fun _ h => h, fun _ h => h, fun _ h => h,
      rfl, rfl, rfl, rfl, rfl, rfl⟩

theorem importStories_frame (env : Env) (dec : Nat → Option String)
    (catMap : List (Nat × Nat)) (sts : List DocStory) : ∀ db : DB,
    (∀ p ∈ (importStories env dec catMap db sts).db.parts, p ∈ db.parts) ∧
      (∀ c ∈ (importStories env dec catMap db sts).db.comments, c ∈ db.comments) ∧
      (∀ v ∈ (importStories env dec catMap db sts).db.videos, v ∈ db.videos) ∧
      (importStories env dec catMap db sts).db.categories = db.categories ∧
      (importStories env dec catMap db sts).db.nextCategoryId = db.nextCategoryId ∧
      (importStories env dec catMap db sts).db.nextPartId = db.nextPartId ∧
      (importStories env dec catMap db sts).db.nextCommentId = db.nextCommentId ∧
      (importStories env dec catMap db sts).db.nextVideoId = db.nextVideoId ∧
      db.nextStoryId ≤ (importStories env dec catMap db sts).db.nextStoryId := by
  induction sts with
  | nil => intro db; simp [importStories]
  | cons st rest ih =>
    intro db
    by_cases h : dec st.id = some "skip"
    · simpa [importStories, h] using ih db
    · simp only [importStories, if_neg h]
      obtain ⟨o1, o2, o3, o4, o5, o6, o7, o8, o9, o10, o11⟩ :=
        overwriteStep_char dec db st
      obtain ⟨i1, i2, i3, i4, i5, i6, i7, i8, i9⟩ :=
        ih (createStory env catMap (overwriteStep dec db st).1 st).1
      have cp : (createStory env catMap (overwriteStep dec db st).1 st).1.parts =
        (overwriteStep dec db st).1.parts := rfl
      have cc : (createStory env catMap (overwriteStep dec db st).1 st).1.comments =
        (overwriteStep dec db st).1.comments := rfl
      have cv : (createStory env catMap (overwriteStep dec db st).1 st).1.videos =
        (overwriteStep dec db st).1.videos := rfl
      have ccat : (createStory env catMap (overwriteStep dec db st).1 st).1.categories =
        (overwriteStep dec db st).1.categories := rfl
      have cn1 : (createStory env catMap (overwriteStep dec db st).1 st).1.nextCategoryId =
        (overwriteStep dec db st).1.nextCategoryId := rfl
      have cn2 : (createStory env catMap (overwriteStep dec db st).1 st).1.nextPartId =
        (overwriteStep dec db st).1.nextPartId := rfl
      have cn3 : (createStory env catMap (overwriteStep dec db st).1 st).1.nextCommentId =
        (overwriteStep dec db st).1.nextCommentId := rfl
      have cn4 : (createStory env catMap (overwriteStep dec db st).1 st).1.nextVideoId =
        (overwriteStep dec db st).1.nextVideoId := rfl
      have cn5 : (createStory env catMap (overwriteStep dec db st).1 st).1.nextStoryId =
        (overwriteStep dec db st).1.nextStoryId + 1 := rfl
      rw [cp] at i1
      rw [cc] at i2
      rw [cv] at i3
      rw [ccat] at i4
      rw [cn1] at i5
      rw [cn2] at i6
      rw [cn3] at i7
      rw [cn4] at i8
      rw [cn5] at i9
      refine ⟨?_, ?_, ?_, ?_, ?_, ?_, ?_, ?_, ?_⟩
      · intro p hp; exact o1 p (i1 p hp)
      · intro c hc; exact o2 c (i2 c hc)
      · intro v hv; exact o3 v (i3 v hv)
      · rw [i4]; exact o6
      · rw [i5]; exact o7
      · rw [i6]; exact o9
      · rw [i7]; exact o10
      · rw [i8]; exact o11
      · rw [o8] at i9
        omega

theorem importStories_smap (env : Env) (dec : Nat → Option String)
    (catMap : List (Nat × Nat)) (sts : List DocStory) : ∀ db : DB,
    (∀ kv ∈ (importStories env dec catMap db sts).smap,
        (∃ st ∈ sts, st.id = kv.1 ∧ ¬ dec st.id = some "skip") ∧
          db.nextStoryId ≤ kv.2) ∧
      (∀ st ∈ sts, ¬ dec st.id = some "skip" →
        ∃ v, dictGet (importStories env dec catMap db sts).smap st.id = some v) := by
  induction sts with
  | nil => intro db; simp [importStories]
  | cons st rest ih =>
    intro db
    by_cases h : dec st.id = some "skip"
    · obtain ⟨i1, i2⟩ := ih db
      simp only [importStories, if_pos h]
      constructor
      · intro kv hkv
        obtain ⟨⟨st1, hst1, he, hd⟩, hb⟩ := i1 kv hkv
        exact ⟨⟨st1, List.mem_cons_of_mem st hst1, he, hd⟩, hb⟩
      · intro st1 hst1 hd
        rcases List.mem_cons.mp hst1 with rfl | hst1
        · exact absurd h hd
        · exact i2 st1 hst1 hd
    · simp only [importStories, if_neg h]
      have hns : (overwriteStep dec db st).1.nextStoryId = db.nextStoryId :=
        (overwriteStep_char dec db st).2.2.2.2.2.2.2.1
      have hcs : (createStory env catMap (overwriteStep dec db st).1 st).1.nextStoryId =
        (overwriteStep dec db st).1.nextStoryId + 1 := rfl
      have hcv : (createStory env catMap (overwriteStep dec db st).1 st).2 =
        (overwriteStep dec db st).1.nextStoryId := rfl
      obtain ⟨i1, i2⟩ := ih (createStory env catMap (overwriteStep dec db st).1 st).1
      constructor
      · intro kv hkv
        rcases List.mem_append.mp hkv with hkv | hkv
        · obtain ⟨⟨st1, hst1, he, hd⟩, hb⟩ := i1 kv hkv
          rw [hcs, hns] at hb
          exact ⟨⟨st1, List.mem_cons_of_mem st hst1, he, hd⟩, by omega⟩
        · rcases List.mem_singleton.mp hkv with rfl
          refine ⟨⟨st, List.mem_cons_self st rest, rfl, h⟩, ?_⟩
          rw [hcv, hns]
      · intro st1 hst1 hd
        rcases List.mem_cons.mp hst1 with rfl | hst1
        · rw [dictGet_append]
          cases hg : dictGet (importStories env dec catMap
              (createStory env catMap (overwriteStep dec db st1).1 st1).1 rest).smap
              st1.id with
          | some v => exact ⟨v, by simp [Option.orElse]⟩
          | none =>
            refine ⟨(createStory env catMap (overwriteStep dec db st1).1 st1).2, ?_⟩
            simp [Option.orElse, dictGet]
        · obtain ⟨v, hv⟩ := i2 st1 hst1 hd
          refine ⟨v, ?_⟩
          rw [dictGet_append, hv]
          simp [Option.orElse]

theorem importStories_stories_src (env : Env) (dec : Nat → Option String)
    (catMap : List (Nat × Nat)) (sts : List DocStory) : ∀ db : DB,
    ∀ s ∈ (importStories env dec catMap db sts).db.stories,
      s ∈ db.stories ∨ ∃ st ∈ sts, ¬ dec st.id = some "skip" ∧
        s.title = st.title ∧ s.author = st.author ∧ s.story_type = st.story_type ∧
        s.views = st.views ∧ s.is_hidden = st.is_hidden ∧
        s.is_completed = st.is_completed ∧ s.rating_sum = st.rating_sum ∧
        s.rating_count = st.rating_count ∧
        s.created_at = decodeTs env st.created_at := by
  induction sts with
  | nil => intro db s hs; exact Or.inl hs
  | cons st rest ih =>
    intro db s hs
    by_cases h : dec st.id = some "skip"
    · simp only [importStories, if_pos h] at hs
      rcases ih db s hs with hl | ⟨st1, hst1, hr⟩
      · exact Or.inl hl
      · exact Or.inr ⟨st1, List.mem_cons_of_mem st hst1, hr⟩
    · simp only [importStories, if_neg h] at hs
      rcases ih (createStory env catMap (overwriteStep dec db st).1 st).1 s hs with
        hl | ⟨st1, hst1, hr⟩
      · have hcrt : (createStory env catMap (overwriteStep dec db st).1 st).1.stories =
          (overwriteStep dec db st).1.stories ++
            [mkStory env catMap (overwriteStep dec db st).1.nextStoryId st] := rfl
        rw [hcrt] at hl
        rcases List.mem_append.mp hl with hl | hl
        · exact Or.inl ((overwriteStep_char dec db st).2.2.2.1 s hl)
        · rcases List.mem_singleton.mp hl with rfl
          exact Or.inr ⟨st, List.mem_cons_self st rest, h, rfl, rfl, rfl, rfl, rfl,
            rfl, rfl, rfl, rfl⟩
      · exact Or.inr ⟨st1, List.mem_cons_of_mem st hst1, hr⟩

theorem importStories_keeps (env : Env) (dec : Nat → Option String)
    (catMap : List (Nat × Nat)) (sts : List DocStory) : ∀ db : DB, ∀ s : Story,
    (∀ x ∈ db.stories, x.id < db.nextStoryId) →
    (db.stories.map (fun x => x.id)).Nodup →
    s ∈ db.stories →
    (∀ st ∈ sts, dec st.id = some "overwrite" →
      ¬ pyLower (pyStrip st.title) = pyLower s.title) →
    s ∈ (importStories env dec catMap db sts).db.stories := by
  induction sts with
  | nil => intro db s _ _ hmem _; simpa [importStories] using hmem
  | cons st rest ih =>
    intro db s hbound hnodup hmem hno
    by_cases h : dec st.id = some "skip"
    · simp only [importStories, if_pos h]
      exact ih db s hbound hnodup hmem
        (fun st1 h1 => hno st1 (List.mem_cons_of_mem st h1))
    · simp only [importStories, if_neg h]
      -- membership and well-formedness survive the overwrite deletion
      have hstep : s ∈ (overwriteStep dec db st).1.stories ∧
          (∀ x ∈ (overwriteStep dec db st).1.stories, x ∈ db.stories) := by
        unfold overwriteStep
        split
        · rename_i how
          cases hf : db.stories.find? (fun x => pyLower x.title = pyLower (pyStrip st.title)) with
          | none => exact ⟨hmem, fun x hx => hx⟩
          | some ex =>
            have hexmem : ex ∈ db.stories := List.mem_of_find?_eq_some hf
            have hexp : pyLower ex.title = pyLower (pyStrip st.title) := by
              have := List.find?_some hf
              simpa using this
            have hne : ¬ s.id = ex.id := by
              intro hid
              have : s = ex := List.inj_on_of_nodup_map hnodup hmem hexmem hid
              rw [this] at hno
              exact hno st (List.mem_cons_self st rest) how hexp.symm
            constructor
            · simp only [deleteStoryCascade]
              exact List.mem_filter.mpr ⟨hmem, by simpa using hne⟩
            · intro x hx
              simp only [deleteStoryCascade] at hx
              exact List.mem_of_mem_filter hx
        · exact ⟨hmem, fun x hx => hx⟩
      have hsub := hstep.2
      have hns : (overwriteStep dec db st).1.nextStoryId = db.nextStoryId :=
        (overwriteStep_char dec db st).2.2.2.2.2.2.2.1
      have hnodup1 : ((overwriteStep dec db st).1.stories.map (fun x => x.id)).Nodup := by
        unfold overwriteStep
        unfold overwriteStep at hsub
        split
        · split
          · simp only [deleteStoryCascade]
            exact ((List.filter_sublist _).map _).nodup hnodup
          · exact hnodup
        · exact hnodup
      have hbound1 : ∀ x ∈ (overwriteStep dec db st).1.stories,
          x.id < (overwriteStep dec db st).1.nextStoryId := by
        intro x hx
        rw [hns]
        exact hbound x (hsub x hx)
      -- the freshly created story
      have hcrt : (createStory env catMap (overwriteStep dec db st).1 st).1.stories =
          (overwriteStep dec db st).1.stories ++
            [mkStory env catMap (overwriteStep dec db st).1.nextStoryId st] := rfl
      have hcns : (createStory env catMap (overwriteStep dec db st).1 st).1.nextStoryId =
          (overwriteStep dec db st).1.nextStoryId + 1 := rfl
      apply ih
      · intro x hx
        rw [hcrt] at hx
        rw [hcns]
        rcases List.mem_append.mp hx with hx | hx
        · have := hbound1 x hx
          omega
        · rcases List.mem_singleton.mp hx with rfl
          simp [mkStory]
      · rw [hcrt, List.map_append, List.nodup_append]
        refine ⟨hnodup1, by simp, ?_⟩
        intro a ha hb
        simp only [List.mem_map] at ha
        obtain ⟨x, hx, rfl⟩ := ha
        simp only [List.map_cons, List.map_nil, List.mem_singleton, mkStory] at hb
        have := hbound1 x hx
        omega
      · rw [hcrt]
        exact List.mem_append.mpr (Or.inl hstep.1)
      · intro st1 h1
        exact hno st1 (List.mem_cons_of_mem st h1)

theorem owc_wf (env : Env) (dec : Nat → Option String) (catMap : List (Nat × Nat))
    (st : DocStory) (db : DB)
    (hbound : ∀ x ∈ db.stories, x.id < db.nextStoryId)
    (hnodup : (db.stories.map (fun x => x.id)).Nodup) :
    (∀ x ∈ (createStory env catMap (overwriteStep dec db st).1 st).1.stories,
        x.id < (createStory env catMap (overwriteStep dec db st).1 st).1.nextStoryId) ∧
      ((createStory env catMap (overwriteStep dec db st).1 st).1.stories.map
        (fun x => x.id)).Nodup := by
  have hns : (overwriteStep dec db st).1.nextStoryId = db.nextStoryId :=
    (overwriteStep_char dec db st).2.2.2.2.2.2.2.1
  have hsub : ∀ x ∈ (overwriteStep dec db st).1.stories, x ∈ db.stories :=
    (overwriteStep_char dec db st).2.2.2.1
  have hnodup1 : ((overwriteStep dec db st).1.stories.map (fun x => x.id)).Nodup := by
    unfold overwriteStep
    split
    · split
      · simp only [deleteStoryCascade]
        exact ((List.filter_sublist _).map _).nodup hnodup
      · exact hnodup
    · exact hnodup
  have hbound1 : ∀ x ∈ (overwriteStep dec db st).1.stories, x.id < db.nextStoryId :=
    fun x hx => hbound x (hsub x hx)
  have hcrt : (createStory env catMap (overwriteStep dec db st).1 st).1.stories =
      (overwriteStep dec db st).1.stories ++
        [mkStory env catMap (overwriteStep dec db st).1.nextStoryId st] := rfl
  have hcns : (createStory env catMap (overwriteStep dec db st).1 st).1.nextStoryId =
      (overwriteStep dec db st).1.nextStoryId + 1 := rfl
  constructor
  · intro x hx
    rw [hcrt] at hx
    rw [hcns, hns]
    rcases List.mem_append.mp hx with hx | hx
    · have := hbound1 x hx
      omega
    · rcases List.mem_singleton.mp hx with rfl
      simp [mkStory, hns]
  · rw [hcrt, List.map_append, List.nodup_append]
    refine ⟨hnodup1, by simp, ?_⟩
    intro a ha hb
    simp only [List.mem_map] at ha
    obtain ⟨x, hx, rfl⟩ := ha
    simp only [List.map_cons, List.map_nil, List.mem_singleton, mkStory] at hb
    have := hbound1 x hx
    rw [hb, hns] at this
    omega

theorem importStories_creates (env : Env) (dec : Nat → Option String)
    (catMap : List (Nat × Nat)) (sts : List DocStory) : ∀ db : DB,
    (∀ x ∈ db.stories, x.id < db.nextStoryId) →
    (db.stories.map (fun x => x.id)).Nodup →
    ∀ st ∈ sts, ¬ dec st.id = some "skip" →
    (∀ st2 ∈ sts, dec st2.id = some "overwrite" →
      ¬ pyLower (pyStrip st2.title) = pyLower st.title) →
    ∃ s1 ∈ (importStories env dec catMap db sts).db.stories,
      s1.title = st.title ∧ s1.author = st.author ∧ s1.story_type = st.story_type ∧
      s1.views = st.views ∧ s1.is_hidden = st.is_hidden ∧
      s1.is_completed = st.is_completed ∧ s1.rating_sum = st.rating_sum ∧
      s1.rating_count = st.rating_count ∧
      s1.created_at = decodeTs env st.created_at := by
  induction sts with
  | nil => intro db _ _ st hst; simp at hst
  | cons st0 rest ih =>
    intro db hbound hnodup st hst hd hno
    rcases List.mem_cons.mp hst with rfl | hst
    · simp only [importStories, if_neg hd]
      refine ⟨mkStory env catMap (overwriteStep dec db st).1.nextStoryId st, ?_,
        rfl, rfl, rfl, rfl, rfl, rfl, rfl, rfl, rfl⟩
      have hmem : mkStory env catMap (overwriteStep dec db st).1.nextStoryId st ∈
          (createStory env catMap (overwriteStep dec db st).1 st).1.stories := by
        have hcrt : (createStory env catMap (overwriteStep dec db st).1 st).1.stories =
            (overwriteStep dec db st).1.stories ++
              [mkStory env catMap (overwriteStep dec db st).1.nextStoryId st] := rfl
        rw [hcrt]
        exact List.mem_append.mpr (Or.inr (List.mem_singleton.mpr rfl))
      obtain ⟨w1, w2⟩ := owc_wf env dec catMap st db hbound hnodup
      exact importStories_keeps env dec catMap rest _ _ w1 w2 hmem
        (fun st2 h2 how => by
          simpa [mkStory] using hno st2 (List.mem_cons_of_mem st h2) how)
    · by_cases hd0 : dec st0.id = some "skip"
      · simp only [importStories, if_pos hd0]
        exact ih db hbound hnodup st hst hd
          (fun st2 h2 => hno st2 (List.mem_cons_of_mem st0 h2))
      · simp only [importStories, if_neg hd0]
        obtain ⟨w1, w2⟩ := owc_wf env dec catMap st0 db hbound hnodup
        exact ih _ w1 w2 st hst hd
          (fun st2 h2 => hno st2 (List.mem_cons_of_mem st0 h2))

theorem keptParts_of_mem (env : Env) (smap : List (Nat × Nat))
    (ps : List DocPart) : ∀ start : Nat, ∀ p ∈ ps, ∀ nsid,
    dictGet smap p.story_id = some nsid →
    ∃ q ∈ keptParts env smap start ps, q.story_id = nsid ∧
      q.part_number = p.part_number ∧ q.content = p.content ∧
      q.created_at = decodeTs env p.created_at := by
  induction ps with
  | nil => intro start p hp; simp at hp
  | cons p0 rest ih =>
    intro start p hp nsid hmap
    rcases List.mem_cons.mp hp with rfl | hp
    · simp only [keptParts, hmap]
      exact ⟨_, List.mem_cons_self _ _, rfl, rfl, rfl, rfl⟩
    · cases hm0 : dictGet smap p0.story_id with
      | none =>
        simp only [keptParts, hm0]
        exact ih start p hp nsid hmap
      | some n0 =>
        simp only [keptParts, hm0]
        obtain ⟨q, hq, hqs⟩ := ih (start + 1) p hp nsid hmap
        exact ⟨q, List.mem_cons_of_mem _ hq, hqs⟩

theorem keptComments_of_mem (env : Env) (smap : List (Nat × Nat))
    (cs : List DocComment) : ∀ start : Nat, ∀ c ∈ cs, ∀ nsid,
    dictGet smap c.story_id = some nsid → ¬ nsid = 0 →
    ∃ q ∈ keptComments env smap start cs,
      q.content = c.content ∧ q.name = c.name ∧ q.email = c.email ∧
      q.created_at = decodeTs env c.created_at := by
  induction cs with
  | nil => intro start c hc; simp at hc
  | cons c0 rest ih =>
    intro start c hc nsid hmap hz
    rcases List.mem_cons.mp hc with rfl | hc
    · simp only [keptComments, hmap, if_neg hz]
      exact ⟨_, List.mem_cons_self _ _, rfl, rfl, rfl, rfl⟩
    · cases hm0 : dictGet smap c0.story_id with
      | none =>
        simp only [keptComments, hm0]
        exact ih start c hc nsid hmap hz
      | some n0 =>
        by_cases hz0 : n0 = 0
        · simp only [keptComments, hm0, if_pos hz0]
          exact ih start c hc nsid hmap hz
        · simp only [keptComments, hm0, if_neg hz0]
          obtain ⟨q, hq, hqs⟩ := ih (start + 1) c hc nsid hmap hz
          exact ⟨q, List.mem_cons_of_mem _ hq, hqs⟩

theorem keptParts_src (env : Env) (smap : List (Nat × Nat)) (ps : List DocPart) :
    ∀ start : Nat, ∀ q ∈ keptParts env smap start ps,
      ∃ p ∈ ps, dictGet smap p.story_id = some q.story_id ∧
        q.part_number = p.part_number ∧ q.content = p.content ∧
        q.created_at = decodeTs env p.created_at := by
  induction ps with
  | nil => intro start q hq; simp [keptParts] at hq
  | cons p0 rest ih =>
    intro start q hq
    cases hm0 : dictGet smap p0.story_id with
    | none =>
      simp only [keptParts, hm0] at hq
      obtain ⟨p, hp, hps⟩ := ih start q hq
      exact ⟨p, List.mem_cons_of_mem p0 hp, hps⟩
    | some n0 =>
      simp only [keptParts, hm0] at hq
      rcases List.mem_cons.mp hq with rfl | hq
      · exact ⟨p0, List.mem_cons_self p0 rest, hm0, rfl, rfl, rfl⟩
      · obtain ⟨p, hp, hps⟩ := ih (start + 1) q hq
        exact ⟨p, List.mem_cons_of_mem p0 hp, hps⟩

theorem keptComments_src (env : Env) (smap : List (Nat × Nat))
    (cs : List DocComment) : ∀ start : Nat, ∀ q ∈ keptComments env smap start cs,
      ∃ c ∈ cs, dictGet smap c.story_id = some q.story_id ∧
        q.url = pySubStoryUrl q.story_id c.url ∧ q.content = c.content ∧
        q.name = c.name ∧ q.email = c.email ∧
        q.created_at = decodeTs env c.created_at := by
  induction cs with
  | nil => intro start q hq; simp [keptComments] at hq
  | cons c0 rest ih =>
    intro start q hq
    cases hm0 : dictGet smap c0.story_id with
    | none =>
      simp only [keptComments, hm0] at hq
      obtain ⟨c, hc, hcs⟩ := ih start q hq
      exact ⟨c, List.mem_cons_of_mem c0 hc, hcs⟩
    | some n0 =>
      by_cases hz0 : n0 = 0
      · simp only [keptComments, hm0, if_pos hz0] at hq
        obtain ⟨c, hc, hcs⟩ := ih start q hq
        exact ⟨c, List.mem_cons_of_mem c0 hc, hcs⟩
      · simp only [keptComments, hm0, if_neg hz0] at hq
        rcases List.mem_cons.mp hq with rfl | hq
        · exact ⟨c0, List.mem_cons_self c0 rest, hm0, rfl, rfl, rfl, rfl, rfl⟩
        · obtain ⟨c, hc, hcs⟩ := ih (start + 1) q hq
          exact ⟨c, List.mem_cons_of_mem c0 hc, hcs⟩

theorem keptVideos_src (pmap : List (Nat × Nat)) (vs : List DocVideo) :
    ∀ start : Nat, ∀ q ∈ keptVideos pmap start vs,
      ∃ v ∈ vs, dictGet pmap v.part_id = some q.part_id ∧ q.url = v.url ∧
        ¬ v.url = "" := by
  induction vs with
  | nil => intro start q hq; simp [keptVideos] at hq
  | cons v0 rest ih =>
    intro start q hq
    cases hm0 : dictGet pmap v0.part_id with
    | none =>
      simp only [keptVideos, hm0] at hq
      obtain ⟨v, hv, hvs⟩ := ih start q hq
      exact ⟨v, List.mem_cons_of_mem v0 hv, hvs⟩
    | some n0 =>
      by_cases hz0 : n0 = 0
      · simp only [keptVideos, hm0, if_pos hz0] at hq
        obtain ⟨v, hv, hvs⟩ := ih start q hq
        exact ⟨v, List.mem_cons_of_mem v0 hv, hvs⟩
      · by_cases hu0 : v0.url = ""
        · simp only [keptVideos, hm0, if_neg hz0, if_pos hu0] at hq
          obtain ⟨v, hv, hvs⟩ := ih start q hq
          exact ⟨v, List.mem_cons_of_mem v0 hv, hvs⟩
        · simp only [keptVideos, hm0, if_neg hz0, if_neg hu0] at hq
          rcases List.mem_cons.mp hq with rfl | hq
          · exact ⟨v0, List.mem_cons_self v0 rest, hm0, rfl, hu0⟩
          · obtain ⟨v, hv, hvs⟩ := ih (start + 1) q hq
            exact ⟨v, List.mem_cons_of_mem v0 hv, hvs⟩

theorem keptPMap_src (smap : List (Nat × Nat)) (ps : List DocPart) :
    ∀ start : Nat, ∀ kv ∈ keptPMap smap start ps,
      ∃ p ∈ ps, p.id = kv.1 ∧ ∃ w, dictGet smap p.story_id = some w := by
  induction ps with
  | nil => intro start kv hkv; simp [keptPMap] at hkv
  | cons p0 rest ih =>
    intro start kv hkv
    cases hm0 : dictGet smap p0.story_id with
    | none =>
      simp only [keptPMap, hm0] at hkv
      obtain ⟨p, hp, hps⟩ := ih start kv hkv
      exact ⟨p, List.mem_cons_of_mem p0 hp, hps⟩
    | some n0 =>
      simp only [keptPMap, hm0] at hkv
      rcases List.mem_cons.mp hkv with rfl | hkv
      · exact ⟨p0, List.mem_cons_self p0 rest, rfl, n0, hm0⟩
      · obtain ⟨p, hp, hps⟩ := ih (start + 1) kv hkv
        exact ⟨p, List.mem_cons_of_mem p0 hp, hps⟩

/-- C10.  A record (story, part or comment) whose `created_at` string fails
ISO-8601 decoding is still imported, with the current time substituted for
its timestamp; a malformed timestamp never causes the record or the import
to be rejected.  (The hypotheses are the store's identity discipline, and —
for the story clause — that no `overwrite` decision in the document targets
the record's own title, since such a decision deletes the freshly created
story for reasons unrelated to timestamps.) -/
theorem import_timestamp_recovery (env : Env) (doc : Document)
    (dec : Nat → Option String) (db : DB)
    (hns : 1 ≤ db.nextStoryId)
    (hbound : ∀ x ∈ db.stories, x.id < db.nextStoryId)
    (hnodup : (db.stories.map (fun x => x.id)).Nodup) :
    (∀ st ∈ doc.stories, ¬ dec st.id = some "skip" →
        (∀ st2 ∈ doc.stories, dec st2.id = some "overwrite" →
          ¬ pyLower (pyStrip st2.title) = pyLower st.title) →
        ∀ s0, st.created_at = some s0 → ¬ s0 = "" → env.parseIso s0 = none →
        ∃ s1 ∈ (perform_import env doc dec db).db.stories,
          s1.title = st.title ∧ s1.author = st.author ∧
            s1.story_type = st.story_type ∧ s1.views = st.views ∧
            s1.created_at = env.now) ∧
      (∀ p ∈ doc.parts,
        (∃ st ∈ doc.stories, st.id = p.story_id ∧ ¬ dec st.id = some "skip") →
        ∀ s0, p.created_at = some s0 → ¬ s0 = "" → env.parseIso s0 = none →
        ∃ q ∈ (perform_import env doc dec db).db.parts,
          q.part_number = p.part_number ∧ q.content = p.content ∧
            q.created_at = env.now) ∧
      (∀ c ∈ doc.comments,
        (∃ st ∈ doc.stories, st.id = c.story_id ∧ ¬ dec st.id = some "skip") →
        ∀ s0, c.created_at = some s0 → ¬ s0 = "" → env.parseIso s0 = none →
        ∃ q ∈ (perform_import env doc dec db).db.comments,
          q.content = c.content ∧ q.name = c.name ∧ q.email = c.email ∧
            q.created_at = env.now) := by
  simp only [perform_import]
  obtain ⟨s1e, s2e, s3e, s4e, s5e, s6e, s7e, s8e, s9e⟩ :=
    importCategories_state doc.categories db
  set db1 := (importCategories db doc.categories).1 with hdb1
  set cm := (importCategories db doc.categories).2 with hcm
  have hbound1 : ∀ x ∈ db1.stories, x.id < db1.nextStoryId := by
    rw [s1e, s6e]; exact hbound
  have hnodup1 : (db1.stories.map (fun x => x.id)).Nodup := by
    rw [s1e]; exact hnodup
  set r := importStories env dec cm db1 doc.stories with hr
  obtain ⟨p1, p2, p3, p4, p5, p6, p7, p8, p9, p10, p11, p12⟩ :=
    importParts_eq env r.smap doc.parts r.db
  set ph := importParts env r.smap r.db doc.parts with hph
  obtain ⟨c1, c2, c3, c4, c5, c6, c7, c8, c9, c10, c11⟩ :=
    importComments_eq env r.smap doc.comments ph.1
  set db4 := importComments env r.smap ph.1 doc.comments with hdb4
  obtain ⟨v1, v2, v3, v4, v5, v6, v7, v8, v9, v10, v11⟩ :=
    importVideos_eq ph.2 doc.videos db4
  refine ⟨?_, ?_, ?_⟩
  · intro st hst hd hno s0 hs0 hs0ne hparse
    obtain ⟨w, hwmem, f1, f2, f3, f4, f5, f6, f7, f8, f9⟩ :=
      importStories_creates env dec cm doc.stories db1 hbound1 hnodup1 st hst hd hno
    refine ⟨w, ?_, f1, f2, f3, f4, ?_⟩
    · rw [v2, c2, p2]
      exact hwmem
    · rw [f9, hs0]
      simp [decodeTs, hs0ne, hparse]
  · intro p hp hsome s0 hs0 hs0ne hparse
    obtain ⟨st, hstmem, hstid, hd⟩ := hsome
    obtain ⟨v, hv⟩ := (importStories_smap env dec cm doc.stories db1).2 st hstmem hd
    rw [hstid] at hv
    obtain ⟨q, hqmem, g1, g2, g3, g4⟩ :=
      keptParts_of_mem env r.smap doc.parts r.db.nextPartId p hp v hv
    refine ⟨q, ?_, g2, g3, ?_⟩
    · rw [v3, c3, p1]
      exact List.mem_append.mpr (Or.inr hqmem)
    · rw [g4, hs0]
      simp [decodeTs, hs0ne, hparse]
  · intro c hc hsome s0 hs0 hs0ne hparse
    obtain ⟨st, hstmem, hstid, hd⟩ := hsome
    obtain ⟨v, hv⟩ := (importStories_smap env dec cm doc.stories db1).2 st hstmem hd
    rw [hstid] at hv
    have hvz : ¬ v = 0 := by
      have hentry := ((importStories_smap env dec cm doc.stories db1).1 _
        (dictGet_mem _ _ _ hv)).2
      rw [s6e] at hentry
      omega
    obtain ⟨q, hqmem, g1, g2, g3, g4⟩ :=
      keptComments_of_mem env r.smap doc.comments ph.1.nextCommentId c hc v hv hvz
    refine ⟨q, ?_, g1, g2, g3, ?_⟩
    · rw [v4, c1]
      exact List.mem_append.mpr (Or.inr hqmem)
    · rw [g4, hs0]
      simp [decodeTs, hs0ne, hparse]

/-- C10 witness: with a decoder that fails on every string, a document
whose story, part and comment all carry malformed timestamps is still fully
imported, with `now` substituted everywhere. -/
theorem import_timestamp_recovery_witness :
    (∃ s1 ∈ (perform_import failEnv docBadTs (fun _ => none) emptyDB).db.stories,
        s1.title = "Alpha" ∧ s1.created_at = failEnv.now) ∧
      (∃ q ∈ (perform_import failEnv docBadTs (fun _ => none) emptyDB).db.parts,
        q.content = "body" ∧ q.created_at = failEnv.now) ∧
      (∃ q ∈ (perform_import failEnv docBadTs (fun _ => none) emptyDB).db.comments,
        q.content = "hi" ∧ q.created_at = failEnv.now) := by
  obtain ⟨hs, hp, hc⟩ := import_timestamp_recovery failEnv docBadTs (fun _ => none)
    emptyDB (by decide) (by decide) (by decide)
  refine ⟨?_, ?_, ?_⟩
  · obtain ⟨s1, hmem, f1, _, _, _, f5⟩ :=
      hs { mkDocStory 1 "Alpha" with created_at := some "not-a-date" }
        (by decide) (by decide) (by decide) "not-a-date" rfl (by decide) rfl
    exact ⟨s1, hmem, f1, f5⟩
  · obtain ⟨q, hmem, _, g3, g4⟩ :=
      hp { id := 2, story_id := 1, part_number := 1, content := "body"
           created_at := some "not-a-date" }
        (by decide) (by decide) "not-a-date" rfl (by decide) rfl
    exact ⟨q, hmem, g3, g4⟩
  · obtain ⟨q, hmem, g1, _, _, g4⟩ :=
      hc { id := 3, story_id := 1, url := "/story/1", name := none, email := none
           content := "hi", created_at := some "not-a-date" }
        (by decide) (by decide) "not-a-date" rfl (by decide) rfl
    exact ⟨q, hmem, g1, g4⟩

/-- C5.  For a story of the import document whose decision is `skip`, none
of its dependent records are imported: every new part, comment or video row
in the post-import store derives from a document record that does not
belong to the skipped story (the video clause reads attachment through the
document's part identities, which the hypothesis requires to be unique, as
every exported document's are). -/
theorem skip_cascade (env : Env) (doc : Document) (dec : Nat → Option String)
    (db : DB) (S : DocStory) (hS : S ∈ doc.stories)
    (hskip : dec S.id = some "skip")
    (hpn : (doc.parts.map (fun p => p.id)).Nodup) :
    (∀ q ∈ (perform_import env doc dec db).db.parts, q ∈ db.parts ∨
        ∃ dp ∈ doc.parts, ¬ dp.story_id = S.id ∧
          q.part_number = dp.part_number ∧ q.content = dp.content) ∧
      (∀ q ∈ (perform_import env doc dec db).db.comments, q ∈ db.comments ∨
        ∃ c ∈ doc.comments, ¬ c.story_id = S.id ∧ q.content = c.content ∧
          q.name = c.name ∧ q.email = c.email) ∧
      (∀ q ∈ (perform_import env doc dec db).db.videos, q ∈ db.videos ∨
        ∃ v ∈ doc.videos,
          (∀ dp ∈ doc.parts, dp.id = v.part_id → ¬ dp.story_id = S.id) ∧
            q.url = v.url) := by
  simp only [perform_import]
  obtain ⟨s1e, s2e, s3e, s4e, s5e, s6e, s7e, s8e, s9e⟩ :=
    importCategories_state doc.categories db
  set db1 := (importCategories db doc.categories).1 with hdb1
  set cm := (importCategories db doc.categories).2 with hcm
  set r := importStories env dec cm db1 doc.stories with hr
  have hnotS : ∀ w, ¬ dictGet r.smap S.id = some w := by
    intro w hw
    obtain ⟨⟨st1, _, hid, hd⟩, _⟩ :=
      (importStories_smap env dec cm doc.stories db1).1 _ (dictGet_mem _ _ _ hw)
    rw [hid] at hd
    exact hd hskip
  obtain ⟨f1, f2, f3, f4, f5, f6, f7, f8, f9⟩ :=
    importStories_frame env dec cm doc.stories db1
  obtain ⟨p1, p2, p3, p4, p5, p6, p7, p8, p9, p10, p11, p12⟩ :=
    importParts_eq env r.smap doc.parts r.db
  set ph := importParts env r.smap r.db doc.parts with hph
  obtain ⟨c1, c2, c3, c4, c5, c6, c7, c8, c9, c10, c11⟩ :=
    importComments_eq env r.smap doc.comments ph.1
  set db4 := importComments env r.smap ph.1 doc.comments with hdb4
  obtain ⟨v1, v2, v3, v4, v5, v6, v7, v8, v9, v10, v11⟩ :=
    importVideos_eq ph.2 doc.videos db4
  refine ⟨?_, ?_, ?_⟩
  · intro q hq
    rw [v3, c3, p1] at hq
    rcases List.mem_append.mp hq with hq | hq
    · exact Or.inl (s2e ▸ f1 q hq)
    · obtain ⟨dp, hdp, hmap, g2, g3, _⟩ :=
        keptParts_src env r.smap doc.parts r.db.nextPartId q hq
      refine Or.inr ⟨dp, hdp, ?_, g2, g3⟩
      intro he
      rw [he] at hmap
      exact hnotS q.story_id hmap
  · intro q hq
    rw [v4, c1] at hq
    rcases List.mem_append.mp hq with hq | hq
    · rw [p3] at hq
      exact Or.inl (s3e ▸ f2 q hq)
    · obtain ⟨c, hcmem, hmap, _, g3, g4, g5, _⟩ :=
        keptComments_src env r.smap doc.comments ph.1.nextCommentId q hq
      refine Or.inr ⟨c, hcmem, ?_, g3, g4, g5⟩
      intro he
      rw [he] at hmap
      exact hnotS q.story_id hmap
  · intro q hq
    rw [v1] at hq
    rcases List.mem_append.mp hq with hq | hq
    · rw [c4, p4] at hq
      exact Or.inl (s4e ▸ f3 q hq)
    · obtain ⟨v, hvmem, hmap, g2, _⟩ :=
        keptVideos_src ph.2 doc.videos db4.nextVideoId q hq
      rw [p12] at hmap
      obtain ⟨p0, hp0, hp0id, w, hw⟩ :=
        keptPMap_src r.smap doc.parts r.db.nextPartId _
          (dictGet_reverse_mem _ _ _ hmap)
      refine Or.inr ⟨v, hvmem, ?_, g2⟩
      intro dp hdp hdpid hdps
      have hdpeq : dp = p0 := by
        apply List.inj_on_of_nodup_map hpn hdp hp0
        rw [hdpid, hp0id]
      rw [hdpeq] at hdps
      rw [hdps] at hw
      exact hnotS w hw
  -- end

/-- C5 witness: a concrete import with story 1 skipped (two parts, one
comment, one video) and story 2 imported; every post-import row is old or
derives from a record of the non-skipped story. -/
theorem skip_cascade_witness :
    (∀ q ∈ (perform_import plainEnv docSkip decSkip1 emptyDB).db.parts,
        q ∈ emptyDB.parts ∨
        ∃ dp ∈ docSkip.parts, ¬ dp.story_id = (mkDocStory 1 "Skipme").id ∧
          q.part_number = dp.part_number ∧ q.content = dp.content) ∧
      (∀ q ∈ (perform_import plainEnv docSkip decSkip1 emptyDB).db.comments,
        q ∈ emptyDB.comments ∨
        ∃ c ∈ docSkip.comments, ¬ c.story_id = (mkDocStory 1 "Skipme").id ∧
          q.content = c.content ∧ q.name = c.name ∧ q.email = c.email) ∧
      (∀ q ∈ (perform_import plainEnv docSkip decSkip1 emptyDB).db.videos,
        q ∈ emptyDB.videos ∨
        ∃ v ∈ docSkip.videos,
          (∀ dp ∈ docSkip.parts, dp.id = v.part_id →
            ¬ dp.story_id = (mkDocStory 1 "Skipme").id) ∧ q.url = v.url) :=
  skip_cascade plainEnv docSkip decSkip1 emptyDB (mkDocStory 1 "Skipme")
    (by decide) (by decide) (by decide)

theorem find?_unique {α : Type} (p : α → Bool) (l : List α) (a : α)
    (ha : a ∈ l) (hpa : p a = true)
    (huniq : ∀ x ∈ l, p x = true → x = a) : l.find? p = some a := by
  induction l with
  | nil => simp at ha
  | cons b rest ih =>
    cases hb : p b with
    | true =>
      rw [List.find?_cons_of_pos _ hb]
      rw [huniq b (List.mem_cons_self b rest) hb]
    | false =>
      rw [List.find?_cons_of_neg _ (by simp [hb])]
      rcases List.mem_cons.mp ha with rfl | ha
      · rw [hpa] at hb
        cases hb
      · exact ih ha (fun x hx => huniq x (List.mem_cons_of_mem b hx))

theorem dictGet_single (a b k : Nat) :
    dictGet [(a, b)] k = if k = a then some b else none := rfl

theorem keptParts_single_story (env : Env) (tid n : Nat) (ps : List DocPart) :
    ∀ start : Nat, ∀ q ∈ keptParts env [(tid, n)] start ps, q.story_id = n := by
  induction ps with
  | nil => intro start q hq; simp [keptParts] at hq
  | cons p0 rest ih =>
    intro start q hq
    by_cases h0 : p0.story_id = tid
    · simp only [keptParts, dictGet_single, if_pos h0] at hq
      rcases List.mem_cons.mp hq with rfl | hq
      · rfl
      · exact ih (start + 1) q hq
    · simp only [keptParts, dictGet_single, if_neg h0] at hq
      exact ih start q hq

theorem keptParts_single_map (env : Env) (tid n : Nat) (ps : List DocPart) :
    ∀ start : Nat,
      (keptParts env [(tid, n)] start ps).map (fun q => (q.part_number, q.content)) =
        (ps.filter (fun p => p.story_id = tid)).map
          (fun p => (p.part_number, p.content)) := by
  induction ps with
  | nil => intro start; simp [keptParts]
  | cons p0 rest ih =>
    intro start
    by_cases h0 : p0.story_id = tid
    · simp only [keptParts, dictGet_single, if_pos h0, List.filter_cons,
        decide_eq_true_eq]
      simp only [List.map_cons]
      rw [ih (start + 1)]
    · simp only [keptParts, dictGet_single, if_neg h0, List.filter_cons,
        decide_eq_true_eq]
      exact ih start

theorem keptParts_ids_ge (env : Env) (smap : List (Nat × Nat)) (ps : List DocPart) :
    ∀ start : Nat, ∀ q ∈ keptParts env smap start ps, start ≤ q.id := by
  induction ps with
  | nil => intro start q hq; simp [keptParts] at hq
  | cons p0 rest ih =>
    intro start q hq
    cases hm : dictGet smap p0.story_id with
    | none =>
      simp only [keptParts, hm] at hq
      exact ih start q hq
    | some n0 =>
      simp only [keptParts, hm] at hq
      rcases List.mem_cons.mp hq with rfl | hq
      · exact Nat.le_refl start
      · have := ih (start + 1) q hq
        omega

theorem keptComments_single_story (env : Env) (tid n : Nat)
    (cs : List DocComment) :
    ∀ start : Nat, ∀ q ∈ keptComments env [(tid, n)] start cs, q.story_id = n := by
  induction cs with
  | nil => intro start q hq; simp [keptComments] at hq
  | cons c0 rest ih =>
    intro start q hq
    by_cases h0 : c0.story_id = tid
    · by_cases hz : n = 0
      · simp only [keptComments, dictGet_single, if_pos h0, if_pos hz] at hq
        exact ih start q hq
      · simp only [keptComments, dictGet_single, if_pos h0, if_neg hz] at hq
        rcases List.mem_cons.mp hq with rfl | hq
        · rfl
        · exact ih (start + 1) q hq
    · simp only [keptComments, dictGet_single, if_neg h0] at hq
      exact ih start q hq

theorem keptComments_single_map (env : Env) (tid n : Nat) (hz : ¬ n = 0)
    (cs : List DocComment) :
    ∀ start : Nat,
      (keptComments env [(tid, n)] start cs).map
          (fun q => (q.name, q.email, q.content)) =
        (cs.filter (fun c => c.story_id = tid)).map
          (fun c => (c.name, c.email, c.content)) := by
  induction cs with
  | nil => intro start; simp [keptComments]
  | cons c0 rest ih =>
    intro start
    by_cases h0 : c0.story_id = tid
    · simp only [keptComments, dictGet_single, if_pos h0, if_neg hz,
        List.filter_cons, decide_eq_true_eq]
      simp only [List.map_cons]
      rw [ih (start + 1)]
    · simp only [keptComments, dictGet_single, if_neg h0, List.filter_cons,
        decide_eq_true_eq]
      exact ih start

theorem keptPMap_values_eq (env : Env) (smap : List (Nat × Nat))
    (ps : List DocPart) : ∀ start : Nat,
    (keptPMap smap start ps).map (fun kv => kv.2) =
      (keptParts env smap start ps).map (fun q => q.id) := by
  induction ps with
  | nil => intro start; simp [keptPMap, keptParts]
  | cons p0 rest ih =>
    intro start
    cases hm : dictGet smap p0.story_id with
    | none => simp only [keptPMap, keptParts, hm]; exact ih start
    | some n0 =>
      simp only [keptPMap, keptParts, hm, List.map_cons]
      rw [ih (start + 1)]

theorem keptPMap_values_ge (smap : List (Nat × Nat)) (ps : List DocPart) :
    ∀ start : Nat, ∀ kv ∈ keptPMap smap start ps, start ≤ kv.2 := by
  induction ps with
  | nil => intro start kv hkv; simp [keptPMap] at hkv
  | cons p0 rest ih =>
    intro start kv hkv
    cases hm : dictGet smap p0.story_id with
    | none =>
      simp only [keptPMap, hm] at hkv
      exact ih start kv hkv
    | some n0 =>
      simp only [keptPMap, hm] at hkv
      rcases List.mem_cons.mp hkv with rfl | hkv
      · exact Nat.le_refl start
      · have := ih (start + 1) kv hkv
        omega

theorem keptPMap_complete (smap : List (Nat × Nat)) (ps : List DocPart) :
    ∀ start : Nat, ∀ p ∈ ps, ∀ w, dictGet smap p.story_id = some w →
      ∃ u, (p.id, u) ∈ keptPMap smap start ps := by
  induction ps with
  | nil => intro start p hp; simp at hp
  | cons p0 rest ih =>
    intro start p hp w hw
    rcases List.mem_cons.mp hp with rfl | hp
    · simp only [keptPMap, hw]
      exact ⟨start, List.mem_cons_self _ _⟩
    · cases hm : dictGet smap p0.story_id with
      | none =>
        simp only [keptPMap, hm]
        exact ih start p hp w hw
      | some n0 =>
        simp only [keptPMap, hm]
        obtain ⟨u, hu⟩ := ih (start + 1) p hp w hw
        exact ⟨u, List.mem_cons_of_mem _ hu⟩

theorem keptVideos_map_urls (pmap : List (Nat × Nat)) (ids : List Nat)
    (vs : List DocVideo)
    (h : ∀ v ∈ vs, ¬ v.url = "" ∧
      (((∃ w, dictGet pmap v.part_id = some w ∧ ¬ w = 0)) ↔ v.part_id ∈ ids)) :
    ∀ start : Nat,
      (keptVideos pmap start vs).map (fun q => q.url) =
        (vs.filter (fun v => v.part_id ∈ ids)).map (fun v => v.url) := by
  induction vs with
  | nil => intro start; simp [keptVideos]
  | cons v0 rest ih =>
    intro start
    have h0 := h v0 (List.mem_cons_self v0 rest)
    have hrest : ∀ v ∈ rest, ¬ v.url = "" ∧
        (((∃ w, dictGet pmap v.part_id = some w ∧ ¬ w = 0)) ↔ v.part_id ∈ ids) :=
      fun v hv => h v (List.mem_cons_of_mem v0 hv)
    cases hm : dictGet pmap v0.part_id with
    | none =>
      have hnm : ¬ v0.part_id ∈ ids := by
        intro hmem
        obtain ⟨w, hw, _⟩ := h0.2.mpr hmem
        rw [hm] at hw
        cases hw
      simp only [keptVideos, hm, List.filter_cons]
      rw [if_neg (by simpa using hnm)]
      exact ih hrest start
    | some w =>
      by_cases hz : w = 0
      · have hnm : ¬ v0.part_id ∈ ids := by
          intro hmem
          obtain ⟨w2, hw2, hz2⟩ := h0.2.mpr hmem
          rw [hm] at hw2
          injection hw2 with hw2
          rw [← hw2] at hz2
          exact hz2 hz
        simp only [keptVideos, hm, if_pos hz, List.filter_cons]
        rw [if_neg (by simpa using hnm)]
        exact ih hrest start
      · have hmm : v0.part_id ∈ ids := h0.2.mp ⟨w, hm, hz⟩
        simp only [keptVideos, hm, if_neg hz, if_neg h0.1, List.filter_cons]
        rw [if_pos (by simpa using hmm)]
        simp only [List.map_cons]
        rw [ih hrest (start + 1)]

theorem keptVideos_part_ids (pmap : List (Nat × Nat)) (vs : List DocVideo) :
    ∀ start : Nat, ∀ q ∈ keptVideos pmap start vs,
      ∃ v ∈ vs, dictGet pmap v.part_id = some q.part_id ∧ ¬ q.part_id = 0 := by
  induction vs with
  | nil => intro start q hq; simp [keptVideos] at hq
  | cons v0 rest ih =>
    intro start q hq
    cases hm : dictGet pmap v0.part_id with
    | none =>
      simp only [keptVideos, hm] at hq
      obtain ⟨v, hv, hvs⟩ := ih start q hq
      exact ⟨v, List.mem_cons_of_mem v0 hv, hvs⟩
    | some n0 =>
      by_cases hz : n0 = 0
      · simp only [keptVideos, hm, if_pos hz] at hq
        obtain ⟨v, hv, hvs⟩ := ih start q hq
        exact ⟨v, List.mem_cons_of_mem v0 hv, hvs⟩
      · by_cases hu : v0.url = ""
        · simp only [keptVideos, hm, if_neg hz, if_pos hu] at hq
          obtain ⟨v, hv, hvs⟩ := ih start q hq
          exact ⟨v, List.mem_cons_of_mem v0 hv, hvs⟩
        · simp only [keptVideos, hm, if_neg hz, if_neg hu] at hq
          rcases List.mem_cons.mp hq with rfl | hq
          · exact ⟨v0, List.mem_cons_self v0 rest, hm, hz⟩
          · obtain ⟨v, hv, hvs⟩ := ih (start + 1) q hq
            exact ⟨v, List.mem_cons_of_mem v0 hv, hvs⟩

/-- C6.  The triple returned by `perform_import` satisfies
`imported + skipped = N` and `overwritten ≤ imported`: `skipped` is exactly
the number of incoming stories whose decision is `skip`, every other story
increments `imported`, and `overwritten` grows by at most one per imported
story (only when an `overwrite` decision finds a stored story with a
matching title to delete). -/
theorem perform_import_count_arithmetic (env : Env) (doc : Document)
    (dec : Nat → Option String) (db : DB) :
    (perform_import env doc dec db).imported + (perform_import env doc dec db).skipped =
        doc.stories.length ∧
      (perform_import env doc dec db).skipped = countSkips dec doc.stories ∧
      (perform_import env doc dec db).overwritten ≤
        (perform_import env doc dec db).imported := by
  have h := importStories_counts env dec (importCategories db doc.categories).2
    doc.stories (importCategories db doc.categories).1
  simp only [perform_import]
  exact ⟨h.2.1, h.1, h.2.2⟩

theorem natSeq_length (k : Nat) : (natSeq k).length = k := by
  unfold natSeq
  rw [List.length_map, List.length_range']

theorem natSeq_concat (k : Nat) :
    natSeq (k + 1) = natSeq k ++ [((k + 1 : Nat) : Int)] := by
  unfold natSeq
  have h := @List.range'_concat 1 1 k
  simp only [one_mul] at h
  rw [h, List.map_append]
  simp only [List.map_cons, List.map_nil]
  have h2 : 1 + k = k + 1 := Nat.add_comm 1 k
  rw [h2]
  rfl

theorem natSeq_mem (k : Nat) (x : Int) (hx : x ∈ natSeq k) :
    ∃ j : Nat, 1 ≤ j ∧ j ≤ k ∧ x = (j : Int) := by
  simp only [natSeq, List.mem_map] at hx
  obtain ⟨j, hj, rfl⟩ := hx
  have := List.mem_range'_1.mp hj
  exact ⟨j, this.1, by omega, rfl⟩

theorem natSeq_mem_self (k : Nat) (hk : 1 ≤ k) : ((k : Nat) : Int) ∈ natSeq k := by
  simp only [natSeq, List.mem_map]
  exact ⟨k, List.mem_range'_1.mpr ⟨hk, by omega⟩, rfl⟩

theorem numbersOf_append (xs ys : List DPart) (sid : Nat) :
    numbersOf (xs ++ ys) sid = numbersOf xs sid ++ numbersOf ys sid := by
  simp [numbersOf, List.filter_append]

theorem numbersOf_single (e : DPart) (sid : Nat) :
    numbersOf [e] sid = if e.story_id = sid then [e.part_number] else [] := by
  by_cases h : e.story_id = sid
  · simp [numbersOf, h]
  · simp [numbersOf, h]

theorem numbersOf_nil_of (parts : List DPart) (sid : Nat)
    (h : ∀ p ∈ parts, ¬ p.story_id = sid) : numbersOf parts sid = [] := by
  simp only [numbersOf]
  rw [List.filter_eq_nil_iff.mpr (by intro p hp; simpa using h p hp)]
  rfl

theorem map_eq_concat {α β : Type} (f : α → β) :
    ∀ (l : List α) (ys : List β) (y : β), l.map f = ys ++ [y] →
      ∃ l0 e, l = l0 ++ [e] ∧ l0.map f = ys ∧ f e = y := by
  intro l
  induction l with
  | nil => intro ys y h; simp at h
  | cons a l ih =>
    intro ys y h
    cases ys with
    | nil =>
      simp only [List.map_cons, List.nil_append] at h
      injection h with h1 h2
      cases l with
      | nil => exact ⟨[], a, rfl, rfl, h1⟩
      | cons b l2 => simp at h2
    | cons b ys2 =>
      simp only [List.map_cons, List.cons_append] at h
      injection h with h1 h2
      obtain ⟨l0, e, rfl, hm, hf⟩ := ih ys2 y h2
      exact ⟨a :: l0, e, rfl, by simp [h1, hm], hf⟩

theorem maxFold_char (l : List DPart) : ∀ acc : Option DPart,
    (maxFold acc l = none → acc = none ∧ l = []) ∧
    (∀ lp, maxFold acc l = some lp →
      (lp ∈ l ∨ acc = some lp) ∧ (∀ q ∈ l, q.part_number ≤ lp.part_number) ∧
        (∀ q, acc = some q → q.part_number ≤ lp.part_number)) := by
  induction l with
  | nil =>
    intro acc
    constructor
    · intro h
      exact ⟨h, rfl⟩
    · intro lp h
      simp only [maxFold, List.foldl_nil] at h
      refine ⟨Or.inr h, by simp, ?_⟩
      intro q hq
      rw [hq] at h
      injection h with h
      rw [h]
  | cons p l ih =>
    intro acc
    have hstep : ∀ acc2 : Option DPart, maxFold acc2 (p :: l) =
        maxFold (match acc2 with
          | none => some p
          | some q => if q.part_number < p.part_number then some p else acc2) l := by
      intro acc2
      simp only [maxFold, List.foldl_cons]
    constructor
    · intro h
      rw [hstep] at h
      have hf := (ih _).1 h
      cases acc with
      | none => simp at hf
      | some q0 =>
        by_cases hlt : q0.part_number < p.part_number
        · simp only [if_pos hlt] at hf
          cases hf.1
        · simp only [if_neg hlt] at hf
          cases hf.1
    · intro lp h
      rw [hstep] at h
      obtain ⟨hmem, hall, hacc⟩ := (ih _).2 lp h
      cases acc with
      | none =>
        refine ⟨?_, ?_, ?_⟩
        · rcases hmem with hl | he
          · exact Or.inl (List.mem_cons_of_mem p hl)
          · injection he with he
            exact Or.inl (he ▸ List.mem_cons_self p l)
        · intro q hq
          rcases List.mem_cons.mp hq with rfl | hq
          · exact hacc q rfl
          · exact hall q hq
        · intro q hq
          cases hq
      | some q0 =>
        by_cases hlt : q0.part_number < p.part_number
        · simp only [if_pos hlt] at hmem hacc
          refine ⟨?_, ?_, ?_⟩
          · rcases hmem with hl | he
            · exact Or.inl (List.mem_cons_of_mem p hl)
            · injection he with he
              exact Or.inl (he ▸ List.mem_cons_self p l)
          · intro q hq
            rcases List.mem_cons.mp hq with rfl | hq
            · exact hacc q rfl
            · exact hall q hq
          · intro q hq
            injection hq with hq
            have hple : p.part_number ≤ lp.part_number := hacc p rfl
            rw [← hq]
            omega
        · simp only [if_neg hlt] at hmem hacc
          refine ⟨?_, ?_, ?_⟩
          · rcases hmem with hl | he
            · exact Or.inl (List.mem_cons_of_mem p hl)
            · exact Or.inr he
          · intro q hq
            rcases List.mem_cons.mp hq with rfl | hq
            · have h1 : q0.part_number ≤ lp.part_number := hacc q0 rfl
              omega
            · exact hall q hq
          · intro q hq
            injection hq with hq
            rw [← hq]
            exact hacc q0 rfl

theorem lastPart_eq_maxFold (db : DB) (sid : Nat) :
    lastPart db sid = maxFold none (db.parts.filter (fun p => p.story_id = sid)) := rfl

theorem lastPart_none (db : DB) (sid : Nat) (h : lastPart db sid = none) :
    db.parts.filter (fun p => p.story_id = sid) = [] := by
  rw [lastPart_eq_maxFold] at h
  exact ((maxFold_char _ none).1 h).2

theorem lastPart_some (db : DB) (sid : Nat) (lp : DPart)
    (h : lastPart db sid = some lp) :
    lp ∈ db.parts.filter (fun p => p.story_id = sid) ∧
      ∀ q ∈ db.parts.filter (fun p => p.story_id = sid),
        q.part_number ≤ lp.part_number := by
  rw [lastPart_eq_maxFold] at h
  obtain ⟨hm, hall, _⟩ := (maxFold_char _ none).2 lp h
  rcases hm with hm | hm
  · exact ⟨hm, hall⟩
  · cases hm

theorem addVideosTo_char (pid : Nat) (us : List String) : ∀ db : DB,
    (addVideosTo db pid us).parts = db.parts ∧
    (addVideosTo db pid us).stories = db.stories ∧
    (addVideosTo db pid us).comments = db.comments ∧
    (addVideosTo db pid us).storyCats = db.storyCats ∧
    (addVideosTo db pid us).categories = db.categories ∧
    (addVideosTo db pid us).nextStoryId = db.nextStoryId ∧
    (addVideosTo db pid us).nextPartId = db.nextPartId ∧
    (addVideosTo db pid us).nextCommentId = db.nextCommentId ∧
    (addVideosTo db pid us).nextCategoryId = db.nextCategoryId ∧
    (∀ v ∈ (addVideosTo db pid us).videos, v ∈ db.videos ∨ v.part_id = pid) := by
  induction us with
  | nil =>
    intro db
    simp only [addVideosTo]
    exact ⟨by trivial, by trivial, by trivial, by trivial, by trivial, by trivial,
      by trivial, by trivial, by trivial, fun v hv => Or.inl hv⟩
  | cons u rest ih =>
    intro db
    by_cases h : pyStrip u = ""
    · simpa [addVideosTo, h] using ih db
    · simp only [addVideosTo, if_neg h]
      obtain ⟨e1, e2, e3, e4, e5, e6, e7, e8, e9, e10⟩ := ih
        { db with videos := db.videos ++ [{ id := db.nextVideoId, part_id := pid
                                            url := pyStrip u }]
                  nextVideoId := db.nextVideoId + 1 }
      refine ⟨e1, e2, e3, e4, e5, e6, e7, e8, e9, ?_⟩
      intro v hv
      rcases e10 v hv with hv | hv
      · simp only at hv
        rcases List.mem_append.mp hv with hv | hv
        · exact Or.inl hv
        · rcases List.mem_singleton.mp hv with rfl
          exact Or.inr rfl
      · exact Or.inr hv

theorem chapter_clause_of (xs : List Int) (m : Nat) (h : xs = natSeq m) :
    xs = natSeq xs.length := by
  rw [h, natSeq_length]

theorem filter_swap {α : Type} (l : List α) (p q : α → Bool) :
    (l.filter p).filter q = (l.filter q).filter p := by
  rw [List.filter_filter, List.filter_filter]
  exact List.filter_congr (fun a _ => Bool.and_comm (q a) (p a))

theorem addVideos_inv (db2 : DB) (pid : Nat) (us : List String)
    (hwf : idsWF db2) (hinv : chapterInv db2) (hpid : pid < db2.nextPartId) :
    idsWF (addVideosTo db2 pid us) ∧ chapterInv (addVideosTo db2 pid us) := by
  obtain ⟨e1, e2, e3, e4, e5, e6, e7, e8, e9, e10⟩ := addVideosTo_char pid us db2
  obtain ⟨A, B, C, D, E, F, G⟩ := hwf
  constructor
  · refine ⟨?_, ?_, ?_, ?_, ?_, ?_, ?_⟩
    · rw [e2, e6]; exact A
    · rw [e2]; exact B
    · rw [e1, e6, e7]; exact C
    · rw [e1]; exact D
    · rw [e3, e6]; exact E
    · rw [e7]
      intro v hv
      rcases e10 v hv with h | h
      · exact F v h
      · rw [h]; exact hpid
    · rw [e6, e7]; exact G
  · intro s hs
    rw [e2] at hs
    have h := hinv s hs
    simp only [partNumbersOf] at h ⊢
    rw [e1]
    exact h

theorem uploadNewStory_inv (env : Env) (db : DB) (t a ty : String) (comp : Bool)
    (cids : List Nat) (content : String) (vids : List String)
    (hwf : idsWF db) (hinv : chapterInv db) :
    idsWF (uploadNewStory env db t a ty comp cids content vids) ∧
      chapterInv (uploadNewStory env db t a ty comp cids content vids) := by
  simp only [uploadNewStory]
  by_cases h : pyStrip t = "" ∨ pyStrip content = ""
  · rw [if_pos h]
    exact ⟨hwf, hinv⟩
  · rw [if_neg h]
    obtain ⟨A, B, C, D, E, F, G⟩ := hwf
    apply addVideos_inv
    · refine ⟨?_, ?_, ?_, ?_, ?_, ?_, ?_⟩
      · intro s hs
        simp only at hs ⊢
        rcases List.mem_append.mp hs with hs | hs
        · have := A s hs
          omega
        · rcases List.mem_singleton.mp hs with rfl
          simp only
          omega
      · simp only [List.map_append, List.map_cons, List.map_nil]
        rw [List.nodup_append]
        refine ⟨B, by simp, ?_⟩
        intro x hx hy
        simp only [List.mem_map] at hx
        obtain ⟨s, hs, rfl⟩ := hx
        simp only [List.mem_singleton] at hy
        have := A s hs
        omega
      · intro p hp
        simp only at hp ⊢
        rcases List.mem_append.mp hp with hp | hp
        · have := C p hp
          omega
        · rcases List.mem_singleton.mp hp with rfl
          simp only
          omega
      · simp only [List.map_append, List.map_cons, List.map_nil]
        rw [List.nodup_append]
        refine ⟨D, by simp, ?_⟩
        intro x hx hy
        simp only [List.mem_map] at hx
        obtain ⟨p, hp, rfl⟩ := hx
        simp only [List.mem_singleton] at hy
        have := (C p hp).1
        omega
      · intro c hc
        simp only at hc ⊢
        have := E c hc
        omega
      · intro v hv
        simp only at hv ⊢
        have := F v hv
        omega
      · simp only
        omega
    · intro s hs
      simp only at hs
      simp only [partNumbersOf, numbersOf_append]
      rcases List.mem_append.mp hs with hs | hs
      · rw [numbersOf_single]
        rw [if_neg (by have := A s hs; simp only; omega)]
        rw [List.append_nil]
        exact hinv s hs
      · rcases List.mem_singleton.mp hs with rfl
        simp only
        rw [numbersOf_single, if_pos rfl]
        rw [numbersOf_nil_of db.parts db.nextStoryId
          (fun p hp => by have := (C p hp).2; omega)]
        rw [List.nil_append]
        apply chapter_clause_of _ 1
        show [(1 : Int)] = natSeq 1
        decide
    · simp only
      omega

theorem uploadAddPart_inv (env : Env) (db : DB) (sid : Nat) (content : String)
    (vids : List String) (hwf : idsWF db) (hinv : chapterInv db) :
    idsWF (uploadAddPart env db sid content vids) ∧
      chapterInv (uploadAddPart env db sid content vids) := by
  simp only [uploadAddPart]
  by_cases hex : db.stories.any (fun s => s.id = sid) = true
  · rw [if_neg (not_not_intro hex)]
    by_cases hc : pyRStrip content = ""
    · rw [if_pos hc]
      exact ⟨hwf, hinv⟩
    · rw [if_neg hc]
      obtain ⟨A, B, C, D, E, F, G⟩ := hwf
      obtain ⟨s0, hs0, hs0id⟩ := List.any_eq_true.mp hex
      simp only [decide_eq_true_eq] at hs0id
      have hsidlt : sid < db.nextStoryId := hs0id ▸ A s0 hs0
      have hnum : numbersOf db.parts sid =
          natSeq (numbersOf db.parts sid).length := by
        have := hinv s0 hs0
        simp only [partNumbersOf, hs0id] at this
        exact this
      -- the next chapter number is one past the stored maximum
      have hkey : ∀ nn : Int,
          (lastPart db sid = none → nn = 1) →
          ((∀ lp, lastPart db sid = some lp → nn = lp.part_number + 1)) →
          numbersOf db.parts sid ++ [nn] =
            natSeq ((numbersOf db.parts sid).length + 1) := by
        intro nn hn hs
        cases hlp : lastPart db sid with
        | none =>
          have hfil := lastPart_none db sid hlp
          have hempty : numbersOf db.parts sid = [] := by
            simp only [numbersOf, hfil, List.map_nil]
          rw [hempty, hn hlp]
          simp only [List.length_nil, List.nil_append]
          decide
        | some lp =>
          set k := (numbersOf db.parts sid).length with hk
          have hlpmem := (lastPart_some db sid lp hlp).1
          have hmax := (lastPart_some db sid lp hlp).2
          have hk1 : 1 ≤ k := by
            rcases Nat.eq_zero_or_pos k with h0 | h0
            · rw [h0] at hnum
              have : numbersOf db.parts sid = [] := by
                rw [hnum]; rfl
              simp only [numbersOf] at this
              rw [List.map_eq_nil] at this
              rw [this] at hlpmem
              simp at hlpmem
            · exact h0
          have hlpk : lp.part_number = (k : Int) := by
            have hmem2 : lp.part_number ∈ natSeq k := by
              rw [← hnum]
              simp only [numbersOf]
              exact List.mem_map.mpr ⟨lp, hlpmem, rfl⟩
            obtain ⟨j, hj1, hjk, hjeq⟩ := natSeq_mem k lp.part_number hmem2
            have hkmem : ((k : Nat) : Int) ∈ numbersOf db.parts sid := by
              rw [hnum]
              exact natSeq_mem_self k hk1
            simp only [numbersOf, List.mem_map] at hkmem
            obtain ⟨q, hq, hqk⟩ := hkmem
            have hle := hmax q hq
            rw [hqk] at hle
            rw [hjeq] at hle ⊢
            omega
          rw [hs lp hlp, hlpk, hnum, natSeq_concat k]
          norm_cast
      apply addVideos_inv
      · refine ⟨A, B, ?_, ?_, ?_, ?_, ?_⟩
        · intro p hp
          simp only at hp ⊢
          rcases List.mem_append.mp hp with hp | hp
          · have := C p hp
            omega
          · rcases List.mem_singleton.mp hp with rfl
            simp only
            omega
        · simp only [List.map_append, List.map_cons, List.map_nil]
          rw [List.nodup_append]
          refine ⟨D, by simp, ?_⟩
          intro x hx hy
          simp only [List.mem_map] at hx
          obtain ⟨p, hp, rfl⟩ := hx
          simp only [List.mem_singleton] at hy
          have := (C p hp).1
          omega
        · intro c hc
          exact E c hc
        · intro v hv
          simp only at hv ⊢
          have := F v hv
          omega
        · simp only
          omega
      · intro s hs
        simp only at hs
        simp only [partNumbersOf, numbersOf_append]
        by_cases hsid : s.id = sid
        · rw [hsid]
          rw [numbersOf_single, if_pos rfl]
          apply chapter_clause_of _ ((numbersOf db.parts sid).length + 1)
          apply hkey
          · intro hlp
            simp only [hlp]
          · intro lp hlp
            simp only [hlp]
        · rw [numbersOf_single]
          rw [if_neg (by simp only; omega)]
          rw [List.append_nil]
          have := hinv s hs
          simp only [partNumbersOf] at this
          exact this
      · simp only
        omega
  · rw [if_pos (by simpa using hex)]
    exact ⟨hwf, hinv⟩

theorem uploadDeleteLast_inv (db : DB) (sid : Nat)
    (hwf : idsWF db) (hinv : chapterInv db) :
    idsWF (uploadDeleteLast db sid) ∧ chapterInv (uploadDeleteLast db sid) := by
  simp only [uploadDeleteLast]
  by_cases hex : db.stories.any (fun s => s.id = sid) = true
  · rw [if_neg (not_not_intro hex)]
    obtain ⟨A, B, C, D, E, F, G⟩ := hwf
    cases hlp : lastPart db sid with
    | none => exact ⟨⟨A, B, C, D, E, F, G⟩, hinv⟩
    | some lp =>
      simp only
      have hlpmem0 := (lastPart_some db sid lp hlp).1
      have hmax := (lastPart_some db sid lp hlp).2
      have hlpmem : lp ∈ db.parts := List.mem_of_mem_filter hlpmem0
      have hlpsid : lp.story_id = sid := by
        have := List.of_mem_filter hlpmem0
        simpa using this
      constructor
      · refine ⟨A, B, ?_, ?_, E, ?_, G⟩
        · intro p hp
          simp only at hp
          exact C p (List.mem_of_mem_filter hp)
        · simp only
          exact ((List.filter_sublist _).map _).nodup D
        · intro v hv
          simp only at hv
          exact F v (List.mem_of_mem_filter hv)
      · intro s hs
        simp only at hs ⊢
        simp only [partNumbersOf, numbersOf]
        rw [filter_swap]
        by_cases hsid : s.id = sid
        · -- the target story loses exactly its maximal chapter
          rw [hsid]
          have hnum : (db.parts.filter (fun p => p.story_id = sid)).map
              (fun p => p.part_number) = natSeq ((db.parts.filter
                (fun p => p.story_id = sid)).length) := by
            have h0 := hinv s hs
            simp only [partNumbersOf, numbersOf, hsid] at h0
            rw [List.length_map] at h0
            exact h0
          set l := db.parts.filter (fun p => p.story_id = sid) with hl
          set k := l.length with hk
          have hk1 : 1 ≤ k := by
            rcases Nat.eq_zero_or_pos k with h0 | h0
            · have : l = [] := List.length_eq_zero.mp (by omega)
              rw [this] at hlpmem0
              simp at hlpmem0
            · exact h0
          have hlpk : lp.part_number = (k : Int) := by
            have hmem2 : lp.part_number ∈ natSeq k := by
              rw [← hnum]
              exact List.mem_map.mpr ⟨lp, hlpmem0, rfl⟩
            obtain ⟨j, hj1, hjk, hjeq⟩ := natSeq_mem k lp.part_number hmem2
            have hkmem : ((k : Nat) : Int) ∈ l.map (fun p => p.part_number) := by
              rw [hnum]
              exact natSeq_mem_self k hk1
            simp only [List.mem_map] at hkmem
            obtain ⟨q, hq, hqk⟩ := hkmem
            have hle := hmax q hq
            rw [hqk] at hle
            rw [hjeq] at hle ⊢
            omega
          have hdecomp : l.map (fun p => p.part_number) =
              natSeq (k - 1) ++ [((k : Nat) : Int)] := by
            obtain ⟨m, hm⟩ : ∃ m, k = m + 1 := ⟨k - 1, by omega⟩
            rw [hnum, hm]
            simp only [Nat.add_sub_cancel]
            exact natSeq_concat m
          obtain ⟨l0, e, hle, hl0, hek⟩ := map_eq_concat _ l _ _ hdecomp
          have help : e = lp := by
            have hemem : e ∈ l := by
              rw [hle]
              exact List.mem_append.mpr (Or.inr (List.mem_singleton.mpr rfl))
            by_contra hne
            rcases List.mem_append.mp (hle ▸ hlpmem0) with hin | hin
            · have : lp.part_number ∈ natSeq (k - 1) := by
                rw [← hl0]
                exact List.mem_map.mpr ⟨lp, hin, rfl⟩
              obtain ⟨j, hj1, hjk, hjeq⟩ := natSeq_mem _ _ this
              rw [hlpk] at hjeq
              have : k ≤ k - 1 := by omega
              omega
            · exact hne (List.mem_singleton.mp hin).symm
          have hl0keep : l0.filter (fun p => ¬ p.id = lp.id) = l0 := by
            apply List.filter_eq_self.mpr
            intro q hq
            simp only [decide_eq_true_eq, decide_not, Bool.not_eq_true',
              decide_eq_false_iff_not]
            intro hqid
            have hql : q ∈ l := by
              rw [hle]
              exact List.mem_append.mpr (Or.inl hq)
            have hqparts : q ∈ db.parts := List.mem_of_mem_filter hql
            have hqlp : q = lp := List.inj_on_of_nodup_map D hqparts hlpmem hqid
            have hmemk : lp.part_number ∈ natSeq (k - 1) := by
              rw [← hl0]
              exact List.mem_map.mpr ⟨q, hq, by rw [hqlp]⟩
            obtain ⟨j, hj1, hjk, hjeq⟩ := natSeq_mem _ _ hmemk
            rw [hlpk] at hjeq
            omega
          rw [hle, List.filter_append]
          have hefil : [e].filter (fun p => ¬ p.id = lp.id) = [] := by
            rw [help]
            simp
          rw [hefil, hl0keep, List.append_nil]
          apply chapter_clause_of _ (k - 1)
          exact hl0
        · -- other stories keep all their chapters
          have hkeep : (db.parts.filter (fun p => p.story_id = s.id)).filter
              (fun p => ¬ p.id = lp.id) =
                db.parts.filter (fun p => p.story_id = s.id) := by
            apply List.filter_eq_self.mpr
            intro q hq
            simp only [decide_eq_true_eq, decide_not, Bool.not_eq_true',
              decide_eq_false_iff_not]
            intro hqid
            have hqparts : q ∈ db.parts := List.mem_of_mem_filter hq
            have : q = lp := List.inj_on_of_nodup_map D hqparts hlpmem hqid
            have hqsid : q.story_id = s.id := by
              have := List.of_mem_filter hq
              simpa using this
            rw [this, hlpsid] at hqsid
            exact hsid hqsid.symm
          rw [hkeep]
          have := hinv s hs
          simp only [partNumbersOf, numbersOf] at this
          exact this
  · rw [if_pos (by simpa using hex)]
    exact ⟨hwf, hinv⟩

theorem importStories_parts_sublist (env : Env) (dec : Nat → Option String)
    (catMap : List (Nat × Nat)) (sts : List DocStory) : ∀ db : DB,
    List.Sublist (importStories env dec catMap db sts).db.parts db.parts := by
  induction sts with
  | nil => intro db; exact List.Sublist.refl _
  | cons st rest ih =>
    intro db
    by_cases h : dec st.id = some "skip"
    · simp only [importStories, if_pos h]
      exact ih db
    · simp only [importStories, if_neg h]
      have h1 := ih (createStory env catMap (overwriteStep dec db st).1 st).1
      have hcp : (createStory env catMap (overwriteStep dec db st).1 st).1.parts =
          (overwriteStep dec db st).1.parts := rfl
      rw [hcp] at h1
      have h2 : List.Sublist (overwriteStep dec db st).1.parts db.parts := by
        unfold overwriteStep
        split
        · split
          · simp only [deleteStoryCascade]
            exact List.filter_sublist _
          · exact List.Sublist.refl _
        · exact List.Sublist.refl _
      exact h1.trans h2

theorem importStories_wf (env : Env) (dec : Nat → Option String)
    (catMap : List (Nat × Nat)) (sts : List DocStory) : ∀ db : DB,
    (∀ x ∈ db.stories, x.id < db.nextStoryId) →
    (db.stories.map (fun x => x.id)).Nodup →
    (∀ x ∈ (importStories env dec catMap db sts).db.stories,
        x.id < (importStories env dec catMap db sts).db.nextStoryId) ∧
      ((importStories env dec catMap db sts).db.stories.map
        (fun x => x.id)).Nodup := by
  induction sts with
  | nil => intro db hb hn; exact ⟨hb, hn⟩
  | cons st rest ih =>
    intro db hb hn
    by_cases h : dec st.id = some "skip"
    · simp only [importStories, if_pos h]
      exact ih db hb hn
    · simp only [importStories, if_neg h]
      obtain ⟨w1, w2⟩ := owc_wf env dec catMap st db hb hn
      exact ih _ w1 w2

theorem importStories_smap_bounds (env : Env) (dec : Nat → Option String)
    (catMap : List (Nat × Nat)) (sts : List DocStory) : ∀ db : DB,
    (∀ kv ∈ (importStories env dec catMap db sts).smap,
        db.nextStoryId ≤ kv.2 ∧
          kv.2 < (importStories env dec catMap db sts).db.nextStoryId) ∧
      (((importStories env dec catMap db sts).smap.map
        (fun kv => kv.2)).Nodup) := by
  induction sts with
  | nil =>
    intro db
    constructor
    · intro kv hkv
      simp [importStories] at hkv
    · simp [importStories]
  | cons st rest ih =>
    intro db
    by_cases h : dec st.id = some "skip"
    · simp only [importStories, if_pos h]
      exact ih db
    · simp only [importStories, if_neg h]
      obtain ⟨i1, i2⟩ := ih (createStory env catMap (overwriteStep dec db st).1 st).1
      have hns : (overwriteStep dec db st).1.nextStoryId = db.nextStoryId :=
        (overwriteStep_char dec db st).2.2.2.2.2.2.2.1
      have hdb2n : (createStory env catMap (overwriteStep dec db st).1 st).1.nextStoryId =
          (overwriteStep dec db st).1.nextStoryId + 1 := rfl
      have hval : (createStory env catMap (overwriteStep dec db st).1 st).2 =
          (overwriteStep dec db st).1.nextStoryId := rfl
      have hfr := (importStories_frame env dec catMap rest
        (createStory env catMap (overwriteStep dec db st).1 st).1).2.2.2.2.2.2.2.2
      constructor
      · intro kv hkv
        rcases List.mem_append.mp hkv with hkv | hkv
        · obtain ⟨hlo, hhi⟩ := i1 kv hkv
          rw [hdb2n, hns] at hlo
          exact ⟨by omega, hhi⟩
        · rcases List.mem_singleton.mp hkv with rfl
          simp only [hval, hns]
          rw [hdb2n, hns] at hfr
          exact ⟨Nat.le_refl _, by omega⟩
      · rw [List.map_append, List.nodup_append]
        refine ⟨i2, by simp, ?_⟩
        intro a ha hb2
        simp only [List.mem_map] at ha
        obtain ⟨kv, hkv, rfl⟩ := ha
        have hlo := (i1 kv hkv).1
        rw [hdb2n, hns] at hlo
        simp only [List.map_cons, List.map_nil, List.mem_singleton, hval, hns] at hb2
        omega

theorem dictGet_inj (m : List (Nat × Nat))
    (hval : (m.map (fun kv => kv.2)).Nodup) (x y v : Nat)
    (hx : dictGet m x = some v) (hy : dictGet m y = some v) : x = y := by
  have h1 := dictGet_mem m x v hx
  have h2 := dictGet_mem m y v hy
  have h3 : ((x, v) : Nat × Nat) = (y, v) :=
    List.inj_on_of_nodup_map hval h1 h2 rfl
  exact congrArg Prod.fst h3

theorem importStories_new_ids (env : Env) (dec : Nat → Option String)
    (catMap : List (Nat × Nat)) (sts : List DocStory) : ∀ db : DB,
    (∀ x ∈ db.stories, x.id < db.nextStoryId) →
    (db.stories.map (fun x => x.id)).Nodup →
    ∀ s ∈ (importStories env dec catMap db sts).db.stories, ¬ s ∈ db.stories →
      db.nextStoryId ≤ s.id := by
  induction sts with
  | nil => intro db _ _ s hs hns; exact absurd hs hns
  | cons st rest ih =>
    intro db hb hn s hs hns
    by_cases h : dec st.id = some "skip"
    · simp only [importStories, if_pos h] at hs
      exact ih db hb hn s hs hns
    · simp only [importStories, if_neg h] at hs
      obtain ⟨w1, w2⟩ := owc_wf env dec catMap st db hb hn
      have hns0 : (overwriteStep dec db st).1.nextStoryId = db.nextStoryId :=
        (overwriteStep_char dec db st).2.2.2.2.2.2.2.1
      by_cases h2 : s ∈ (createStory env catMap (overwriteStep dec db st).1 st).1.stories
      · have hcrt : (createStory env catMap (overwriteStep dec db st).1 st).1.stories =
            (overwriteStep dec db st).1.stories ++
              [mkStory env catMap (overwriteStep dec db st).1.nextStoryId st] := rfl
        rw [hcrt] at h2
        rcases List.mem_append.mp h2 with h2 | h2
        · exact absurd ((overwriteStep_char dec db st).2.2.2.1 s h2) hns
        · rcases List.mem_singleton.mp h2 with rfl
          have he : (mkStory env catMap (overwriteStep dec db st).1.nextStoryId st).id =
              (overwriteStep dec db st).1.nextStoryId := rfl
          rw [he, hns0]
      · have hge := ih _ w1 w2 s hs h2
        have hcns : (createStory env catMap (overwriteStep dec db st).1 st).1.nextStoryId =
            (overwriteStep dec db st).1.nextStoryId + 1 := rfl
        rw [hcns, hns0] at hge
        omega

theorem importStories_new_link (env : Env) (dec : Nat → Option String)
    (catMap : List (Nat × Nat)) (sts : List DocStory) : ∀ db : DB,
    (∀ x ∈ db.stories, x.id < db.nextStoryId) →
    (db.stories.map (fun x => x.id)).Nodup →
    (sts.map (fun st => st.id)).Nodup →
    ∀ s ∈ (importStories env dec catMap db sts).db.stories, ¬ s ∈ db.stories →
      ∃ st ∈ sts, ¬ dec st.id = some "skip" ∧
        dictGet (importStories env dec catMap db sts).smap st.id = some s.id := by
  induction sts with
  | nil => intro db _ _ _ s hs hns; exact absurd hs hns
  | cons st rest ih =>
    intro db hb hn hdn s hs hns
    have hdn2 : (rest.map (fun x => x.id)).Nodup := (List.nodup_cons.mp hdn).2
    have hstni : ¬ st.id ∈ rest.map (fun x => x.id) := (List.nodup_cons.mp hdn).1
    by_cases h : dec st.id = some "skip"
    · simp only [importStories, if_pos h] at hs ⊢
      obtain ⟨st1, hm, hd, hg⟩ := ih db hb hn hdn2 s hs hns
      exact ⟨st1, List.mem_cons_of_mem st hm, hd, hg⟩
    · simp only [importStories, if_neg h] at hs ⊢
      obtain ⟨w1, w2⟩ := owc_wf env dec catMap st db hb hn
      by_cases h2 : s ∈ (createStory env catMap (overwriteStep dec db st).1 st).1.stories
      · have hcrt : (createStory env catMap (overwriteStep dec db st).1 st).1.stories =
            (overwriteStep dec db st).1.stories ++
              [mkStory env catMap (overwriteStep dec db st).1.nextStoryId st] := rfl
        rw [hcrt] at h2
        rcases List.mem_append.mp h2 with h2 | h2
        · exact absurd ((overwriteStep_char dec db st).2.2.2.1 s h2) hns
        · rcases List.mem_singleton.mp h2 with rfl
          refine ⟨st, List.mem_cons_self st rest, h, ?_⟩
          rw [dictGet_append]
          have hnone : dictGet (importStories env dec catMap
              (createStory env catMap (overwriteStep dec db st).1 st).1
                rest).smap st.id = none := by
            cases hg : dictGet (importStories env dec catMap
                (createStory env catMap (overwriteStep dec db st).1 st).1
                  rest).smap st.id with
            | none => rfl
            | some v =>
              have hmem := dictGet_mem _ _ _ hg
              obtain ⟨⟨st1, hst1, he, _⟩, _⟩ :=
                (importStories_smap env dec catMap rest
                  (createStory env catMap (overwriteStep dec db st).1 st).1).1
                  (st.id, v) hmem
              exact absurd (List.mem_map.mpr ⟨st1, hst1, he⟩) hstni
          rw [hnone]
          simp only [Option.orElse]
          rw [dictGet_single, if_pos rfl]
          rfl
      · obtain ⟨st1, hm, hd, hg⟩ := ih _ w1 w2 hdn2 s hs h2
        refine ⟨st1, List.mem_cons_of_mem st hm, hd, ?_⟩
        rw [dictGet_append, hg]
        simp [Option.orElse]

theorem importStories_surviving_parts (env : Env) (dec : Nat → Option String)
    (catMap : List (Nat × Nat)) (sts : List DocStory) : ∀ db : DB,
    (∀ x ∈ db.stories, x.id < db.nextStoryId) →
    (db.stories.map (fun x => x.id)).Nodup →
    ∀ s ∈ (importStories env dec catMap db sts).db.stories, s ∈ db.stories →
      (importStories env dec catMap db sts).db.parts.filter
          (fun p => p.story_id = s.id) =
        db.parts.filter (fun p => p.story_id = s.id) := by
  induction sts with
  | nil => intro db _ _ s _ _; rfl
  | cons st rest ih =>
    intro db hb hn s hs hmem
    by_cases h : dec st.id = some "skip"
    · simp only [importStories, if_pos h] at hs ⊢
      exact ih db hb hn s hs hmem
    · simp only [importStories, if_neg h] at hs ⊢
      obtain ⟨w1, w2⟩ := owc_wf env dec catMap st db hb hn
      have hns0 : (overwriteStep dec db st).1.nextStoryId = db.nextStoryId :=
        (overwriteStep_char dec db st).2.2.2.2.2.2.2.1
      have hmem2 : s ∈ (createStory env catMap (overwriteStep dec db st).1 st).1.stories := by
        by_contra hno
        have hge := importStories_new_ids env dec catMap rest _ w1 w2 s hs hno
        have hcns : (createStory env catMap
            (overwriteStep dec db st).1 st).1.nextStoryId =
              (overwriteStep dec db st).1.nextStoryId + 1 := rfl
        rw [hcns, hns0] at hge
        have := hb s hmem
        omega
      have ihres := ih _ w1 w2 s hs hmem2
      rw [ihres]
      have hcp : (createStory env catMap (overwriteStep dec db st).1 st).1.parts =
          (overwriteStep dec db st).1.parts := rfl
      rw [hcp]
      -- when the overwrite branch deletes a story, it is not `s`
      have hneq : ∀ ex, dec st.id = some "overwrite" →
          db.stories.find? (fun x => pyLower x.title =
            pyLower (pyStrip st.title)) = some ex → ¬ s.id = ex.id := by
        intro ex how hf
        have hsteq : (overwriteStep dec db st).1 = deleteStoryCascade db ex.id := by
          unfold overwriteStep
          rw [if_pos how, hf]
        rw [hsteq] at hmem2
        have hmem3 : s ∈ (createStory env catMap
            (deleteStoryCascade db ex.id) st).1.stories := hmem2
        have hcrt : (createStory env catMap (deleteStoryCascade db ex.id) st).1.stories =
            db.stories.filter (fun x => ¬ x.id = ex.id) ++
              [mkStory env catMap db.nextStoryId st] := rfl
        rw [hcrt] at hmem3
        rcases List.mem_append.mp hmem3 with h3 | h3
        · have := List.of_mem_filter h3
          simpa using this
        · rcases List.mem_singleton.mp h3 with h3
          have hid : s.id = db.nextStoryId := by rw [h3]; rfl
          have := hb s hmem
          omega
      unfold overwriteStep
      split
      · rename_i how
        cases hf : db.stories.find?
            (fun x => pyLower x.title = pyLower (pyStrip st.title)) with
        | none => rfl
        | some ex =>
          simp only [deleteStoryCascade]
          rw [filter_swap]
          apply List.filter_eq_self.mpr
          intro q hq
          have hqs : q.story_id = s.id := by
            have := List.of_mem_filter hq
            simpa using this
          simp only [decide_eq_true_eq, decide_not, Bool.not_eq_true',
            decide_eq_false_iff_not]
          rw [hqs]
          intro hcontra
          exact hneq ex how hf hcontra
      · rfl

theorem keptParts_ids_lt (env : Env) (smap : List (Nat × Nat))
    (ps : List DocPart) : ∀ start : Nat, ∀ q ∈ keptParts env smap start ps,
    q.id < start + (keptParts env smap start ps).length := by
  induction ps with
  | nil => intro start q hq; simp [keptParts] at hq
  | cons p rest ih =>
    intro start q hq
    cases hm : dictGet smap p.story_id with
    | none =>
      simp only [keptParts, hm] at hq ⊢
      exact ih start q hq
    | some w =>
      simp only [keptParts, hm, List.length_cons] at hq ⊢
      rcases List.mem_cons.mp hq with rfl | hq
      · simp only
        omega
      · have := ih (start + 1) q hq
        omega

theorem keptParts_ids_nodup (env : Env) (smap : List (Nat × Nat))
    (ps : List DocPart) : ∀ start : Nat,
    ((keptParts env smap start ps).map (fun q => q.id)).Nodup := by
  induction ps with
  | nil => intro start; simp [keptParts]
  | cons p rest ih =>
    intro start
    cases hm : dictGet smap p.story_id with
    | none =>
      simp only [keptParts, hm]
      exact ih start
    | some w =>
      simp only [keptParts, hm, List.map_cons]
      rw [List.nodup_cons]
      refine ⟨?_, ih (start + 1)⟩
      intro hmem
      simp only [List.mem_map] at hmem
      obtain ⟨q, hq, hqe⟩ := hmem
      have := keptParts_ids_ge env smap rest (start + 1) q hq
      omega

theorem keptPMap_values_lt (env : Env) (smap : List (Nat × Nat))
    (ps : List DocPart) : ∀ start : Nat, ∀ kv ∈ keptPMap smap start ps,
    kv.2 < start + (keptParts env smap start ps).length := by
  induction ps with
  | nil => intro start kv hkv; simp [keptPMap] at hkv
  | cons p rest ih =>
    intro start kv hkv
    cases hm : dictGet smap p.story_id with
    | none =>
      simp only [keptPMap, keptParts, hm] at hkv ⊢
      exact ih start kv hkv
    | some w =>
      simp only [keptPMap, keptParts, hm, List.length_cons] at hkv ⊢
      rcases List.mem_cons.mp hkv with rfl | hkv
      · simp only
        omega
      · have := ih (start + 1) kv hkv
        omega

theorem keptParts_filter_map (env : Env) (smap : List (Nat × Nat)) (tid v : Nat)
    (hv : dictGet smap tid = some v)
    (hinj : ∀ x w, dictGet smap x = some w → w = v → x = tid)
    (ps : List DocPart) : ∀ start : Nat,
    ((keptParts env smap start ps).filter (fun q => q.story_id = v)).map
        (fun q => q.part_number) =
      (ps.filter (fun p => p.story_id = tid)).map (fun p => p.part_number) := by
  induction ps with
  | nil => intro start; simp [keptParts]
  | cons p rest ih =>
    intro start
    cases hm : dictGet smap p.story_id with
    | none =>
      have hnp : ¬ p.story_id = tid := by
        intro he
        rw [he, hv] at hm
        cases hm
      simp only [keptParts, hm, List.filter_cons]
      rw [if_neg (by simpa using hnp)]
      exact ih start
    | some w =>
      by_cases hw : w = v
      · have hp : p.story_id = tid := hinj p.story_id w hm hw
        simp only [keptParts, hm, List.filter_cons]
        rw [if_pos (by simpa using hw), if_pos (by simpa using hp)]
        simp only [List.map_cons]
        rw [ih (start + 1)]
      · have hnp : ¬ p.story_id = tid := by
          intro he
          rw [he, hv] at hm
          injection hm with hm
          exact hw hm.symm
        simp only [keptParts, hm, List.filter_cons]
        rw [if_neg (by simpa using hw), if_neg (by simpa using hnp)]
        exact ih (start + 1)

theorem import_tail_inv (env : Env) (doc : Document) (R : StoryPhase) (N : Nat)
    (h1 : ∀ p ∈ R.db.parts, p.id < R.db.nextPartId ∧ p.story_id < N)
    (h2 : (R.db.parts.map (fun p => p.id)).Nodup)
    (h3 : ∀ c ∈ R.db.comments, c.story_id < N)
    (h4 : ∀ v ∈ R.db.videos, v.part_id < R.db.nextPartId)
    (h5 : ∀ x ∈ R.db.stories, x.id < R.db.nextStoryId)
    (h6 : (R.db.stories.map (fun x => x.id)).Nodup)
    (h7 : N ≤ R.db.nextStoryId ∧ 1 ≤ N ∧ 1 ≤ R.db.nextPartId)
    (h8 : ∀ kv ∈ R.smap, N ≤ kv.2 ∧ kv.2 < R.db.nextStoryId)
    (h9 : (R.smap.map (fun kv => kv.2)).Nodup)
    (h10 : ∀ s ∈ R.db.stories, s.id < N →
      numbersOf R.db.parts s.id = natSeq (numbersOf R.db.parts s.id).length)
    (h11 : ∀ s ∈ R.db.stories, ¬ s.id < N →
      ∃ st ∈ doc.stories, dictGet R.smap st.id = some s.id)
    (hdocP : ∀ st ∈ doc.stories,
      (doc.parts.filter (fun p => p.story_id = st.id)).map
          (fun p => p.part_number) =
        natSeq ((doc.parts.filter (fun p => p.story_id = st.id)).length)) :
    idsWF (importVideos (importParts env R.smap R.db doc.parts).2
        (importComments env R.smap (importParts env R.smap R.db doc.parts).1
          doc.comments) doc.videos) ∧
      chapterInv (importVideos (importParts env R.smap R.db doc.parts).2
        (importComments env R.smap (importParts env R.smap R.db doc.parts).1
          doc.comments) doc.videos) := by
  obtain ⟨p1, p2, p3, p4, p5, p6, p7, p8, p9, p10, p11, p12⟩ :=
    importParts_eq env R.smap doc.parts R.db
  obtain ⟨c1, c2, c3, c4, c5, c6, c7, c8, c9, c10, c11⟩ :=
    importComments_eq env R.smap doc.comments
      (importParts env R.smap R.db doc.parts).1
  obtain ⟨v1, v2, v3, v4, v5, v6, v7, v8, v9, v10, v11⟩ :=
    importVideos_eq (importParts env R.smap R.db doc.parts).2 doc.videos
      (importComments env R.smap (importParts env R.smap R.db doc.parts).1
        doc.comments)
  rw [p1] at c3
  rw [c3] at v3
  rw [p2] at c2
  rw [c2] at v2
  rw [p3, p8] at c1
  rw [c1] at v4
  rw [p4] at c4
  rw [p9] at c9
  rw [c4, c9] at v1
  rw [p7] at c7
  rw [c7] at v7
  rw [p10] at c8
  rw [c8] at v8
  constructor
  · refine ⟨?_, ?_, ?_, ?_, ?_, ?_, ?_⟩
    · rw [v2, v7]
      exact h5
    · rw [v2]
      exact h6
    · rw [v3, v7, v8]
      intro p hp
      rcases List.mem_append.mp hp with hp | hp
      · obtain ⟨ha, hb⟩ := h1 p hp
        omega
      · constructor
        · exact keptParts_ids_lt env R.smap doc.parts R.db.nextPartId p hp
        · obtain ⟨q, hq, hd, _⟩ := keptParts_src env R.smap doc.parts
            R.db.nextPartId p hp
          have := (h8 _ (dictGet_mem _ _ _ hd)).2
          exact this
    · rw [v3, List.map_append, List.nodup_append]
      refine ⟨h2, keptParts_ids_nodup env R.smap doc.parts R.db.nextPartId, ?_⟩
      intro a ha hb
      simp only [List.mem_map] at ha hb
      obtain ⟨p, hp, rfl⟩ := ha
      obtain ⟨q, hq, hqe⟩ := hb
      have hlt := (h1 p hp).1
      have hge := keptParts_ids_ge env R.smap doc.parts R.db.nextPartId q hq
      omega
    · rw [v4, v7]
      intro c hc
      rcases List.mem_append.mp hc with hc | hc
      · have := h3 c hc
        omega
      · obtain ⟨c0, hc0, hd, _⟩ := keptComments_src env R.smap doc.comments
          R.db.nextCommentId c hc
        exact (h8 _ (dictGet_mem _ _ _ hd)).2
    · rw [v1, v8]
      intro q hq
      rcases List.mem_append.mp hq with hq | hq
      · have := h4 q hq
        omega
      · obtain ⟨v0, hv0, hd, _⟩ := keptVideos_src
          (importParts env R.smap R.db doc.parts).2 doc.videos
          R.db.nextVideoId q hq
        rw [p12] at hd
        have hmem := dictGet_reverse_mem _ _ _ hd
        exact keptPMap_values_lt env R.smap doc.parts R.db.nextPartId
          (v0.part_id, q.part_id) hmem
    · rw [v7, v8]
      omega
  · intro s hs
    rw [v2] at hs
    simp only [partNumbersOf]
    rw [v3, numbersOf_append]
    by_cases hslt : s.id < N
    · have hkeptnil : numbersOf (keptParts env R.smap R.db.nextPartId doc.parts)
          s.id = [] := by
        apply numbersOf_nil_of
        intro q hq
        obtain ⟨p, hp, hd, _⟩ := keptParts_src env R.smap doc.parts
          R.db.nextPartId q hq
        have := (h8 _ (dictGet_mem _ _ _ hd)).1
        omega
      rw [hkeptnil, List.append_nil]
      exact h10 s hs hslt
    · obtain ⟨st, hst, hlink⟩ := h11 s hs hslt
      have holdnil : numbersOf R.db.parts s.id = [] := by
        apply numbersOf_nil_of
        intro p hp
        have := (h1 p hp).2
        omega
      rw [holdnil, List.nil_append]
      apply chapter_clause_of _
        ((doc.parts.filter (fun p => p.story_id = st.id)).length)
      have hinj : ∀ x w, dictGet R.smap x = some w → w = s.id → x = st.id := by
        intro x w hx hw
        rw [hw] at hx
        exact dictGet_inj R.smap h9 x st.id s.id hx hlink
      have hkept := keptParts_filter_map env R.smap st.id s.id hlink hinj
        doc.parts R.db.nextPartId
      show ((keptParts env R.smap R.db.nextPartId doc.parts).filter
          (fun q => q.story_id = s.id)).map (fun q => q.part_number) = _
      rw [hkept]
      exact hdocP st hst

theorem perform_import_inv (env : Env) (doc : Document) (dec : Nat → Option String)
    (db : DB) (hwf : idsWF db) (hinv : chapterInv db) (hdoc : docOrdered doc) :
    idsWF (perform_import env doc dec db).db ∧
      chapterInv (perform_import env doc dec db).db := by
  obtain ⟨A, B, C, D, E, F, G⟩ := hwf
  obtain ⟨hdocN, hdocP⟩ := hdoc
  obtain ⟨k1, k2, k3, k4, k5, k6, k7, k8, k9⟩ :=
    importCategories_state doc.categories db
  have A1 : ∀ x ∈ (importCategories db doc.categories).1.stories,
      x.id < (importCategories db doc.categories).1.nextStoryId := by
    rw [k1, k6]
    exact A
  have B1 : ((importCategories db doc.categories).1.stories.map
      (fun x => x.id)).Nodup := by
    rw [k1]
    exact B
  obtain ⟨f1, f2, f3, f4, f5, f6, f7, f8, f9⟩ := importStories_frame env dec
    (importCategories db doc.categories).2 doc.stories
    (importCategories db doc.categories).1
  obtain ⟨W1, W2⟩ := importStories_wf env dec
    (importCategories db doc.categories).2 doc.stories
    (importCategories db doc.categories).1 A1 B1
  obtain ⟨SB, SV⟩ := importStories_smap_bounds env dec
    (importCategories db doc.categories).2 doc.stories
    (importCategories db doc.categories).1
  have PS := importStories_parts_sublist env dec
    (importCategories db doc.categories).2 doc.stories
    (importCategories db doc.categories).1
  have SRV := importStories_surviving_parts env dec
    (importCategories db doc.categories).2 doc.stories
    (importCategories db doc.categories).1 A1 B1
  have NI := importStories_new_ids env dec
    (importCategories db doc.categories).2 doc.stories
    (importCategories db doc.categories).1 A1 B1
  have NL := importStories_new_link env dec
    (importCategories db doc.categories).2 doc.stories
    (importCategories db doc.categories).1 A1 B1 hdocN
  have hPI : (perform_import env doc dec db).db =
      importVideos (importParts env (importStories env dec
          (importCategories db doc.categories).2
          (importCategories db doc.categories).1 doc.stories).smap
        (importStories env dec (importCategories db doc.categories).2
          (importCategories db doc.categories).1 doc.stories).db doc.parts).2
        (importComments env (importStories env dec
            (importCategories db doc.categories).2
            (importCategories db doc.categories).1 doc.stories).smap
          (importParts env (importStories env dec
              (importCategories db doc.categories).2
              (importCategories db doc.categories).1 doc.stories).smap
            (importStories env dec (importCategories db doc.categories).2
              (importCategories db doc.categories).1 doc.stories).db
            doc.parts).1 doc.comments) doc.videos := rfl
  rw [hPI]
  refine import_tail_inv env doc
    (importStories env dec (importCategories db doc.categories).2
      (importCategories db doc.categories).1 doc.stories)
    (importCategories db doc.categories).1.nextStoryId
    ?_ ?_ ?_ ?_ ?_ ?_ ?_ ?_ ?_ ?_ ?_ ?_
  · intro p hp
    have hp1 := f1 p hp
    rw [k2] at hp1
    constructor
    · rw [f6, k7]
      exact (C p hp1).1
    · rw [k6]
      exact (C p hp1).2
  · refine (PS.map (fun p => p.id)).nodup ?_
    rw [k2]
    exact D
  · intro c hc
    have hc1 := f2 c hc
    rw [k3] at hc1
    rw [k6]
    exact E c hc1
  · intro v hv
    have hv1 := f3 v hv
    rw [k4] at hv1
    rw [f6, k7]
    exact F v hv1
  · exact W1
  · exact W2
  · refine ⟨f9, ?_, ?_⟩
    · rw [k6]
      exact G.1
    · rw [f6, k7]
      exact G.2
  · exact SB
  · exact SV
  · intro s hs hslt
    have hmem : s ∈ (importCategories db doc.categories).1.stories := by
      by_contra hno
      have := NI s hs hno
      omega
    have hfil := SRV s hs hmem
    have heq : numbersOf (importStories env dec
        (importCategories db doc.categories).2
        (importCategories db doc.categories).1 doc.stories).db.parts s.id =
          numbersOf (importCategories db doc.categories).1.parts s.id := by
      simp only [numbersOf]
      rw [hfil]
    rw [heq, k2]
    rw [k1] at hmem
    have hch := hinv s hmem
    simp only [partNumbersOf] at hch
    exact hch
  · intro s hs hslt
    have hno : ¬ s ∈ (importCategories db doc.categories).1.stories :=
      fun hmem => hslt (A1 s hmem)
    obtain ⟨st, hst, _, hlink⟩ := NL s hs hno
    exact ⟨st, hst, hlink⟩
  · exact hdocP

theorem applyOp_inv (env : Env) (db : DB) (op : AdminOp)
    (hwf : idsWF db) (hinv : chapterInv db) (hop : opOK op) :
    idsWF (applyOp env db op) ∧ chapterInv (applyOp env db op) := by
  cases op with
  | newStory t a ty comp cids content vids =>
    exact uploadNewStory_inv env db t a ty comp cids content vids hwf hinv
  | addPart sid content vids =>
    exact uploadAddPart_inv env db sid content vids hwf hinv
  | deleteLast sid =>
    exact uploadDeleteLast_inv db sid hwf hinv
  | applyImport doc dec =>
    exact perform_import_inv env doc dec db hwf hinv hop

/-- C7 (counterexample).  The chapter-ordering invariant is not preserved
by every import apply: `perform_import` copies the document's
`part_number` values verbatim, so importing (into the empty store, with no
decisions) a document whose single story carries one chapter numbered 5
produces a store whose story has chapter numbers `[5]` rather than `[1]` —
the numbers are neither contiguous nor starting at 1, although the empty
starting store satisfied the invariant and the identity discipline. -/
theorem chapter_invariant_counterexample :
    idsWF emptyDB ∧ chapterInv emptyDB ∧
      ¬ chapterInv (applyOps plainEnv
        [AdminOp.applyImport
          { categories := [], stories := [mkDocStory 1 "A"]
            parts := [{ id := 2, story_id := 1, part_number := 5, content := "x"
                        created_at := none }]
            comments := [], videos := [] } (fun _ => none)] emptyDB) :=
  ⟨by decide, by decide, by decide⟩

/-- C7.  Chapter-ordering invariant, amended: after any sequence of the
chapter-affecting admin operations (story creation with its first part,
`add_part`, `delete_last`) and of import applies whose documents are
well-shaped — unique story identities and per-story chapters numbered
`1, …, k` in document order, the shape `export_data` always produces —
every stored story's `part_number` values are exactly `1, …, k` in stored
order: a new chapter is appended at max+1, deletion removes only the
highest-numbered chapter, and a well-shaped import copies each story's
contiguous numbering.  The store must start with the invariant and the
identity discipline of live stores (`idsWF`); an import of a document with
arbitrary chapter numbers can break the invariant (see the
counterexample), so the claim's unconditional form is wrong for the
import-apply operation. -/
theorem chapter_invariant (env : Env) (ops : List AdminOp) : ∀ db : DB,
    idsWF db → chapterInv db → (∀ op ∈ ops, opOK op) →
    chapterInv (applyOps env ops db) := by
  induction ops with
  | nil => intro db _ hinv _; exact hinv
  | cons op ops ih =>
    intro db hwf hinv hok
    obtain ⟨hwf2, hinv2⟩ := applyOp_inv env db op hwf hinv
      (hok op (List.mem_cons_self op ops))
    exact ih (applyOp env db op) hwf2 hinv2
      (fun o ho => hok o (List.mem_cons_of_mem op ho))

/-- The amended chapter invariant at a concrete instance: a store holding
`Alpha` with chapters `1, 2, 3`, an appended chapter and a deletion of the
last chapter. -/
theorem chapter_invariant_witness :
    idsWF dbAlpha ∧ chapterInv dbAlpha ∧
      chapterInv (applyOps plainEnv
        [AdminOp.addPart 1 "more text" ([] : List String),
          AdminOp.deleteLast 1] dbAlpha) :=
  ⟨by decide, by decide,
    chapter_invariant plainEnv
      [AdminOp.addPart 1 "more text" ([] : List String),
        AdminOp.deleteLast 1] dbAlpha (by decide) (by decide)
      (by
        intro op hop
        rcases List.mem_cons.mp hop with rfl | hop
        · trivial
        · rcases List.mem_cons.mp hop with rfl | hop
          · trivial
          · simp at hop)⟩

/-- C1 (counterexample).  The round trip does not preserve every scalar
field: a comment's stored URL has its `/story/<digits>` fragments rewritten
to the story's fresh identity by the comment phase.  For the well-formed
fixture store (story identity 5, comment URL `/story/5`) and a faithful
codec, the re-imported comment's URL is `/story/1`, not `/story/5`. -/
theorem round_trip_counterexample :
    storeWF dbRT ∧ envFaithfulOn envRT dbRT ∧
      dbRT.comments.map (fun c => c.url) = ["/story/5"] ∧
      (perform_import envRT (export_data envRT dbRT) (fun _ => none)
          emptyDB).db.comments.map (fun c => c.url) = ["/story/1"] :=
  ⟨by decide, by decide, by decide, by decide⟩

theorem dictGet_nodup_mem (m : List (Nat × Nat)) :
    (m.map (fun kv => kv.1)).Nodup → ∀ x v : Nat, (x, v) ∈ m →
      dictGet m x = some v := by
  induction m with
  | nil => intro _ x v hmem; simp at hmem
  | cons kv rest ih =>
    intro hk x v hmem
    rcases List.mem_cons.mp hmem with rfl | hmem2
    · simp [dictGet]
    · by_cases hx : x = kv.1
      · exfalso
        have hxm : kv.1 ∈ rest.map (fun kv => kv.1) :=
          List.mem_map.mpr ⟨(x, v), hmem2, by rw [← hx]⟩
        exact (List.nodup_cons.mp hk).1 hxm
      · rw [dictGet, if_neg hx]
        exact ih (List.nodup_cons.mp hk).2 x v hmem2

theorem freshMap_keys (ids : List Nat) : ∀ start : Nat,
    (freshMap start ids).map (fun kv => kv.1) = ids := by
  induction ids with
  | nil => intro start; rfl
  | cons k ks ih =>
    intro start
    simp only [freshMap, List.map_cons]
    rw [ih (start + 1)]

theorem freshMap_mem (ids : List Nat) : ∀ start x, x ∈ ids →
    (x, start + ids.indexOf x) ∈ freshMap start ids := by
  induction ids with
  | nil => intro start x hx; simp at hx
  | cons k ks ih =>
    intro start x hx
    by_cases hk : x = k
    · subst hk
      simp only [freshMap, List.indexOf_cons_self, Nat.add_zero]
      exact List.mem_cons_self _ _
    · have hx2 : x ∈ ks := by
        rcases List.mem_cons.mp hx with h | h
        · exact absurd h hk
        · exact h
      have hrec := ih (start + 1) x hx2
      simp only [freshMap]
      apply List.mem_cons_of_mem
      rw [List.indexOf_cons_ne ks (Ne.symm hk)]
      have harith : start + (ks.indexOf x + 1) = start + 1 + ks.indexOf x := by
        omega
      rw [harith]
      exact hrec

theorem dictGet_fresh (ids : List Nat) (hnodup : ids.Nodup) (start x : Nat)
    (hx : x ∈ ids) :
    dictGet (freshMap start ids).reverse x = some (start + ids.indexOf x) := by
  apply dictGet_nodup_mem
  · have hmapr : (freshMap start ids).reverse.map (fun kv => kv.1) =
        ((freshMap start ids).map (fun kv => kv.1)).reverse := by
      rw [List.map_reverse]
    rw [hmapr, freshMap_keys]
    exact List.nodup_reverse.mpr hnodup
  · exact List.mem_reverse.mpr (freshMap_mem ids start x hx)

theorem dictGet_fresh_none (ids : List Nat) (start x : Nat) (hx : ¬ x ∈ ids) :
    dictGet (freshMap start ids).reverse x = none := by
  cases hg : dictGet (freshMap start ids).reverse x with
  | none => rfl
  | some v =>
    exfalso
    have h1 := dictGet_mem _ _ _ hg
    have h2 := List.mem_reverse.mp h1
    have h3 : x ∈ (freshMap start ids).map (fun kv => kv.1) :=
      List.mem_map.mpr ⟨(x, v), h2, rfl⟩
    rw [freshMap_keys] at h3
    exact hx h3

theorem filterMap_all_some {α β : Type} (f : α → Option β) (g : α → β) :
    ∀ l : List α, (∀ x ∈ l, f x = some (g x)) → l.filterMap f = l.map g := by
  intro l
  induction l with
  | nil => intro _; rfl
  | cons a l ih =>
    intro h
    simp only [List.filterMap_cons, h a (List.mem_cons_self a l), List.map_cons]
    rw [ih (fun x hx => h x (List.mem_cons_of_mem a hx))]

theorem importCategories_fresh (cats : List DocCategory) : ∀ db : DB,
    (∀ c ∈ cats, ¬ c.name = "") →
    ((cats.map (fun c => pyLower c.name)).Nodup) →
    (∀ c ∈ cats, ∀ e ∈ db.categories, ¬ pyLower e.name = pyLower c.name) →
    (importCategories db cats).1.categories =
        db.categories ++ imgCats db.nextCategoryId
          (cats.map (fun c => ({ id := c.id, name := c.name } : Category))) ∧
      (importCategories db cats).1.nextCategoryId =
        db.nextCategoryId + cats.length ∧
      (importCategories db cats).2 =
        (freshMap db.nextCategoryId (cats.map (fun c => c.id))).reverse := by
  induction cats with
  | nil =>
    intro db _ _ _
    exact ⟨by simp [importCategories, imgCats], rfl, rfl⟩
  | cons cat rest ih =>
    intro db hname hnodup hdisj
    have hne : ¬ cat.name = "" := hname cat (List.mem_cons_self _ _)
    have hfind : db.categories.find?
        (fun c => pyLower c.name = pyLower cat.name) = none := by
      rw [List.find?_eq_none]
      intro e he
      simpa using hdisj cat (List.mem_cons_self _ _) e he
    simp only [importCategories, if_neg hne, hfind]
    obtain ⟨i1, i2, i3⟩ := ih
      { db with categories := db.categories ++ [{ id := db.nextCategoryId, name := cat.name }],
                nextCategoryId := db.nextCategoryId + 1 }
      (fun c hc => hname c (List.mem_cons_of_mem _ hc))
      ((List.nodup_cons.mp hnodup).2)
      (by
        intro c hc e he
        simp only at he
        rcases List.mem_append.mp he with he | he
        · exact hdisj c (List.mem_cons_of_mem _ hc) e he
        · rcases List.mem_singleton.mp he with rfl
          simp only
          intro hcontra
          exact (List.nodup_cons.mp hnodup).1
            (List.mem_map.mpr ⟨c, hc, by rw [← hcontra]⟩))
    simp only at i1 i2 i3
    refine ⟨?_, ?_, ?_⟩
    · rw [i1]
      simp only [List.map_cons, imgCats, List.append_assoc, List.singleton_append]
    · rw [i2]
      simp only [List.map_cons, List.length_cons]
      omega
    · rw [i3]
      simp only [List.map_cons, freshMap, List.reverse_cons]

theorem importStories_pure (env : Env) (dec : Nat → Option String)
    (catMap : List (Nat × Nat)) (sts : List DocStory) : ∀ db : DB,
    (∀ st ∈ sts, dec st.id = none) →
    (importStories env dec catMap db sts).db.stories =
        db.stories ++ freshStories env catMap db.nextStoryId sts ∧
      (importStories env dec catMap db sts).db.storyCats =
        db.storyCats ++ freshAssocs catMap db.nextStoryId sts ∧
      (importStories env dec catMap db sts).db.nextStoryId =
        db.nextStoryId + sts.length ∧
      (importStories env dec catMap db sts).db.parts = db.parts ∧
      (importStories env dec catMap db sts).db.comments = db.comments ∧
      (importStories env dec catMap db sts).db.videos = db.videos ∧
      (importStories env dec catMap db sts).db.categories = db.categories ∧
      (importStories env dec catMap db sts).db.nextCategoryId = db.nextCategoryId ∧
      (importStories env dec catMap db sts).db.nextPartId = db.nextPartId ∧
      (importStories env dec catMap db sts).db.nextCommentId = db.nextCommentId ∧
      (importStories env dec catMap db sts).db.nextVideoId = db.nextVideoId ∧
      (importStories env dec catMap db sts).smap =
        (freshMap db.nextStoryId (sts.map (fun st => st.id))).reverse ∧
      (importStories env dec catMap db sts).imported = sts.length ∧
      (importStories env dec catMap db sts).overwritten = 0 ∧
      (importStories env dec catMap db sts).skipped = 0 := by
  induction sts with
  | nil =>
    intro db _
    exact ⟨by simp [importStories, freshStories],
      by simp [importStories, freshAssocs], rfl, rfl, rfl, rfl, rfl, rfl, rfl,
      rfl, rfl, rfl, rfl, rfl, rfl⟩
  | cons st rest ih =>
    intro db hdec
    have hd := hdec st (List.mem_cons_self _ _)
    have hskip : ¬ dec st.id = some "skip" := by rw [hd]; simp
    have hover : ¬ dec st.id = some "overwrite" := by rw [hd]; simp
    have hstep1 : (overwriteStep dec db st).1 = db := by
      unfold overwriteStep
      rw [if_neg hover]
    have hstep2 : (overwriteStep dec db st).2 = 0 := by
      unfold overwriteStep
      rw [if_neg hover]
    simp only [importStories, if_neg hskip, hstep1, hstep2]
    obtain ⟨i1, i2, i3, i4, i5, i6, i7, i8, i9, i10, i11, i12, i13, i14, i15⟩ :=
      ih (createStory env catMap db st).1
        (fun s hs => hdec s (List.mem_cons_of_mem _ hs))
    have hc_st : (createStory env catMap db st).1.stories =
        db.stories ++ [mkStory env catMap db.nextStoryId st] := rfl
    have hc_sc : (createStory env catMap db st).1.storyCats =
        db.storyCats ++
          (resolvedCats catMap st).map (fun c => (db.nextStoryId, c)) := rfl
    have hc_ns : (createStory env catMap db st).1.nextStoryId =
        db.nextStoryId + 1 := rfl
    have hc2 : (createStory env catMap db st).2 = db.nextStoryId := rfl
    have hc_p : (createStory env catMap db st).1.parts = db.parts := rfl
    have hc_c : (createStory env catMap db st).1.comments = db.comments := rfl
    have hc_v : (createStory env catMap db st).1.videos = db.videos := rfl
    have hc_cat : (createStory env catMap db st).1.categories =
        db.categories := rfl
    have hc_nc : (createStory env catMap db st).1.nextCategoryId =
        db.nextCategoryId := rfl
    have hc_np : (createStory env catMap db st).1.nextPartId =
        db.nextPartId := rfl
    have hc_ncm : (createStory env catMap db st).1.nextCommentId =
        db.nextCommentId := rfl
    have hc_nv : (createStory env catMap db st).1.nextVideoId =
        db.nextVideoId := rfl
    rw [hc_st, hc_ns] at i1
    rw [hc_sc, hc_ns] at i2
    rw [hc_ns] at i3 i12
    rw [hc_p] at i4
    rw [hc_c] at i5
    rw [hc_v] at i6
    rw [hc_cat] at i7
    rw [hc_nc] at i8
    rw [hc_np] at i9
    rw [hc_ncm] at i10
    rw [hc_nv] at i11
    refine ⟨?_, ?_, ?_, i4, i5, i6, i7, i8, i9, i10, i11, ?_, ?_, ?_, ?_⟩
    · rw [i1]
      simp [freshStories, List.append_assoc]
    · rw [i2]
      simp [freshAssocs, List.append_assoc]
    · rw [i3]
      simp only [List.length_cons]
      omega
    · rw [i12, hc2]
      simp [freshMap, List.reverse_cons]
    · rw [i13]
      simp
    · rw [i14]
    · rw [i15]

theorem decodeTs_faithful (env : Env) (t : Int)
    (h1 : env.parseIso (env.isoformat t) = some t)
    (h2 : ¬ env.isoformat t = "") :
    decodeTs env (some (env.isoformat t)) = t := by
  simp [decodeTs, h1, h2]

theorem keptParts_img (env : Env) (smap : List (Nat × Nat)) (σS : Nat → Nat)
    (parts : List DPart)
    (hlook : ∀ p ∈ parts, dictGet smap p.story_id = some (σS p.story_id))
    (hts : ∀ p ∈ parts,
      env.parseIso (env.isoformat p.created_at) = some p.created_at ∧
        ¬ env.isoformat p.created_at = "") :
    ∀ start : Nat,
      keptParts env smap start (parts.map (fun p =>
        ({ id := p.id, story_id := p.story_id, part_number := p.part_number
           content := p.content
           created_at := some (env.isoformat p.created_at) } : DocPart))) =
        imgParts σS start parts := by
  induction parts with
  | nil => intro start; rfl
  | cons p rest ih =>
    intro start
    have h1 : dictGet smap p.story_id = some (σS p.story_id) :=
      hlook p (List.mem_cons_self _ _)
    have h2 := hts p (List.mem_cons_self _ _)
    simp only [List.map_cons, keptParts, h1, imgParts]
    rw [ih (fun q hq => hlook q (List.mem_cons_of_mem _ hq))
      (fun q hq => hts q (List.mem_cons_of_mem _ hq)) (start + 1)]
    rw [decodeTs_faithful env p.created_at h2.1 h2.2]

theorem keptComments_img (env : Env) (smap : List (Nat × Nat)) (σS : Nat → Nat)
    (comments : List DComment)
    (hlook : ∀ c ∈ comments, dictGet smap c.story_id = some (σS c.story_id))
    (hnz : ∀ c ∈ comments, ¬ σS c.story_id = 0)
    (hts : ∀ c ∈ comments,
      env.parseIso (env.isoformat c.created_at) = some c.created_at ∧
        ¬ env.isoformat c.created_at = "") :
    ∀ start : Nat,
      keptComments env smap start (comments.map (fun c =>
        ({ id := c.id, story_id := c.story_id, url := c.url, name := c.name
           email := c.email, content := c.content
           created_at := some (env.isoformat c.created_at) } : DocComment))) =
        imgComments σS start comments := by
  induction comments with
  | nil => intro start; rfl
  | cons c rest ih =>
    intro start
    have h1 : dictGet smap c.story_id = some (σS c.story_id) :=
      hlook c (List.mem_cons_self _ _)
    have h2 := hts c (List.mem_cons_self _ _)
    have h3 := hnz c (List.mem_cons_self _ _)
    simp only [List.map_cons, keptComments, h1, if_neg h3, imgComments]
    rw [ih (fun q hq => hlook q (List.mem_cons_of_mem _ hq))
      (fun q hq => hnz q (List.mem_cons_of_mem _ hq))
      (fun q hq => hts q (List.mem_cons_of_mem _ hq)) (start + 1)]
    rw [decodeTs_faithful env c.created_at h2.1 h2.2]

theorem keptVideos_img (pmap : List (Nat × Nat)) (σP : Nat → Nat)
    (videos : List PartVideo)
    (hlook : ∀ v ∈ videos, dictGet pmap v.part_id = some (σP v.part_id))
    (hnz : ∀ v ∈ videos, ¬ σP v.part_id = 0)
    (hurl : ∀ v ∈ videos, ¬ v.url = "") :
    ∀ start : Nat,
      keptVideos pmap start (videos.map (fun v =>
        ({ id := v.id, part_id := v.part_id, url := v.url } : DocVideo))) =
        imgVideos σP start videos := by
  induction videos with
  | nil => intro start; rfl
  | cons v rest ih =>
    intro start
    have h1 : dictGet pmap v.part_id = some (σP v.part_id) :=
      hlook v (List.mem_cons_self _ _)
    have h2 := hnz v (List.mem_cons_self _ _)
    have h3 := hurl v (List.mem_cons_self _ _)
    simp only [List.map_cons, keptVideos, h1, if_neg h2, if_neg h3, imgVideos]
    rw [ih (fun q hq => hlook q (List.mem_cons_of_mem _ hq))
      (fun q hq => hnz q (List.mem_cons_of_mem _ hq))
      (fun q hq => hurl q (List.mem_cons_of_mem _ hq)) (start + 1)]

theorem keptPMap_all (smap : List (Nat × Nat)) (ps : List DocPart)
    (h : ∀ p ∈ ps, ∃ w, dictGet smap p.story_id = some w) :
    ∀ start : Nat,
      keptPMap smap start ps = freshMap start (ps.map (fun p => p.id)) := by
  induction ps with
  | nil => intro start; rfl
  | cons p rest ih =>
    intro start
    obtain ⟨w, hw⟩ := h p (List.mem_cons_self _ _)
    simp only [keptPMap, hw, List.map_cons, freshMap]
    rw [ih (fun q hq => h q (List.mem_cons_of_mem _ hq)) (start + 1)]

theorem freshStories_img (env : Env) (S : DB) (catMap : List (Nat × Nat))
    (stories : List Story)
    (hts : ∀ s ∈ stories,
      env.parseIso (env.isoformat s.created_at) = some s.created_at ∧
        ¬ env.isoformat s.created_at = "")
    (hcats : ∀ s ∈ stories, ∀ cid ∈ assocCatIds S s.id,
      dictGet catMap cid = some (catRenum S cid)) :
    ∀ start : Nat,
      freshStories env catMap start (stories.map (fun s =>
        ({ id := s.id, title := s.title, author := s.author
           story_type := s.story_type
           created_at := some (env.isoformat s.created_at), views := s.views
           is_hidden := s.is_hidden, is_completed := s.is_completed
           rating_sum := s.rating_sum, rating_count := s.rating_count
           category_id := s.category_id
           categories := assocCatIds S s.id } : DocStory))) =
        imgStories S (catRenum S) start stories := by
  induction stories with
  | nil => intro start; rfl
  | cons s rest ih =>
    intro start
    have h2 := hts s (List.mem_cons_self _ _)
    have hres : (assocCatIds S s.id).filterMap (fun cid => dictGet catMap cid) =
          (assocCatIds S s.id).map (catRenum S) :=
      filterMap_all_some _ _ _ (hcats s (List.mem_cons_self _ _))
    simp only [List.map_cons, freshStories, imgStories, mkStory, resolvedCats, hres]
    rw [ih (fun q hq => hts q (List.mem_cons_of_mem _ hq))
      (fun q hq => hcats q (List.mem_cons_of_mem _ hq)) (start + 1)]
    rw [decodeTs_faithful env s.created_at h2.1 h2.2]

theorem freshAssocs_img (S : DB) (catMap : List (Nat × Nat)) (σS : Nat → Nat)
    (env : Env) :
    ∀ (l : List Story) (start : Nat),
    (∀ s ∈ l, ∀ cid ∈ assocCatIds S s.id,
      dictGet catMap cid = some (catRenum S cid)) →
    (∀ i : Nat, ∀ h : i < l.length, σS ((l.get ⟨i, h⟩).id) = start + i) →
    freshAssocs catMap start (l.map (fun s =>
      ({ id := s.id, title := s.title, author := s.author
         story_type := s.story_type
         created_at := some (env.isoformat s.created_at), views := s.views
         is_hidden := s.is_hidden, is_completed := s.is_completed
         rating_sum := s.rating_sum, rating_count := s.rating_count
         category_id := s.category_id
         categories := assocCatIds S s.id } : DocStory))) =
      imgAssocs S σS (catRenum S) l := by
  intro l
  induction l with
  | nil => intro start _ _; rfl
  | cons s rest ih =>
    intro start hcats hpos
    have hres : (assocCatIds S s.id).filterMap (fun cid => dictGet catMap cid) =
          (assocCatIds S s.id).map (catRenum S) :=
      filterMap_all_some _ _ _ (hcats s (List.mem_cons_self _ _))
    have hs0 : σS s.id = start := by
      have := hpos 0 (by simp)
      simpa using this
    simp only [List.map_cons, freshAssocs, imgAssocs, resolvedCats, hres, hs0, List.map_map]
    rw [ih (start + 1) (fun q hq => hcats q (List.mem_cons_of_mem _ hq))
      (fun i h => by
        have := hpos (i + 1) (by simpa using Nat.succ_lt_succ h)
        simp only [List.get_cons_succ] at this
        rw [this]
        omega)]
    rfl

theorem imgParts_length (σS : Nat → Nat) (l : List DPart) :
    ∀ n : Nat, (imgParts σS n l).length = l.length := by
  induction l with
  | nil => intro n; rfl
  | cons p rest ih =>
    intro n
    simp only [imgParts, List.length_cons]
    rw [ih (n + 1)]

theorem imgComments_length (σS : Nat → Nat) (l : List DComment) :
    ∀ n : Nat, (imgComments σS n l).length = l.length := by
  induction l with
  | nil => intro n; rfl
  | cons c rest ih =>
    intro n
    simp only [imgComments, List.length_cons]
    rw [ih (n + 1)]

theorem imgVideos_length (σP : Nat → Nat) (l : List PartVideo) :
    ∀ n : Nat, (imgVideos σP n l).length = l.length := by
  induction l with
  | nil => intro n; rfl
  | cons v rest ih =>
    intro n
    simp only [imgVideos, List.length_cons]
    rw [ih (n + 1)]

theorem importResultEq (a b : ImportResult) (h1 : a.db = b.db)
    (h2 : a.imported = b.imported) (h3 : a.overwritten = b.overwritten)
    (h4 : a.skipped = b.skipped) : a = b := by
  cases a
  cases b
  simp_all

theorem renum_pos (l : List Nat) (hnodup : l.Nodup) (i : Nat)
    (h : i < l.length) : renumber l (l.get ⟨i, h⟩) = 1 + i := by
  unfold renumber
  congr 1
  exact List.indexOf_getElem hnodup i h

/-- C1.  Round trip, amended: exporting a well-formed store `S` under
faithful timestamp collaborators and applying the document (no decisions)
against an empty store produces exactly the canonical image
`roundTripImage S` — every entity keeps its scalar fields and its
cross-references renumbered positionally, chapters keep their per-story
order, and every story keeps its category associations — with the two
deviations the code forces and the claim omits: a comment's stored URL has
its `/story/<digits>` fragments rewritten to the story's new identity, and
a story's primary category is reattached to its first association.  The
returned counts are `(N, 0, 0)`. -/
theorem round_trip (env : Env) (S : DB) (hwf : storeWF S)
    (hfaith : envFaithfulOn env S) :
    perform_import env (export_data env S) (fun _ => none) emptyDB =
      { db := roundTripImage S, imported := S.stories.length
        overwritten := 0, skipped := 0 } := by
  obtain ⟨w1, w2, w3, w4, w5, w6, w7, w8, w9, w10⟩ := hwf
  obtain ⟨e1, e2, e3⟩ := hfaith
  set DOC := export_data env S with hDOC
  set CC := importCategories emptyDB DOC.categories with hCC
  set R := importStories env (fun _ => none) CC.2 CC.1 DOC.stories with hR
  set PH := importParts env R.smap R.db DOC.parts with hPH
  set DB4 := importComments env R.smap PH.1 DOC.comments with hDB4
  set F := importVideos PH.2 DB4 DOC.videos with hF
  have hPI : perform_import env DOC (fun _ => none) emptyDB =
      { db := F, imported := R.imported, overwritten := R.overwritten
        skipped := R.skipped } := rfl
  -- document components, definitionally
  have hdc : DOC.categories = S.categories.map
      (fun c => ({ id := c.id, name := c.name } : DocCategory)) := rfl
  have hds : DOC.stories = S.stories.map (fun s =>
      ({ id := s.id, title := s.title, author := s.author
         story_type := s.story_type
         created_at := some (env.isoformat s.created_at), views := s.views
         is_hidden := s.is_hidden, is_completed := s.is_completed
         rating_sum := s.rating_sum, rating_count := s.rating_count
         category_id := s.category_id
         categories := assocCatIds S s.id } : DocStory)) := rfl
  have hdp : DOC.parts = S.parts.map (fun p =>
      ({ id := p.id, story_id := p.story_id, part_number := p.part_number
         content := p.content
         created_at := some (env.isoformat p.created_at) } : DocPart)) := rfl
  have hdm : DOC.comments = S.comments.map (fun c =>
      ({ id := c.id, story_id := c.story_id, url := c.url, name := c.name
         email := c.email, content := c.content
         created_at := some (env.isoformat c.created_at) } : DocComment)) := rfl
  have hdv : DOC.videos = S.videos.map (fun v =>
      ({ id := v.id, part_id := v.part_id, url := v.url } : DocVideo)) := rfl
  -- phase 1: all categories are created fresh
  have hnames : ∀ c ∈ DOC.categories, ¬ c.name = "" := by
    intro c hc
    rw [hdc] at hc
    obtain ⟨c0, hc0, rfl⟩ := List.mem_map.mp hc
    exact w2 c0 hc0
  have hlower : (DOC.categories.map (fun c => pyLower c.name)).Nodup := by
    rw [hdc, List.map_map]
    exact w3
  have hdisj : ∀ c ∈ DOC.categories, ∀ e ∈ emptyDB.categories,
      ¬ pyLower e.name = pyLower c.name := by
    intro c _ e he
    simp [emptyDB] at he
  obtain ⟨k1, k2, k3⟩ :=
    importCategories_fresh DOC.categories emptyDB hnames hlower hdisj
  rw [← hCC] at k1 k2 k3
  have hketa : (DOC.categories.map
      (fun c => ({ id := c.id, name := c.name } : Category))) = S.categories := by
    rw [hdc, List.map_map]
    exact List.map_id _
  rw [hketa] at k1
  have hckeys : DOC.categories.map (fun c => c.id) =
      S.categories.map (fun c => c.id) := by
    rw [hdc, List.map_map]
    rfl
  rw [hckeys] at k3
  have hec : emptyDB.categories = ([] : List Category) := rfl
  have hen : emptyDB.nextCategoryId = 1 := rfl
  rw [hec, hen, List.nil_append] at k1
  rw [hen] at k2 k3
  -- phase 1 leaves every other component of the empty store unchanged
  obtain ⟨s1, s2, s3, s4, s5, s6, s7, s8, s9⟩ :=
    importCategories_state DOC.categories emptyDB
  rw [← hCC] at s1 s2 s3 s4 s5 s6 s7 s8 s9
  have s1e : CC.1.stories = ([] : List Story) := s1
  have s2e : CC.1.parts = ([] : List DPart) := s2
  have s3e : CC.1.comments = ([] : List DComment) := s3
  have s4e : CC.1.videos = ([] : List PartVideo) := s4
  have s5e : CC.1.storyCats = ([] : List (Nat × Nat)) := s5
  have s6e : CC.1.nextStoryId = 1 := s6
  have s7e : CC.1.nextPartId = 1 := s7
  have s8e : CC.1.nextCommentId = 1 := s8
  have s9e : CC.1.nextVideoId = 1 := s9
  -- category lookups resolve to the positional renumbering
  have hcatlook : ∀ cid ∈ S.categories.map (fun c => c.id),
      dictGet CC.2 cid = some (catRenum S cid) := by
    intro cid hcid
    rw [k3]
    exact dictGet_fresh _ w1 1 cid hcid
  have hcats1 : ∀ s ∈ S.stories, ∀ cid ∈ assocCatIds S s.id,
      dictGet CC.2 cid = some (catRenum S cid) := by
    intro s _ cid hcid
    apply hcatlook
    simp only [assocCatIds, List.mem_map] at hcid
    obtain ⟨pr, hpr, rfl⟩ := hcid
    exact w6 pr (List.mem_of_mem_filter hpr)
  -- phase 2: pure creation
  obtain ⟨P1, P2, P3, P4, P5, P6, P7, P8, P9, P10, P11, P12, P13, P14, P15⟩ :=
    importStories_pure env (fun _ => none) CC.2 DOC.stories CC.1
      (fun st _ => rfl)
  rw [← hR] at P1 P2 P3 P4 P5 P6 P7 P8 P9 P10 P11 P12 P13 P14 P15
  have hRst : R.db.stories = imgStories S (catRenum S) 1 S.stories := by
    rw [P1, s1e, s6e, List.nil_append, hds]
    exact freshStories_img env S CC.2 S.stories e1 hcats1 1
  have hpos1 : ∀ i : Nat, ∀ h : i < S.stories.length,
      storyRenum S ((S.stories.get ⟨i, h⟩).id) = 1 + i := by
    intro i h
    have hg : (S.stories.map (fun s => s.id)).get
        ⟨i, by simpa using h⟩ = (S.stories.get ⟨i, h⟩).id := by
      simp [List.get_map]
    unfold storyRenum
    rw [← hg]
    exact renum_pos _ w4 i (by simpa using h)
  have hRsc : R.db.storyCats =
      imgAssocs S (storyRenum S) (catRenum S) S.stories := by
    rw [P2, s5e, s6e, List.nil_append, hds]
    exact freshAssocs_img S CC.2 (storyRenum S) env S.stories 1 hcats1 hpos1
  have hRns : R.db.nextStoryId = 1 + S.stories.length := by
    rw [P3, s6e, hds, List.length_map]
  have hRp : R.db.parts = ([] : List DPart) := by rw [P4, s2e]
  have hRc : R.db.comments = ([] : List DComment) := by rw [P5, s3e]
  have hRv : R.db.videos = ([] : List PartVideo) := by rw [P6, s4e]
  have hRcat : R.db.categories = imgCats 1 S.categories := by rw [P7, k1]
  have hRnc : R.db.nextCategoryId = 1 + S.categories.length := by
    rw [P8, k2, hdc, List.length_map]
  have hRnp : R.db.nextPartId = 1 := by rw [P9, s7e]
  have hRncm : R.db.nextCommentId = 1 := by rw [P10, s8e]
  have hRnv : R.db.nextVideoId = 1 := by rw [P11, s9e]
  have hskeys : DOC.stories.map (fun st => st.id) =
      S.stories.map (fun s => s.id) := by
    rw [hds, List.map_map]
    rfl
  have P12e : R.smap =
      (freshMap 1 (S.stories.map (fun s => s.id))).reverse := by
    rw [P12, s6e, hskeys]
  have hstorylook : ∀ x ∈ S.stories.map (fun s => s.id),
      dictGet R.smap x = some (storyRenum S x) := by
    intro x hx
    rw [P12e]
    exact dictGet_fresh _ w4 1 x hx
  -- phase 3: every part is kept
  obtain ⟨p1, p2, p3, p4, p5, p6, p7, p8, p9, p10, p11, p12⟩ :=
    importParts_eq env R.smap DOC.parts R.db
  rw [← hPH] at p1 p2 p3 p4 p5 p6 p7 p8 p9 p10 p11 p12
  have hplook : ∀ p ∈ S.parts,
      dictGet R.smap p.story_id = some (storyRenum S p.story_id) := by
    intro p hp
    exact hstorylook _ (w7 p hp)
  have hkpimg : keptParts env R.smap 1 DOC.parts =
      imgParts (storyRenum S) 1 S.parts := by
    rw [hdp]
    exact keptParts_img env R.smap (storyRenum S) S.parts hplook e2 1
  have hPHparts : PH.1.parts = imgParts (storyRenum S) 1 S.parts := by
    rw [p1, hRp, List.nil_append, hRnp, hkpimg]
  have hpkeys : DOC.parts.map (fun p => p.id) =
      S.parts.map (fun p => p.id) := by
    rw [hdp, List.map_map]
    rfl
  have hexistp : ∀ p ∈ DOC.parts, ∃ w, dictGet R.smap p.story_id = some w := by
    intro p hp
    rw [hdp] at hp
    obtain ⟨p0, hp0, rfl⟩ := List.mem_map.mp hp
    exact ⟨_, hplook p0 hp0⟩
  have hpm : PH.2 = (freshMap 1 (S.parts.map (fun p => p.id))).reverse := by
    rw [p12, hRnp, keptPMap_all R.smap DOC.parts hexistp 1, hpkeys]
  have hkplen : (keptParts env R.smap 1 DOC.parts).length =
      S.parts.length := by
    rw [hkpimg, imgParts_length]
  -- phase 4: every comment is kept
  obtain ⟨c1, c2, c3, c4, c5, c6, c7, c8, c9, c10, c11⟩ :=
    importComments_eq env R.smap DOC.comments PH.1
  rw [← hDB4] at c1 c2 c3 c4 c5 c6 c7 c8 c9 c10 c11
  have hclook : ∀ c ∈ S.comments,
      dictGet R.smap c.story_id = some (storyRenum S c.story_id) := by
    intro c hc
    exact hstorylook _ (w8 c hc)
  have hcnz : ∀ c ∈ S.comments, ¬ storyRenum S c.story_id = 0 := by
    intro c _
    unfold storyRenum renumber
    omega
  have hPHncm : PH.1.nextCommentId = 1 := by rw [p8, hRncm]
  have hkcimg : keptComments env R.smap 1 DOC.comments =
      imgComments (storyRenum S) 1 S.comments := by
    rw [hdm]
    exact keptComments_img env R.smap (storyRenum S) S.comments hclook hcnz e3 1
  have hDB4c : DB4.comments = imgComments (storyRenum S) 1 S.comments := by
    rw [c1, p3, hRc, List.nil_append, hPHncm, hkcimg]
  have hkclen : (keptComments env R.smap 1 DOC.comments).length =
      S.comments.length := by
    rw [hkcimg, imgComments_length]
  -- phase 5: every video link is kept
  obtain ⟨v1, v2, v3, v4, v5, v6, v7, v8, v9, v10, v11⟩ :=
    importVideos_eq PH.2 DOC.videos DB4
  rw [← hF] at v1 v2 v3 v4 v5 v6 v7 v8 v9 v10 v11
  have hvlook : ∀ v ∈ S.videos,
      dictGet PH.2 v.part_id = some (partRenum S v.part_id) := by
    intro v hv
    rw [hpm]
    exact dictGet_fresh _ w5 1 _ (w9 v hv)
  have hvnz : ∀ v ∈ S.videos, ¬ partRenum S v.part_id = 0 := by
    intro v _
    unfold partRenum renumber
    omega
  have hDB4nv : DB4.nextVideoId = 1 := by rw [c9, p9, hRnv]
  have hkvimg : keptVideos PH.2 1 DOC.videos =
      imgVideos (partRenum S) 1 S.videos := by
    rw [hdv]
    exact keptVideos_img PH.2 (partRenum S) S.videos hvlook hvnz w10 1
  have hkvlen : (keptVideos PH.2 1 DOC.videos).length =
      S.videos.length := by
    rw [hkvimg, imgVideos_length]
  -- assemble
  rw [hPI]
  apply importResultEq
  · apply dbEq
    · rw [v6, c6, p6, hRcat]
      rfl
    · rw [v2, c2, p2, hRst]
      rfl
    · rw [v3, c3, hPHparts]
      rfl
    · rw [v4, hDB4c]
      rfl
    · rw [v1, c4, p4, hRv, List.nil_append, hDB4nv, hkvimg]
      rfl
    · rw [v5, c5, p5, hRsc]
      rfl
    · rw [v11, c11, p11, hRnc]
      simp only [roundTripImage]
      omega
    · rw [v7, c7, p7, hRns]
      simp only [roundTripImage]
      omega
    · rw [v8, c8, p10, hRnp, hkplen]
      simp only [roundTripImage]
      omega
    · rw [v9, c10, hPHncm, hkclen]
      simp only [roundTripImage]
      omega
    · rw [v10, hDB4nv, hkvlen]
      simp only [roundTripImage]
      omega
  · rw [P13, hds, List.length_map]
  · exact P14
  · exact P15

/-- The amended round trip at the concrete fixture store, with its faithful
codec. -/
theorem round_trip_witness :
    storeWF dbRT ∧ envFaithfulOn envRT dbRT ∧
      perform_import envRT (export_data envRT dbRT) (fun _ => none) emptyDB =
        { db := roundTripImage dbRT, imported := dbRT.stories.length
          overwritten := 0, skipped := 0 } :=
  ⟨by decide, by decide, round_trip envRT dbRT (by decide) (by decide)⟩

theorem importStories_storyCats_src (env : Env) (dec : Nat → Option String)
    (catMap : List (Nat × Nat)) (sts : List DocStory) : ∀ db : DB,
    ∀ pr ∈ (importStories env dec catMap db sts).db.storyCats,
      pr ∈ db.storyCats ∨ db.nextStoryId ≤ pr.1 := by
  induction sts with
  | nil => intro db pr hpr; exact Or.inl hpr
  | cons st rest ih =>
    intro db pr hpr
    by_cases h : dec st.id = some "skip"
    · simp only [importStories, if_pos h] at hpr
      exact ih db pr hpr
    · simp only [importStories, if_neg h] at hpr
      have hns : (overwriteStep dec db st).1.nextStoryId = db.nextStoryId :=
        (overwriteStep_char dec db st).2.2.2.2.2.2.2.1
      have hcsc : (createStory env catMap (overwriteStep dec db st).1 st).1.storyCats =
          (overwriteStep dec db st).1.storyCats ++
            (resolvedCats catMap st).map
              (fun cc => ((overwriteStep dec db st).1.nextStoryId, cc)) := rfl
      have hcns : (createStory env catMap (overwriteStep dec db st).1 st).1.nextStoryId =
          (overwriteStep dec db st).1.nextStoryId + 1 := rfl
      rcases ih _ pr hpr with hl | hr
      · rw [hcsc] at hl
        rcases List.mem_append.mp hl with hl | hl
        · exact Or.inl ((overwriteStep_char dec db st).2.2.2.2.1 pr hl)
        · right
          simp only [List.mem_map] at hl
          obtain ⟨cc, hcc, he⟩ := hl
          have hpr1 : pr.1 = db.nextStoryId := by
            rw [← he, hns]
          exact hpr1.ge
      · right
        rw [hcns, hns] at hr
        omega

theorem keptPMap_keys_sublist (smap : List (Nat × Nat)) (ps : List DocPart) :
    ∀ start : Nat,
      List.Sublist ((keptPMap smap start ps).map (fun kv => kv.1))
        (ps.map (fun p => p.id)) := by
  induction ps with
  | nil => intro start; simp [keptPMap]
  | cons p rest ih =>
    intro start
    cases hm : dictGet smap p.story_id with
    | none =>
      simp only [keptPMap, hm, List.map_cons]
      exact List.Sublist.cons _ (ih start)
    | some w =>
      simp only [keptPMap, hm, List.map_cons]
      exact List.Sublist.cons₂ _ (ih (start + 1))

theorem keptPMap_pairing (env : Env) (smap : List (Nat × Nat)) (ps : List DocPart) :
    ∀ start : Nat, ∀ pid w : Nat, (pid, w) ∈ keptPMap smap start ps →
      ∃ p ∈ ps, p.id = pid ∧ ∃ nsid, dictGet smap p.story_id = some nsid ∧
        ∃ q ∈ keptParts env smap start ps, q.id = w ∧ q.story_id = nsid := by
  induction ps with
  | nil => intro start pid w h; simp [keptPMap] at h
  | cons p rest ih =>
    intro start pid w h
    cases hm : dictGet smap p.story_id with
    | none =>
      simp only [keptPMap, hm] at h
      obtain ⟨p1, hp1, hid, nsid, hns, q, hq, hqs⟩ := ih start pid w h
      refine ⟨p1, List.mem_cons_of_mem p hp1, hid, nsid, hns, q, ?_, hqs⟩
      simp only [keptParts, hm]
      exact hq
    | some w0 =>
      simp only [keptPMap, hm] at h
      rcases List.mem_cons.mp h with heq | h
      · injection heq with h1 h2
        refine ⟨p, List.mem_cons_self p rest, h1.symm, w0, hm, ?_⟩
        simp only [keptParts, hm]
        exact ⟨_, List.mem_cons_self _ _, h2.symm, rfl⟩
      · obtain ⟨p1, hp1, hid, nsid, hns, q, hq, hqs⟩ := ih (start + 1) pid w h
        refine ⟨p1, List.mem_cons_of_mem p hp1, hid, nsid, hns, q, ?_, hqs⟩
        simp only [keptParts, hm]
        exact List.mem_cons_of_mem _ hq

theorem keptParts_filter_pairs (env : Env) (smap : List (Nat × Nat)) (tid v : Nat)
    (hv : dictGet smap tid = some v)
    (hinj : ∀ x w, dictGet smap x = some w → w = v → x = tid)
    (ps : List DocPart) : ∀ start : Nat,
    ((keptParts env smap start ps).filter (fun q => q.story_id = v)).map
        (fun q => (q.part_number, q.content)) =
      (ps.filter (fun p => p.story_id = tid)).map
        (fun p => (p.part_number, p.content)) := by
  induction ps with
  | nil => intro start; simp [keptParts]
  | cons p rest ih =>
    intro start
    cases hm : dictGet smap p.story_id with
    | none =>
      have hnp : ¬ p.story_id = tid := by
        intro he
        rw [he, hv] at hm
        cases hm
      simp only [keptParts, hm, List.filter_cons]
      rw [if_neg (by simpa using hnp)]
      exact ih start
    | some w =>
      by_cases hw : w = v
      · have hp : p.story_id = tid := hinj p.story_id w hm hw
        simp only [keptParts, hm, List.filter_cons]
        rw [if_pos (by simpa using hw), if_pos (by simpa using hp)]
        simp only [List.map_cons]
        rw [ih (start + 1)]
      · have hnp : ¬ p.story_id = tid := by
          intro he
          rw [he, hv] at hm
          injection hm with hm
          exact hw hm.symm
        simp only [keptParts, hm, List.filter_cons]
        rw [if_neg (by simpa using hw), if_neg (by simpa using hnp)]
        exact ih (start + 1)

theorem keptComments_filter_triples (env : Env) (smap : List (Nat × Nat))
    (tid v : Nat) (hv : dictGet smap tid = some v) (hz : ¬ v = 0)
    (hinj : ∀ x w, dictGet smap x = some w → w = v → x = tid)
    (cs : List DocComment) : ∀ start : Nat,
    ((keptComments env smap start cs).filter (fun q => q.story_id = v)).map
        (fun q => (q.name, q.email, q.content)) =
      (cs.filter (fun cq => cq.story_id = tid)).map
        (fun cq => (cq.name, cq.email, cq.content)) := by
  induction cs with
  | nil => intro start; simp [keptComments]
  | cons c rest ih =>
    intro start
    cases hm : dictGet smap c.story_id with
    | none =>
      have hnp : ¬ c.story_id = tid := by
        intro he
        rw [he, hv] at hm
        cases hm
      simp only [keptComments, hm, List.filter_cons]
      rw [if_neg (by simpa using hnp)]
      exact ih start
    | some w =>
      by_cases hw0 : w = 0
      · have hnp : ¬ c.story_id = tid := by
          intro he
          rw [he, hv] at hm
          injection hm with hm
          exact hz (hm.trans hw0)
        simp only [keptComments, hm, if_pos hw0, List.filter_cons]
        rw [if_neg (by simpa using hnp)]
        exact ih start
      · by_cases hw : w = v
        · have hp : c.story_id = tid := hinj c.story_id w hm hw
          simp only [keptComments, hm, if_neg hw0, List.filter_cons]
          rw [if_pos (by simpa using hw), if_pos (by simpa using hp)]
          simp only [List.map_cons]
          rw [ih (start + 1)]
        · have hnp : ¬ c.story_id = tid := by
            intro he
            rw [he, hv] at hm
            injection hm with hm
            exact hw hm.symm
          simp only [keptComments, hm, if_neg hw0, List.filter_cons]
          rw [if_neg (by simpa using hw), if_neg (by simpa using hnp)]
          exact ih (start + 1)

theorem keptVideos_filter_urls (pmap : List (Nat × Nat)) (newIds docIds : List Nat)
    (vs : List DocVideo)
    (h : ∀ v ∈ vs, ¬ v.url = "" ∧
      ((∃ w, dictGet pmap v.part_id = some w ∧ ¬ w = 0 ∧ w ∈ newIds) ↔
        v.part_id ∈ docIds)) :
    ∀ start : Nat,
      ((keptVideos pmap start vs).filter
          (fun q => q.part_id ∈ newIds)).map (fun q => q.url) =
        (vs.filter (fun v => v.part_id ∈ docIds)).map (fun v => v.url) := by
  induction vs with
  | nil => intro start; simp [keptVideos]
  | cons v0 rest ih =>
    intro start
    have h0 := h v0 (List.mem_cons_self v0 rest)
    have hrest : ∀ v ∈ rest, ¬ v.url = "" ∧
        ((∃ w, dictGet pmap v.part_id = some w ∧ ¬ w = 0 ∧ w ∈ newIds) ↔
          v.part_id ∈ docIds) :=
      fun v hv => h v (List.mem_cons_of_mem v0 hv)
    cases hm : dictGet pmap v0.part_id with
    | none =>
      have hnm : ¬ v0.part_id ∈ docIds := by
        intro hmm
        obtain ⟨w, hw, _, _⟩ := h0.2.mpr hmm
        rw [hm] at hw
        cases hw
      simp only [keptVideos, hm, List.filter_cons]
      rw [if_neg (by simpa using hnm)]
      exact ih hrest start
    | some w =>
      by_cases hz : w = 0
      · have hnm : ¬ v0.part_id ∈ docIds := by
          intro hmm
          obtain ⟨w2, hw2, hz2, _⟩ := h0.2.mpr hmm
          rw [hm] at hw2
          injection hw2 with hw2
          rw [← hw2] at hz2
          exact hz2 hz
        simp only [keptVideos, hm, if_pos hz, List.filter_cons]
        rw [if_neg (by simpa using hnm)]
        exact ih hrest start
      · simp only [keptVideos, hm, if_neg hz, if_neg h0.1, List.filter_cons]
        by_cases hw : w ∈ newIds
        · have hmm : v0.part_id ∈ docIds := h0.2.mp ⟨w, hm, hz, hw⟩
          rw [if_pos (by simpa using hw), if_pos (by simpa using hmm)]
          simp only [List.map_cons]
          rw [ih hrest (start + 1)]
        · have hnm : ¬ v0.part_id ∈ docIds := by
            intro hmm
            obtain ⟨w2, hw2, _, hw2n⟩ := h0.2.mpr hmm
            rw [hm] at hw2
            injection hw2 with hw2
            rw [← hw2] at hw2n
            exact hw hw2n
          rw [if_neg (by simpa using hw), if_neg (by simpa using hnm)]
          exact ih hrest (start + 1)

theorem importStories_overwrite (env : Env) (dec : Nat → Option String)
    (catMap : List (Nat × Nat)) (T : DocStory) (ex : Story)
    (hdec : dec T.id = some "overwrite")
    (hmatch : pyLower ex.title = pyLower (pyStrip T.title)) :
    ∀ (sts : List DocStory) (db : DB),
    T ∈ sts →
    (sts.map (fun st => st.id)).Nodup →
    (∀ st2 ∈ sts, ¬ st2.id = T.id → dec st2.id = some "overwrite" →
      ¬ pyLower (pyStrip st2.title) = pyLower ex.title) →
    (∀ st2 ∈ sts, ¬ st2.id = T.id → dec st2.id = some "overwrite" →
      ¬ pyLower (pyStrip st2.title) = pyLower T.title) →
    (∀ st2 ∈ sts, ¬ st2.id = T.id →
      ¬ pyLower st2.title = pyLower (pyStrip T.title)) →
    ex ∈ db.stories →
    (∀ x ∈ db.stories, pyLower x.title = pyLower (pyStrip T.title) → x = ex) →
    (∀ x ∈ db.stories, x.id < db.nextStoryId) →
    (db.stories.map (fun x => x.id)).Nodup →
    ((∀ s ∈ (importStories env dec catMap db sts).db.stories,
        (s ∈ db.stories ∧ ¬ s.id = ex.id) ∨ db.nextStoryId ≤ s.id) ∧
      (∀ p ∈ (importStories env dec catMap db sts).db.parts,
        p ∈ db.parts ∧ ¬ p.story_id = ex.id) ∧
      (∀ q ∈ (importStories env dec catMap db sts).db.comments,
        q ∈ db.comments ∧ ¬ q.story_id = ex.id) ∧
      (∀ v ∈ (importStories env dec catMap db sts).db.videos,
        v ∈ db.videos ∧ ¬ v.part_id ∈
          (db.parts.filter (fun p => p.story_id = ex.id)).map (fun p => p.id)) ∧
      (∀ pr ∈ (importStories env dec catMap db sts).db.storyCats,
        (pr ∈ db.storyCats ∧ ¬ pr.1 = ex.id) ∨ db.nextStoryId ≤ pr.1) ∧
      (∃ nT, db.nextStoryId ≤ nT ∧
        dictGet (importStories env dec catMap db sts).smap T.id = some nT ∧
        ∃ s ∈ (importStories env dec catMap db sts).db.stories, s.id = nT ∧
          s.title = T.title ∧ s.author = T.author ∧
          s.story_type = T.story_type)) := by
  intro sts
  induction sts with
  | nil => intro db hT; simp at hT
  | cons st0 rest ih =>
    intro db hT hN hnoex hnoT hnew hexmem huniq hbound hnodup
    rcases List.mem_cons.mp hT with heq | hTrest
    · -- the head is the overwritten story itself
      subst heq
      have hskip : ¬ dec T.id = some "skip" := by
        rw [hdec]
        decide
      simp only [importStories, if_neg hskip]
      have hfind : db.stories.find?
          (fun s => pyLower s.title = pyLower (pyStrip T.title)) = some ex := by
        apply find?_unique _ _ ex hexmem (by simpa using hmatch)
        intro x hx hpx
        exact huniq x hx (by simpa using hpx)
      have hstep1 : (overwriteStep dec db T).1 = deleteStoryCascade db ex.id := by
        unfold overwriteStep
        rw [if_pos hdec, hfind]
      rw [hstep1]
      have hc2 : (createStory env catMap (deleteStoryCascade db ex.id) T).2 =
          db.nextStoryId := rfl
      rw [hc2]
      have hcst : (createStory env catMap (deleteStoryCascade db ex.id) T).1.stories =
          db.stories.filter (fun x => ¬ x.id = ex.id) ++
            [mkStory env catMap db.nextStoryId T] := rfl
      have hcpa : (createStory env catMap (deleteStoryCascade db ex.id) T).1.parts =
          db.parts.filter (fun p => ¬ p.story_id = ex.id) := rfl
      have hcco : (createStory env catMap (deleteStoryCascade db ex.id) T).1.comments =
          db.comments.filter (fun cq => ¬ cq.story_id = ex.id) := rfl
      have hcvi : (createStory env catMap (deleteStoryCascade db ex.id) T).1.videos =
          db.videos.filter (fun v => ¬ v.part_id ∈
            (db.parts.filter (fun p => p.story_id = ex.id)).map (fun p => p.id)) := rfl
      have hcsc : (createStory env catMap (deleteStoryCascade db ex.id) T).1.storyCats =
          db.storyCats.filter (fun pr => ¬ pr.1 = ex.id) ++
            (resolvedCats catMap T).map (fun cc => (db.nextStoryId, cc)) := rfl
      have hcns : (createStory env catMap
          (deleteStoryCascade db ex.id) T).1.nextStoryId = db.nextStoryId + 1 := rfl
      obtain ⟨w1, w2⟩ := owc_wf env dec catMap T db hbound hnodup
      rw [hstep1] at w1 w2
      refine ⟨?_, ?_, ?_, ?_, ?_, ?_⟩
      · intro s hs
        by_cases hmem2 : s ∈ (createStory env catMap
            (deleteStoryCascade db ex.id) T).1.stories
        · rw [hcst] at hmem2
          rcases List.mem_append.mp hmem2 with h2 | h2
          · exact Or.inl ⟨List.mem_of_mem_filter h2,
              by simpa using List.of_mem_filter h2⟩
          · rcases List.mem_singleton.mp h2 with rfl
            right
            exact Nat.le_refl _
        · right
          have hge := importStories_new_ids env dec catMap rest _ w1 w2 s hs hmem2
          rw [hcns] at hge
          omega
      · intro p hp
        have hp2 := (importStories_frame env dec catMap rest
          (createStory env catMap (deleteStoryCascade db ex.id) T).1).1 p hp
        rw [hcpa] at hp2
        exact ⟨List.mem_of_mem_filter hp2, by simpa using List.of_mem_filter hp2⟩
      · intro q hq
        have hq2 := (importStories_frame env dec catMap rest
          (createStory env catMap (deleteStoryCascade db ex.id) T).1).2.1 q hq
        rw [hcco] at hq2
        exact ⟨List.mem_of_mem_filter hq2, by simpa using List.of_mem_filter hq2⟩
      · intro v hv
        have hv2 := (importStories_frame env dec catMap rest
          (createStory env catMap (deleteStoryCascade db ex.id) T).1).2.2.1 v hv
        rw [hcvi] at hv2
        exact ⟨List.mem_of_mem_filter hv2, by simpa using List.of_mem_filter hv2⟩
      · intro pr hpr
        rcases importStories_storyCats_src env dec catMap rest _ pr hpr with hl | hr
        · rw [hcsc] at hl
          rcases List.mem_append.mp hl with hl | hl
          · exact Or.inl ⟨List.mem_of_mem_filter hl,
              by simpa using List.of_mem_filter hl⟩
          · right
            simp only [List.mem_map] at hl
            obtain ⟨cc, hcc, he⟩ := hl
            have hpr1 : pr.1 = db.nextStoryId := by rw [← he]
            exact hpr1.ge
        · right
          rw [hcns] at hr
          omega
      · refine ⟨db.nextStoryId, Nat.le_refl _, ?_, ?_⟩
        · rw [dictGet_append]
          have hnone : dictGet (importStories env dec catMap
              (createStory env catMap (deleteStoryCascade db ex.id) T).1
                rest).smap T.id = none := by
            cases hg : dictGet (importStories env dec catMap
                (createStory env catMap (deleteStoryCascade db ex.id) T).1
                  rest).smap T.id with
            | none => rfl
            | some v =>
              have hmem3 := dictGet_mem _ _ _ hg
              obtain ⟨⟨st1, hst1, he, _⟩, _⟩ :=
                (importStories_smap env dec catMap rest
                  (createStory env catMap (deleteStoryCascade db ex.id) T).1).1
                  (T.id, v) hmem3
              exact absurd (List.mem_map.mpr ⟨st1, hst1, he⟩)
                (List.nodup_cons.mp (by simpa using hN)).1
          rw [hnone]
          simp only [Option.orElse]
          rw [dictGet_single, if_pos rfl]
        · have hsTmem : mkStory env catMap db.nextStoryId T ∈
              (createStory env catMap (deleteStoryCascade db ex.id) T).1.stories := by
            rw [hcst]
            exact List.mem_append.mpr (Or.inr (List.mem_singleton.mpr rfl))
          have hno2 : ∀ st2 ∈ rest, dec st2.id = some "overwrite" →
              ¬ pyLower (pyStrip st2.title) =
                pyLower (mkStory env catMap db.nextStoryId T).title := by
            intro st2 hst2 hd2
            have hid2 : ¬ st2.id = T.id := by
              intro he
              have hmem4 : T.id ∈ rest.map (fun st => st.id) :=
                List.mem_map.mpr ⟨st2, hst2, he⟩
              exact (List.nodup_cons.mp (by simpa using hN)).1 hmem4
            exact hnoT st2 (List.mem_cons_of_mem T hst2) hid2 hd2
          have hkeep := importStories_keeps env dec catMap rest
            (createStory env catMap (deleteStoryCascade db ex.id) T).1
            (mkStory env catMap db.nextStoryId T) w1 w2 hsTmem hno2
          exact ⟨mkStory env catMap db.nextStoryId T, hkeep, rfl, rfl, rfl, rfl⟩
    · -- the head is another story; step it and recurse
      have hstid : ¬ st0.id = T.id := by
        intro he
        have hmem4 : T.id ∈ rest.map (fun st => st.id) :=
          List.mem_map.mpr ⟨T, hTrest, rfl⟩
        rw [← he] at hmem4
        exact (List.nodup_cons.mp (by simpa using hN)).1 hmem4
      have hNr : (rest.map (fun st => st.id)).Nodup :=
        (List.nodup_cons.mp (by simpa using hN)).2
      have hnoexr : ∀ st2 ∈ rest, ¬ st2.id = T.id → dec st2.id = some "overwrite" →
          ¬ pyLower (pyStrip st2.title) = pyLower ex.title :=
        fun st2 h2 => hnoex st2 (List.mem_cons_of_mem st0 h2)
      have hnoTr : ∀ st2 ∈ rest, ¬ st2.id = T.id → dec st2.id = some "overwrite" →
          ¬ pyLower (pyStrip st2.title) = pyLower T.title :=
        fun st2 h2 => hnoT st2 (List.mem_cons_of_mem st0 h2)
      have hnewr : ∀ st2 ∈ rest, ¬ st2.id = T.id →
          ¬ pyLower st2.title = pyLower (pyStrip T.title) :=
        fun st2 h2 => hnew st2 (List.mem_cons_of_mem st0 h2)
      by_cases hsk : dec st0.id = some "skip"
      · simp only [importStories, if_pos hsk]
        exact ih db hTrest hNr hnoexr hnoTr hnewr hexmem huniq hbound hnodup
      · simp only [importStories, if_neg hsk]
        obtain ⟨w1, w2⟩ := owc_wf env dec catMap st0 db hbound hnodup
        have hns0 : (overwriteStep dec db st0).1.nextStoryId = db.nextStoryId :=
          (overwriteStep_char dec db st0).2.2.2.2.2.2.2.1
        have hkey : ex ∈ (overwriteStep dec db st0).1.stories ∧
            (∀ x ∈ (overwriteStep dec db st0).1.stories, x ∈ db.stories) ∧
            (overwriteStep dec db st0).1.parts.filter
                (fun p => p.story_id = ex.id) =
              db.parts.filter (fun p => p.story_id = ex.id) := by
          unfold overwriteStep
          split
          · rename_i how
            cases hf : db.stories.find? (fun x => pyLower x.title =
                pyLower (pyStrip st0.title)) with
            | none => exact ⟨hexmem, fun x hx => hx, rfl⟩
            | some ex0 =>
              have hex0mem : ex0 ∈ db.stories := List.mem_of_find?_eq_some hf
              have hex0p : pyLower ex0.title = pyLower (pyStrip st0.title) := by
                have := List.find?_some hf
                simpa using this
              have hne : ¬ ex.id = ex0.id := by
                intro hid
                have heq2 : ex = ex0 :=
                  List.inj_on_of_nodup_map hnodup hexmem hex0mem hid
                rw [← heq2] at hex0p
                exact hnoex st0 (List.mem_cons_self st0 rest) hstid how hex0p.symm
              refine ⟨?_, ?_, ?_⟩
              · simp only [deleteStoryCascade]
                exact List.mem_filter.mpr ⟨hexmem, by simpa using hne⟩
              · intro x hx
                simp only [deleteStoryCascade] at hx
                exact List.mem_of_mem_filter hx
              · simp only [deleteStoryCascade]
                rw [filter_swap]
                apply List.filter_eq_self.mpr
                intro q hq
                have hqs : q.story_id = ex.id := by
                  have := List.of_mem_filter hq
                  simpa using this
                simp only [decide_not, Bool.not_eq_true', decide_eq_false_iff_not]
                rw [hqs]
                intro hcontra
                rw [hcontra] at hne
                exact hne rfl
          · exact ⟨hexmem, fun x hx => hx, rfl⟩
        have hcst2 : (createStory env catMap (overwriteStep dec db st0).1
            st0).1.stories = (overwriteStep dec db st0).1.stories ++
              [mkStory env catMap (overwriteStep dec db st0).1.nextStoryId st0] := rfl
        have hcns2 : (createStory env catMap (overwriteStep dec db st0).1
            st0).1.nextStoryId = (overwriteStep dec db st0).1.nextStoryId + 1 := rfl
        have hexmem2 : ex ∈ (createStory env catMap
            (overwriteStep dec db st0).1 st0).1.stories := by
          rw [hcst2]
          exact List.mem_append.mpr (Or.inl hkey.1)
        have huniq2 : ∀ x ∈ (createStory env catMap
            (overwriteStep dec db st0).1 st0).1.stories,
            pyLower x.title = pyLower (pyStrip T.title) → x = ex := by
          intro x hx hpx
          rw [hcst2] at hx
          rcases List.mem_append.mp hx with hx | hx
          · exact huniq x (hkey.2.1 x hx) hpx
          · rcases List.mem_singleton.mp hx with rfl
            exact absurd hpx (hnew st0 (List.mem_cons_self st0 rest) hstid)
        obtain ⟨a, b, c, d, e, fEx⟩ := ih (createStory env catMap
            (overwriteStep dec db st0).1 st0).1 hTrest hNr hnoexr hnoTr hnewr
          hexmem2 huniq2 w1 w2
        refine ⟨?_, ?_, ?_, ?_, ?_, ?_⟩
        · intro s hs
          rcases a s hs with ⟨h2, hne2⟩ | hge
          · rw [hcst2] at h2
            rcases List.mem_append.mp h2 with h2 | h2
            · exact Or.inl ⟨hkey.2.1 s h2, hne2⟩
            · rcases List.mem_singleton.mp h2 with rfl
              right
              have hsid : (mkStory env catMap
                  (overwriteStep dec db st0).1.nextStoryId st0).id =
                    db.nextStoryId := by
                have hsid0 : (mkStory env catMap
                    (overwriteStep dec db st0).1.nextStoryId st0).id =
                      (overwriteStep dec db st0).1.nextStoryId := rfl
                rw [hsid0, hns0]
              exact hsid.ge
          · right
            rw [hcns2, hns0] at hge
            omega
        · intro p hp
          obtain ⟨hp2, hpne⟩ := b p hp
          exact ⟨(overwriteStep_char dec db st0).1 p hp2, hpne⟩
        · intro q hq
          obtain ⟨hq2, hqne⟩ := c q hq
          exact ⟨(overwriteStep_char dec db st0).2.1 q hq2, hqne⟩
        · intro v hv
          obtain ⟨hv2, hvne⟩ := d v hv
          constructor
          · exact (overwriteStep_char dec db st0).2.2.1 v hv2
          · intro hcontra
            apply hvne
            have hpeq : (createStory env catMap (overwriteStep dec db st0).1
                st0).1.parts.filter (fun p => p.story_id = ex.id) =
                  db.parts.filter (fun p => p.story_id = ex.id) := hkey.2.2
            rw [hpeq]
            exact hcontra
        · intro pr hpr
          rcases e pr hpr with ⟨h2, hne2⟩ | hge
          · have hsc2 : (createStory env catMap (overwriteStep dec db st0).1
                st0).1.storyCats = (overwriteStep dec db st0).1.storyCats ++
                  (resolvedCats catMap st0).map
                    (fun cc => ((overwriteStep dec db st0).1.nextStoryId, cc)) := rfl
            rw [hsc2] at h2
            rcases List.mem_append.mp h2 with h2 | h2
            · exact Or.inl ⟨(overwriteStep_char dec db st0).2.2.2.2.1 pr h2, hne2⟩
            · right
              simp only [List.mem_map] at h2
              obtain ⟨cc, hcc, he⟩ := h2
              have hpr1 : pr.1 = db.nextStoryId := by
                rw [← he, hns0]
              exact hpr1.ge
          · right
            rw [hcns2, hns0] at hge
            omega
        · obtain ⟨nT, hge, hdg, s, hsmem, hsid, ht, ha, hty⟩ := fEx
          refine ⟨nT, ?_, ?_, s, hsmem, hsid, ht, ha, hty⟩
          · rw [hcns2, hns0] at hge
            omega
          · rw [dictGet_append, hdg]
            simp [Option.orElse]

/-- C3.  Overwrite replaces, never merges: for an incoming story `T` of an
arbitrary import document whose decision is `overwrite` and for which the
store holds exactly one story `ex` with the same case-insensitive (trimmed)
title, `perform_import` deletes `ex` and everything cascading from it — no
surviving story carries `ex`'s identity, no chapter or comment row of the
final store belongs to it, no video-link hangs off its chapters, and its
category associations are gone — and creates the new story fresh: a story
with `T`'s scalars exists under a fresh identity `nT`, and the chapters,
comments and video-links filed under `nT` are exactly those the document
carries for `T`.  Hypotheses beyond the scenario are the store's identity
discipline (`idsWF`), the document well-formedness every exported document
satisfies (unique story and part identities, truthy video links), and
non-interference of the other incoming stories with the one title at stake:
no other incoming story matches `ex`'s title (else its own overwrite would
delete `ex` first, or its created row would make the match ambiguous) and
no other overwrite targets `T`'s title (else it would delete the story this
claim asserts to exist). -/
theorem overwrite_replaces (env : Env) (doc : Document) (dec : Nat → Option String)
    (db : DB) (T : DocStory) (ex : Story)
    (hmem : T ∈ doc.stories)
    (hdec : dec T.id = some "overwrite")
    (hexmem : ex ∈ db.stories)
    (hmatch : pyLower ex.title = pyLower (pyStrip T.title))
    (huniq : ∀ x ∈ db.stories, pyLower x.title = pyLower (pyStrip T.title) → x = ex)
    (hwf : idsWF db)
    (hdocN : (doc.stories.map (fun st => st.id)).Nodup)
    (hdocpN : (doc.parts.map (fun p => p.id)).Nodup)
    (hvurl : ∀ v ∈ doc.videos, ¬ v.url = "")
    (hnoex : ∀ st2 ∈ doc.stories, ¬ st2.id = T.id → dec st2.id = some "overwrite" →
      ¬ pyLower (pyStrip st2.title) = pyLower ex.title)
    (hnoT : ∀ st2 ∈ doc.stories, ¬ st2.id = T.id → dec st2.id = some "overwrite" →
      ¬ pyLower (pyStrip st2.title) = pyLower T.title)
    (hnew : ∀ st2 ∈ doc.stories, ¬ st2.id = T.id →
      ¬ pyLower st2.title = pyLower (pyStrip T.title)) :
    (∀ s ∈ (perform_import env doc dec db).db.stories, ¬ s.id = ex.id) ∧
      ((perform_import env doc dec db).db.parts.filter
        (fun p => p.story_id = ex.id) = []) ∧
      ((perform_import env doc dec db).db.comments.filter
        (fun cq => cq.story_id = ex.id) = []) ∧
      (∀ q ∈ (perform_import env doc dec db).db.videos,
        ¬ q.part_id ∈ (db.parts.filter (fun p => p.story_id = ex.id)).map
          (fun p => p.id)) ∧
      ((perform_import env doc dec db).db.storyCats.filter
        (fun pr => pr.1 = ex.id) = []) ∧
      (∃ nT, db.nextStoryId ≤ nT ∧
        (∃ s ∈ (perform_import env doc dec db).db.stories, s.id = nT ∧
          s.title = T.title ∧ s.author = T.author ∧ s.story_type = T.story_type) ∧
        (((perform_import env doc dec db).db.parts.filter
            (fun p => p.story_id = nT)).map (fun p => (p.part_number, p.content)) =
          (doc.parts.filter (fun p => p.story_id = T.id)).map
            (fun p => (p.part_number, p.content))) ∧
        (((perform_import env doc dec db).db.comments.filter
            (fun cq => cq.story_id = nT)).map
              (fun cq => (cq.name, cq.email, cq.content)) =
          (doc.comments.filter (fun cq => cq.story_id = T.id)).map
            (fun cq => (cq.name, cq.email, cq.content))) ∧
        (((perform_import env doc dec db).db.videos.filter (fun q =>
            q.part_id ∈ (((perform_import env doc dec db).db.parts.filter
              (fun p => p.story_id = nT)).map (fun p => p.id)))).map
                (fun q => q.url) =
          (doc.videos.filter (fun v =>
            v.part_id ∈ ((doc.parts.filter (fun p => p.story_id = T.id)).map
              (fun p => p.id)))).map (fun v => v.url))) := by
  obtain ⟨A, B, C, D, E, F, G⟩ := hwf
  simp only [perform_import]
  obtain ⟨s1e, s2e, s3e, s4e, s5e, s6e, s7e, s8e, s9e⟩ :=
    importCategories_state doc.categories db
  set db1 := (importCategories db doc.categories).1 with hdb1
  set cm := (importCategories db doc.categories).2 with hcm
  have hexmem1 : ex ∈ db1.stories := by rw [s1e]; exact hexmem
  have huniq1 : ∀ x ∈ db1.stories,
      pyLower x.title = pyLower (pyStrip T.title) → x = ex := by
    rw [s1e]; exact huniq
  have hbound1 : ∀ x ∈ db1.stories, x.id < db1.nextStoryId := by
    rw [s1e, s6e]; exact A
  have hnodup1 : (db1.stories.map (fun x => x.id)).Nodup := by
    rw [s1e]; exact B
  set r := importStories env dec cm db1 doc.stories with hr
  obtain ⟨a, b, c, d, e, fEx⟩ := importStories_overwrite env dec cm T ex hdec hmatch
    doc.stories db1 hmem hdocN hnoex hnoT hnew hexmem1 huniq1 hbound1 hnodup1
  rw [← hr] at a b c d e fEx
  rw [s1e, s6e] at a
  rw [s2e] at b
  rw [s3e] at c
  rw [s2e, s4e] at d
  rw [s5e, s6e] at e
  rw [s6e] at fEx
  obtain ⟨nT, hnTge, hnTget, sT, hsTmem, hsTid, hsTtitle, hsTauthor, hsTtype⟩ := fEx
  obtain ⟨SB, SV⟩ := importStories_smap_bounds env dec cm doc.stories db1
  rw [← hr] at SB SV
  rw [s6e] at SB
  have hinj : ∀ x w, dictGet r.smap x = some w → w = nT → x = T.id := by
    intro x w hx hw
    rw [hw] at hx
    exact dictGet_inj r.smap SV x T.id nT hx hnTget
  have hnz : ¬ nT = 0 := by
    have := G.1
    omega
  have hexlt : ex.id < db.nextStoryId := A ex hexmem
  obtain ⟨f1, f2, f3, f4, f5, f6, f7, f8, f9⟩ :=
    importStories_frame env dec cm doc.stories db1
  rw [← hr] at f6
  have hrnp : r.db.nextPartId = db.nextPartId := by rw [f6, s7e]
  obtain ⟨p1, p2, p3, p4, p5, p6, p7, p8, p9, p10, p11, p12⟩ :=
    importParts_eq env r.smap doc.parts r.db
  set ph := importParts env r.smap r.db doc.parts with hph
  obtain ⟨c1, c2, c3, c4, c5, c6, c7, c8, c9, c10, c11⟩ :=
    importComments_eq env r.smap doc.comments ph.1
  set db4 := importComments env r.smap ph.1 doc.comments with hdb4
  obtain ⟨v1, v2, v3, v4, v5, v6, v7, v8, v9, v10, v11⟩ :=
    importVideos_eq ph.2 doc.videos db4
  rw [p1] at c3
  rw [c3] at v3
  rw [p2] at c2
  rw [c2] at v2
  rw [p3, p8] at c1
  rw [c1] at v4
  rw [p4] at c4
  rw [p9] at c9
  rw [c4, c9] at v1
  rw [p5] at c5
  rw [c5] at v5
  refine ⟨?_, ?_, ?_, ?_, ?_, nT, ?_, ?_, ?_, ?_, ?_⟩
  · intro s hs
    rw [v2] at hs
    rcases a s hs with ⟨_, hne⟩ | hge
    · exact hne
    · intro hcontra
      rw [hcontra] at hge
      omega
  · rw [v3, List.filter_append]
    have h1 : r.db.parts.filter (fun p => p.story_id = ex.id) = [] := by
      apply List.filter_eq_nil_iff.mpr
      intro p hp
      simpa using (b p hp).2
    have h2 : (keptParts env r.smap r.db.nextPartId doc.parts).filter
        (fun p => p.story_id = ex.id) = [] := by
      apply List.filter_eq_nil_iff.mpr
      intro q hq
      obtain ⟨p0, hp0, hd, _, _, _⟩ := keptParts_src env r.smap doc.parts
        r.db.nextPartId q hq
      have hb2 : db.nextStoryId ≤ q.story_id := (SB _ (dictGet_mem _ _ _ hd)).1
      simp only [decide_eq_true_eq]
      omega
    rw [h1, h2]
    rfl
  · rw [v4, List.filter_append]
    have h1 : r.db.comments.filter (fun cq => cq.story_id = ex.id) = [] := by
      apply List.filter_eq_nil_iff.mpr
      intro q hq
      simpa using (c q hq).2
    have h2 : (keptComments env r.smap r.db.nextCommentId doc.comments).filter
        (fun cq => cq.story_id = ex.id) = [] := by
      apply List.filter_eq_nil_iff.mpr
      intro q hq
      obtain ⟨c0, hc0, hd, _, _, _, _, _⟩ := keptComments_src env r.smap
        doc.comments r.db.nextCommentId q hq
      have hb2 : db.nextStoryId ≤ q.story_id := (SB _ (dictGet_mem _ _ _ hd)).1
      simp only [decide_eq_true_eq]
      omega
    rw [h1, h2]
    rfl
  · intro q hq
    rw [v1] at hq
    rcases List.mem_append.mp hq with hq | hq
    · exact (d q hq).2
    · obtain ⟨v0, hv0, hd2, hnz2⟩ := keptVideos_part_ids ph.2 doc.videos
        r.db.nextVideoId q hq
      rw [p12] at hd2
      have hge2 : r.db.nextPartId ≤ q.part_id :=
        keptPMap_values_ge r.smap doc.parts r.db.nextPartId
          (v0.part_id, q.part_id) (dictGet_reverse_mem _ _ _ hd2)
      rw [hrnp] at hge2
      intro hcontra
      simp only [List.mem_map] at hcontra
      obtain ⟨p0, hp0, hpid⟩ := hcontra
      have hlt := (C p0 (List.mem_of_mem_filter hp0)).1
      omega
  · rw [v5]
    apply List.filter_eq_nil_iff.mpr
    intro pr hpr
    simp only [decide_eq_true_eq]
    rcases e pr hpr with ⟨_, hne⟩ | hge
    · exact hne
    · intro hcontra
      rw [hcontra] at hge
      omega
  · exact hnTge
  · exact ⟨sT, by rw [v2]; exact hsTmem, hsTid, hsTtitle, hsTauthor, hsTtype⟩
  · rw [v3, List.filter_append]
    have h1 : r.db.parts.filter (fun p => p.story_id = nT) = [] := by
      apply List.filter_eq_nil_iff.mpr
      intro p hp
      have hlt := (C p (b p hp).1).2
      simp only [decide_eq_true_eq]
      omega
    rw [h1, List.nil_append]
    exact keptParts_filter_pairs env r.smap T.id nT hnTget hinj doc.parts
      r.db.nextPartId
  · rw [v4, List.filter_append]
    have h1 : r.db.comments.filter (fun cq => cq.story_id = nT) = [] := by
      apply List.filter_eq_nil_iff.mpr
      intro q hq
      have hlt := E q (c q hq).1
      simp only [decide_eq_true_eq]
      omega
    rw [h1, List.nil_append]
    exact keptComments_filter_triples env r.smap T.id nT hnTget hnz hinj
      doc.comments r.db.nextCommentId
  · have hold1 : r.db.parts.filter (fun p => p.story_id = nT) = [] := by
      apply List.filter_eq_nil_iff.mpr
      intro p hp
      have hlt := (C p (b p hp).1).2
      simp only [decide_eq_true_eq]
      omega
    have hPfil : (importVideos ph.2 db4 doc.videos).parts.filter
        (fun p => p.story_id = nT) =
          (keptParts env r.smap r.db.nextPartId doc.parts).filter
            (fun p => p.story_id = nT) := by
      rw [v3, List.filter_append, hold1, List.nil_append]
    simp only [hPfil]
    rw [v1, List.filter_append]
    have hvo : r.db.videos.filter (fun v => v.part_id ∈
        (((keptParts env r.smap r.db.nextPartId doc.parts).filter
          (fun p => p.story_id = nT)).map (fun p => p.id))) = [] := by
      apply List.filter_eq_nil_iff.mpr
      intro v hv
      have hlt : v.part_id < db.nextPartId := F v (d v hv).1
      simp only [decide_eq_true_eq]
      intro hcontra
      simp only [List.mem_map] at hcontra
      obtain ⟨q0, hq0, hqid⟩ := hcontra
      have hge3 := keptParts_ids_ge env r.smap doc.parts r.db.nextPartId q0
        (List.mem_of_mem_filter hq0)
      rw [hrnp] at hge3
      omega
    rw [hvo, List.nil_append]
    apply keptVideos_filter_urls
    intro v hv
    refine ⟨hvurl v hv, ?_⟩
    constructor
    · rintro ⟨w, hw, hwz, hwin⟩
      rw [p12] at hw
      obtain ⟨p0, hp0, hpid0, nsid, hns1, q1, hq1, hq1id, hq1s⟩ :=
        keptPMap_pairing env r.smap doc.parts r.db.nextPartId v.part_id w
          (dictGet_reverse_mem _ _ _ hw)
      simp only [List.mem_map] at hwin
      obtain ⟨q2, hq2, hq2id⟩ := hwin
      have hq12 : q1 = q2 := by
        apply List.inj_on_of_nodup_map
          (keptParts_ids_nodup env r.smap doc.parts r.db.nextPartId) hq1
          (List.mem_of_mem_filter hq2)
        rw [hq1id, hq2id]
      have hq2s : q2.story_id = nT := by
        have := List.of_mem_filter hq2
        simpa using this
      have hnsT : nsid = nT := by
        rw [← hq1s, hq12, hq2s]
      have hps : p0.story_id = T.id := hinj p0.story_id nsid hns1 hnsT
      simp only [List.mem_map]
      refine ⟨p0, ?_, hpid0⟩
      exact List.mem_filter.mpr ⟨hp0, by simpa using hps⟩
    · intro hdocin
      simp only [List.mem_map] at hdocin
      obtain ⟨p0, hp0f, hpid0⟩ := hdocin
      have hp0 : p0 ∈ doc.parts := List.mem_of_mem_filter hp0f
      have hp0s : p0.story_id = T.id := by
        have := List.of_mem_filter hp0f
        simpa using this
      have hlink : dictGet r.smap p0.story_id = some nT := by
        rw [hp0s]
        exact hnTget
      obtain ⟨u, hu⟩ := keptPMap_complete r.smap doc.parts r.db.nextPartId p0
        hp0 nT hlink
      have hkeysN : (((keptPMap r.smap r.db.nextPartId doc.parts).reverse).map
          (fun kv => kv.1)).Nodup := by
        rw [List.map_reverse]
        apply List.nodup_reverse.mpr
        exact (keptPMap_keys_sublist r.smap doc.parts r.db.nextPartId).nodup hdocpN
      have hdg2 : dictGet ((keptPMap r.smap r.db.nextPartId doc.parts).reverse)
          p0.id = some u := by
        apply dictGet_nodup_mem _ hkeysN
        exact List.mem_reverse.mpr hu
      refine ⟨u, ?_, ?_, ?_⟩
      · rw [p12, ← hpid0]
        exact hdg2
      · have hge4 : r.db.nextPartId ≤ u :=
          keptPMap_values_ge r.smap doc.parts r.db.nextPartId (p0.id, u) hu
        rw [hrnp] at hge4
        have := G.2
        omega
      · obtain ⟨p1, hp1, hp1id, nsid, hns1, q1, hq1, hq1id, hq1s⟩ :=
          keptPMap_pairing env r.smap doc.parts r.db.nextPartId p0.id u hu
        have hp10 : p1 = p0 := by
          apply List.inj_on_of_nodup_map hdocpN hp1 hp0
          exact hp1id
        have hnsT : nsid = nT := by
          rw [hp10] at hns1
          rw [hlink] at hns1
          injection hns1 with hns1
          exact hns1.symm
        simp only [List.mem_map]
        refine ⟨q1, ?_, hq1id⟩
        apply List.mem_filter.mpr
        refine ⟨hq1, ?_⟩
        simp only [decide_eq_true_eq]
        rw [hq1s, hnsT]

/-- C3 witness: the spec's example inside a multi-story import.  The store
holds `Alpha` (identity 1) with three chapters, one comment and one video;
the incoming document carries a category, a fresh `Beta` and `Alpha` with
one chapter under an `overwrite` decision.  Afterwards no row of the final
store belongs to the old `Alpha`, and a fresh story titled `Alpha` exists
whose chapters are exactly the one incoming chapter. -/
theorem overwrite_replaces_witness :
    (∀ s ∈ (perform_import plainEnv docMulti decOverwrite7 dbAlpha).db.stories,
        ¬ s.id = (mkStoryRow 1 "Alpha").id) ∧
      ((perform_import plainEnv docMulti decOverwrite7 dbAlpha).db.parts.filter
        (fun p => p.story_id = (mkStoryRow 1 "Alpha").id) = []) ∧
      ((perform_import plainEnv docMulti decOverwrite7 dbAlpha).db.comments.filter
        (fun cq => cq.story_id = (mkStoryRow 1 "Alpha").id) = []) ∧
      ∃ nT, dbAlpha.nextStoryId ≤ nT ∧
        (∃ s ∈ (perform_import plainEnv docMulti decOverwrite7 dbAlpha).db.stories,
          s.id = nT ∧ s.title = (mkDocStory 7 "Alpha").title) ∧
        ((perform_import plainEnv docMulti decOverwrite7 dbAlpha).db.parts.filter
            (fun p => p.story_id = nT)).map (fun p => (p.part_number, p.content)) =
          (docMulti.parts.filter (fun p => p.story_id = (mkDocStory 7 "Alpha").id)).map
            (fun p => (p.part_number, p.content)) := by
  obtain ⟨h1, h2, h3, h4, h5, nT, h6, ⟨s, hs, hsid, ht, _, _⟩, h8, h9, h10⟩ :=
    overwrite_replaces plainEnv docMulti decOverwrite7 dbAlpha
      (mkDocStory 7 "Alpha") (mkStoryRow 1 "Alpha")
      (by decide) (by decide) (by decide) (by decide) (by decide) (by decide)
      (by decide) (by decide) (by decide) (by decide) (by decide) (by decide)
  exact ⟨h1, h2, h3, nT, h6, ⟨s, hs, hsid, ht⟩, h8⟩

end Film
